import Mathlib

/-!
Verification development for the capsul pipeline XML codec
(`capsul/pipeline/xml.py`) and the activation-inspector helpers
(`capsul/wip/qt_gui/activation_inspector.py`).

Python strings are modelled as lists of characters (`Str`), XML documents as
a tree of elements with string attributes, and the two codec functions
`create_xml_pipeline` and `save_xml_pipeline` are translated directly from
the source.  The `PipelineConstructor` builder and the `Pipeline` object that
the codec drives live in parts of the repository that are not present here;
they are modelled from the specification (see the doc comments marked
`Modelled from the spec:`).
-/

deriving instance DecidableEq for Except

/-- Reduction of `Except` bind on a success value. -/
@[simp] theorem exceptOkBind {ε α β : Type} (a : α) (f : α → Except ε β) :
    (Except.ok a >>= f) = f a := rfl

/-- Propagation of `Except` bind on an error value. -/
@[simp] theorem exceptErrorBind {ε α β : Type} (e : ε) (f : α → Except ε β) :
    (Except.error e >>= f : Except ε β) = Except.error e := rfl

namespace Capsul

/-- A Python string, modelled as its list of characters. -/
abbrev Str := List Char

/-- Characters of a Lean string literal, used to write concrete `Str` values. -/
def chs (s : String) : Str := s.data

/-- Python `c in s` for a character and a string. -/
def pyIn (c : Char) (s : Str) : Bool := s.any (fun d => d = c)

/-- Python `s.rsplit('.', 1)` restricted to the case used by the code:
returns `some (before, after)` split at the *last* dot, or `none` when the
string has no dot (in which case the 2-tuple unpacking in the source raises).
-/
def splitLastDot : Str → Option (Str × Str)
  | [] => none
  | c :: rest =>
    match splitLastDot rest with
    | some (a, b) => some (c :: a, b)
    | none => if c = '.' then some ([], rest) else none

/-- Leftmost occurrence of the substring `->`: `some (before, after)`. -/
def findArrow : Str → Option (Str × Str)
  | [] => none
  | [_] => none
  | c :: d :: rest =>
    if c = '-' ∧ d = '>' then some ([], rest)
    else (findArrow (d :: rest)).map (fun ab => (c :: ab.1, ab.2))

/-- Python `source, dest = link.split('->')`: succeeds exactly when the
string contains exactly one occurrence of `->`. -/
def splitArrow (s : Str) : Option (Str × Str) :=
  match findArrow s with
  | none => none
  | some (a, b) =>
    match findArrow b with
    | none => some (a, b)
    | some _ => none

/-- Python `'%s' % x` for an optional string (`None` prints as `"None"`). -/
def pyFmt (o : Option Str) : Str := o.getD (chs ("None"))

/-- Python `s.strip()`. -/
def pyStrip (s : Str) : Str :=
  ((s.dropWhile Char.isWhitespace).reverse.dropWhile Char.isWhitespace).reverse

/-- Ordered-dictionary assignment `d[k] = v`: replaces the value in place if
the key is present (keeping its original position), appends otherwise. -/
def odSet {K V : Type} [DecidableEq K] : List (K × V) → K → V → List (K × V)
  | [], k, v => [(k, v)]
  | (k', v') :: rest, k, v =>
    if k' = k then (k, v) :: rest else (k', v') :: odSet rest k v

/-- Python `del d[k]`: `none` when the key is absent (a `KeyError`). -/
def ddel {K V : Type} [DecidableEq K] : List (K × V) → K → Option (List (K × V))
  | [], _ => none
  | (k', v') :: rest, k =>
    if k' = k then some rest else (ddel rest k).map (fun m => (k', v') :: m)

/-! ## XML documents

An element tree as produced by `xml.etree.cElementTree`: a tag, string
attributes, child elements and optional text. -/

/-- An XML element: tag, attributes, children, text. -/
inductive XElem where
  | mk (tag : Str) (attrs : List (Str × Str)) (children : List XElem)
       (text : Option Str)

def XElem.tag : XElem → Str
  | .mk t _ _ _ => t

def XElem.attrs : XElem → List (Str × Str)
  | .mk _ a _ _ => a

def XElem.children : XElem → List XElem
  | .mk _ _ c _ => c

def XElem.text : XElem → Option Str
  | .mk _ _ _ t => t

/-- Python `element.get(name)`: `None` when the attribute is absent. -/
def XElem.get (e : XElem) (a : Str) : Option Str := e.attrs.lookup a

/-! ## Pipeline state

The graph state built by the `PipelineConstructor` builder.  Modelled from
the spec (§3 Data Model, §4.4 GraphBuilder): the builder itself is
repository code that is not part of the sources here; its observable state
is the node map (node `""` holding the pipeline-level exported plugs), the
per-plug outgoing links, the selection groups and the presentation
metadata.  `ν` is the abstracted domain of the float values used for node
positions and the zoom factor. -/

/-- A plug: direction flag and outgoing links `(dest node, dest plug, weak)`,
as walked by `save_xml_pipeline._write_links` (`plug.output`,
`plug.links_to`, `link[0]`, `link[1]`, `link[-1]`). -/
structure Plug where
  output : Bool
  links_to : List (Str × Str × Bool)
deriving DecidableEq

/-- A node: the module reference it was built from, whether it is an
iteration node (`ProcessIteration`), its iterative parameter names, and its
plugs in declaration order. -/
structure PNode where
  module : Str
  isIter : Bool
  iterative : List Str
  plugs : List (Str × Plug)
deriving DecidableEq

/-- The pipeline graph state.  `nodes` is an ordered name → node map whose
first entry is the pipeline-level node `""`; `selection_groups` maps a
selection parameter to its ordered named groups of process names. -/
structure Pipeline (ν : Type) where
  nodes : List (Str × PNode)
  selection_groups : List (Str × List (Str × List Str))
  node_position : List (Option Str × (ν × ν))
  scene_scale_factor : Option ν
  documentation : Option Str
deriving DecidableEq

/-- The empty pipeline a fresh builder starts from: only the pipeline-level
node `""` with no plugs. -/
def emptyPipeline (ν : Type) : Pipeline ν :=
  { nodes := [([], ⟨[], false, [], []⟩)]
    selection_groups := []
    node_position := []
    scene_scale_factor := none
    documentation := none }

/-- Look up a plug by node name and plug name. -/
def Pipeline.getPlug {ν : Type} (p : Pipeline ν) (n q : Str) : Option Plug :=
  (p.nodes.lookup n).bind (fun node => node.plugs.lookup q)

/-- Update the plug `q` of node `n` in place. -/
def odUpd {K V : Type} [DecidableEq K] (m : List (K × V)) (k : K) (f : V → V) :
    List (K × V) :=
  m.map (fun kv => if kv.1 = k then (kv.1, f kv.2) else kv)

/-- Update a plug of a node of the pipeline in place. -/
def Pipeline.updPlug {ν : Type} (p : Pipeline ν) (n q : Str) (f : Plug → Plug) :
    Pipeline ν :=
  let g : PNode → PNode := fun node => { node with plugs := odUpd node.plugs q f }
  { p with nodes := odUpd p.nodes n g }

/-- All links of the pipeline as `(src node, src plug, dest node, dest plug,
weak)` tuples, in node / plug / insertion order. -/
def allLinksD {ν : Type} (p : Pipeline ν) :
    List (Str × Str × Str × Str × Bool) :=
  p.nodes.flatMap (fun np =>
    np.2.plugs.flatMap (fun qp =>
      qp.2.links_to.map (fun l => (np.1, qp.1, l))))

/-- Number of non-weak links into the plug `(dn, dq)`. -/
def incomingCount {ν : Type} (p : Pipeline ν) (dn dq : Str) : Nat :=
  (allLinksD p).countP
    (fun t => decide (t.2.2.1 = dn ∧ t.2.2.2.1 = dq ∧ t.2.2.2.2 = false))

/-- Is `(dn, dq)` an iterative plug (sequence-typed, fan-in allowed)? -/
def isIterPlug {ν : Type} (p : Pipeline ν) (dn dq : Str) : Bool :=
  match p.nodes.lookup dn with
  | some node => node.iterative.contains dq
  | none => false

/-- Append one outgoing link `(dest node, dest plug, weak)` to a plug. -/
def appendLink (dn dq : Str) (w : Bool) : Plug → Plug :=
  fun pl => { pl with links_to := pl.links_to ++ [(dn, dq, w)] }

/-- Append one outgoing link to the plug `sq` of a node. -/
def appendLinkN (sq dn dq : Str) (w : Bool) : PNode → PNode :=
  fun nd => { nd with plugs := odUpd nd.plugs sq (appendLink dn dq w) }

/-- Append a fresh link-less plug to the pipeline-level node (the first
half of `export_parameter`). -/
def addPipePlug {ν : Type} (p : Pipeline ν) (name : Str) (ob : Bool) :
    Pipeline ν :=
  let f : PNode → PNode :=
    fun nd => { nd with plugs := nd.plugs ++ [(name, ⟨ob, []⟩)] }
  { p with nodes := odUpd p.nodes [] f }

/-- Modelled from the spec: the core of `GraphBuilder.add_link` (§3 Link
invariant, §4.1, §4.3 tie-break policy).  Both endpoints must resolve; the
source must be an output plug of a named node or a pipeline-level input
(node `""`), the destination an input plug of a named node or a
pipeline-level output; a link duplicating an existing link with the same
weakness is rejected; a non-weak link into a non-iterative input plug that
already has a non-weak incoming link is rejected (`MultipleSourcesError`).
On success the link is appended to the source plug's `links_to`. -/
def addLinkCore {ν : Type} (p : Pipeline ν) (sn sq dn dq : Str) (weak : Bool) :
    Except String (Pipeline ν) :=
  (p.getPlug sn sq).elim (.error ("InvalidLinkError: unknown source plug"))
    (fun sp =>
      (p.getPlug dn dq).elim (.error ("InvalidLinkError: unknown dest plug"))
        (fun dp =>
          if ¬ (if sn = [] then sp.output = false else sp.output = true) then
            .error ("InvalidLinkError: source polarity")
          else if ¬ (if dn = [] then dp.output = true
                     else dp.output = false) then
            .error ("InvalidLinkError: dest polarity")
          else if (sn, sq, dn, dq, weak) ∈ allLinksD p then
            .error ("InvalidLinkError: duplicate link")
          else if dn ≠ [] ∧ weak = false ∧ isIterPlug p dn dq = false ∧
              1 ≤ incomingCount p dn dq then
            .error ("MultipleSourcesError")
          else
            .ok (p.updPlug sn sq (appendLink dn dq weak))))

/-- Endpoint resolution of `GraphBuilder.add_link`'s string argument:
`node.plug` (split at the last dot, as the codec's own `rsplit('.', 1)`
does) or a bare pipeline-parameter name. -/
def parseEndpoint (s : Str) : Str × Str :=
  if pyIn '.' s then
    match splitLastDot s with
    | some (n, q) => (n, q)
    | none => ([], s)
  else ([], s)

/-! ## Builder calls

The calls `create_xml_pipeline` issues on its `PipelineConstructor`, in
order.  Option-typed fields are attribute values that may be absent
(Python `None`). -/

/-- One `PipelineConstructor` call. -/
inductive BOp (ν π : Type) where
  | set_documentation (doc : Str)
  | add_process (name mod : Option Str)
      (sets : List (Option Str × Option π))
      (copies cleans : List (Option Str))
  | add_iterative_process (name mod : Option Str)
      (sets : List (Option Str × Option π))
      (copies cleans : List (Option Str))
      (iterative_plugs : List (Option Str))
  | call_set_usedefault (pname param : Option Str)
  | add_link (link : Str) (weak_link : Bool)
  | export_parameter (node plug name : Str)
  | add_processes_selection (param : Option Str)
      (groups : List (Option Str × List (Option Str)))
  | set_node_position (name : Option Str) (x y : ν)
  | set_scene_scale_factor (level : ν)

/-- A process library: maps a module reference to the declared parameter
list of the wrapped computational unit, each parameter `(name, is_output)`
becoming one plug.  Modelled from the spec (§3 LeafNode: "wraps one
computational unit's declared parameter set, each parameter becoming one
plug"); the actual import machinery is outside the modelled sources. -/
abbrev Lib := Str → Option (List (Str × Bool))

/-- Require an attribute value to be present (the builder rejects `None`
names; modelled from the spec §4.4: "each call validates referential
integrity immediately"). -/
def reqS (o : Option Str) : Except String Str :=
  match o with
  | some s => .ok s
  | none => .error ("TypeError: expected a string")

/-- Require every name in a list to be present. -/
def reqAll (l : List (Option Str)) : Except String (List Str) :=
  l.mapM reqS

/-- Modelled from the spec: apply one builder call to the pipeline state
(§4.4 GraphBuilder; the builder is repository code absent from the sources
here).  `add_process` / `add_iterative_process` create a node whose plugs
are the module's declared parameters; `add_link` parses its
`source->dest` argument string and delegates to `addLinkCore`;
`export_parameter` creates a pipeline-level plug aliasing the inner plug
(same direction) together with the connecting link;
`add_processes_selection` records a selection group after checking that
the named processes exist; the gui calls only record metadata. -/
def applyOp {ν π : Type} (lib : Lib) (p : Pipeline ν) :
    BOp ν π → Except String (Pipeline ν)
  | .set_documentation d => .ok { p with documentation := some d }
  | .add_process name mod _sets _copies _cleans => do
    let n ← reqS name
    let m ← reqS mod
    (lib m).elim (.error ("ImportError: unknown module")) (fun params =>
      if (p.nodes.lookup n).isSome then
        .error ("DuplicateNodeError")
      else
        .ok { p with nodes :=
          p.nodes ++ [(n, ⟨m, false, [],
            params.map (fun pr => (pr.1, ⟨pr.2, []⟩))⟩)] })
  | .add_iterative_process name mod _sets _copies _cleans iterp => do
    let n ← reqS name
    let m ← reqS mod
    let iter ← reqAll iterp
    (lib m).elim (.error ("ImportError: unknown module")) (fun params =>
      if (p.nodes.lookup n).isSome then
        .error ("DuplicateNodeError")
      else
        .ok { p with nodes :=
          p.nodes ++ [(n, ⟨m, true, iter,
            params.map (fun pr => (pr.1, ⟨pr.2, []⟩))⟩)] })
  | .call_set_usedefault pname _param => do
    let n ← reqS pname
    if (p.nodes.lookup n).isSome then .ok p
    else .error ("KeyError: unknown process")
  | .add_link link weak =>
    (splitArrow link).elim (.error ("ValueError: invalid link string"))
      (fun sd =>
        let se := parseEndpoint sd.1
        let de := parseEndpoint sd.2
        addLinkCore p se.1 se.2 de.1 de.2 weak)
  | .export_parameter node plug name =>
    ((p.nodes.lookup node).bind (fun nd => nd.plugs.lookup plug)).elim
      (.error ("DanglingReferenceError: unknown inner plug"))
      (fun ip =>
        if ((p.nodes.lookup []).bind
            (fun nd => nd.plugs.lookup name)).isSome then
          .error ("ConflictingExportError")
        else
          let h : PNode → PNode :=
            fun nd =>
              { nd with plugs := nd.plugs ++ [(name, ⟨ip.output, []⟩)] }
          let p1 : Pipeline ν := { p with nodes := odUpd p.nodes [] h }
          if ip.output then addLinkCore p1 node plug [] name false
          else addLinkCore p1 [] name node plug false)
  | .add_processes_selection param groups => do
    let pn ← reqS param
    let gs ← groups.mapM (fun g => do
      let gn ← reqS g.1
      let ms ← reqAll g.2
      if ms.all (fun m => (p.nodes.lookup m).isSome) then .ok (gn, ms)
      else .error ("DanglingReferenceError: unknown process in group"))
    .ok { p with selection_groups := odSet p.selection_groups pn gs }
  | .set_node_position name x y =>
    .ok { p with node_position := odSet p.node_position name (x, y) }
  | .set_scene_scale_factor v =>
    .ok { p with scene_scale_factor := some v }

/-- Run a list of builder calls from a pipeline state. -/
def runOps {ν π : Type} (lib : Lib) (p : Pipeline ν)
    (ops : List (BOp ν π)) : Except String (Pipeline ν) :=
  ops.foldlM (applyOp lib) p

/-! ## Decoder: `create_xml_pipeline`

Translated from `capsul/pipeline/xml.py` lines 19-136.  Two external
helpers are abstracted as parameters: `string_to_value` (a fallible parser
from `capsul.process.xml`, parameter `s2v` below, returning `none` when the
Python function returns `None`) and Python's `float()` on attribute strings
(parameter `parseNum`, failing on `None` exactly as `float(None)` raises).
The builder calls are collected per document entry by `decode_child` and
applied immediately, as in the source. -/

/-- Accumulator of the `<process>` child loop: the `set` directives (name,
parsed value), the nipype `inputs_to_copy` / `inputs_to_clean` lists, the
`nipype_usedefault` list, and the `iterate` parameter names, each in
document order. -/
structure ProcAcc (π : Type) where
  sets : List (Option Str × Option π)
  copies : List (Option Str)
  cleans : List (Option Str)
  usedefaults : List (Option Str)
  iterate : List (Option Str)

/-- One iteration of the `<process>` child loop (xml.py lines 52-76). -/
def procChild {π : Type} (s2v : Option Str → Except String (Option π))
    (acc : ProcAcc π) (c : XElem) : Except String (ProcAcc π) :=
  if c.tag = chs ("set") then do
    let v ← s2v (c.get (chs ("value")))
    .ok { acc with sets := acc.sets ++ [(c.get (chs ("name")), v)] }
  else if c.tag = chs ("iterate") then
    .ok { acc with iterate := acc.iterate ++ [c.get (chs ("name"))] }
  else if c.tag = chs ("nipype") then
    let n := c.get (chs ("name"))
    let acc1 := if c.get (chs ("usedefault")) = some (chs ("true")) then
      { acc with usedefaults := acc.usedefaults ++ [n] } else acc
    let cf := c.get (chs ("copyfile"))
    if cf = some (chs ("true")) then
      .ok { acc1 with copies := acc1.copies ++ [n] }
    else if cf = some (chs ("discard")) then
      .ok { acc1 with copies := acc1.copies ++ [n],
                      cleans := acc1.cleans ++ [n] }
    else .ok acc1
  else .error ("ValueError: invalid tag in process")

/-- The `<link>` entry branch (xml.py lines 85-102).  `exported` is the
decoder's `exported_parameters` set; the produced builder calls carry the
`'%s->%s'`-formatted link string exactly as the source builds it. -/
def decodeLink {ν π : Type} (e : XElem) (exported : List Str) :
    Except String (List (BOp ν π) × List Str) := do
  let dO := e.get (chs ("dest"))
  let s ← reqS (e.get (chs ("source")))
  if pyIn '.' s then do
    let d ← reqS dO
    if pyIn '.' d then
      .ok ([.add_link (s ++ chs ("->") ++ d) false], exported)
    else if d ∈ exported then
      .ok ([.add_link (s ++ chs ("->") ++ d) false], exported)
    else
      (splitLastDot s).elim (.error ("unreachable: dotted source"))
        (fun nq => .ok ([.export_parameter nq.1 nq.2 d], d :: exported))
  else if s ∈ exported then
    .ok ([.add_link (s ++ chs ("->") ++ pyFmt dO) false], exported)
  else do
    let d ← reqS dO
    (splitLastDot d).elim
      (.error ("ValueError: not enough values to unpack"))
      (fun nq => .ok ([.export_parameter nq.1 nq.2 s], s :: exported))

/-- The `<processes_group>` grandchild loop (xml.py lines 110-115),
with the accumulated group member names as explicit state. -/
def selGroupAux (ms : List (Option Str)) :
    List XElem → Except String (List (Option Str))
  | [] => .ok ms
  | g :: gs =>
    if g.tag = chs ("process") then
      selGroupAux (ms ++ [g.get (chs ("name"))]) gs
    else .error ("ValueError: invalid tag in processes_group")

/-- The `<processes_group>` grandchild loop (xml.py lines 110-115). -/
def selGroup (c : XElem) : Except String (List (Option Str)) :=
  selGroupAux [] c.children

/-- The `<processes_selection>` child loop (xml.py lines 106-118); the
groups dictionary has ordered-dict assignment semantics. -/
def selGroupsAux (gs : List (Option Str × List (Option Str))) :
    List XElem → Except String (List (Option Str × List (Option Str)))
  | [] => .ok gs
  | c :: cs =>
    if c.tag = chs ("processes_group") then do
      let ms ← selGroup c
      selGroupsAux (odSet gs (c.get (chs ("name"))) ms) cs
    else .error ("ValueError: invalid tag in processes_selection")

/-- The `<processes_selection>` entry branch (xml.py lines 103-120). -/
def decodeSelection {ν π : Type} (e : XElem) :
    Except String (List (BOp ν π)) := do
  let groups ← selGroupsAux [] e.children
  .ok [.add_processes_selection (e.get (chs ("name"))) groups]

/-- The `<gui>` child loop (xml.py lines 122-133), with the collected
builder calls as explicit state. -/
def decodeGuiAux {ν π : Type} (parseNum : Option Str → Except String ν)
    (ops : List (BOp ν π)) : List XElem → Except String (List (BOp ν π))
  | [] => .ok ops
  | c :: cs =>
    if c.tag = chs ("position") then do
      let n := c.get (chs ("name"))
      let x ← parseNum (c.get (chs ("x")))
      let y ← parseNum (c.get (chs ("y")))
      decodeGuiAux parseNum (ops ++ [.set_node_position n x y]) cs
    else if c.tag = chs ("zoom") then do
      let lv ← parseNum (c.get (chs ("level")))
      decodeGuiAux parseNum (ops ++ [.set_scene_scale_factor lv]) cs
    else .error ("ValueError: invalid tag in gui")

/-- The `<gui>` entry branch (xml.py lines 121-133). -/
def decodeGui {ν π : Type} (parseNum : Option Str → Except String ν)
    (e : XElem) : Except String (List (BOp ν π)) :=
  decodeGuiAux parseNum [] e.children

/-- Decode one top-level entry of the document into the builder calls it
issues, threading the `exported_parameters` set (xml.py lines 42-135). -/
def decode_child {ν π : Type} (s2v : Option Str → Except String (Option π))
    (parseNum : Option Str → Except String ν) (e : XElem)
    (exported : List Str) :
    Except String (List (BOp ν π) × List Str) :=
  if e.tag = chs ("doc") then
    match e.text with
    | none => .error ("AttributeError: doc element has no text")
    | some t => .ok ([.set_documentation (pyStrip t)], exported)
  else if e.tag = chs ("process") then do
    let pname := e.get (chs ("name"))
    let mo := e.get (chs ("module"))
    let acc ← e.children.foldlM (procChild s2v) ⟨[], [], [], [], []⟩
    let main : BOp ν π :=
      if acc.iterate ≠ [] then
        .add_iterative_process pname mo acc.sets acc.copies acc.cleans
          acc.iterate
      else .add_process pname mo acc.sets acc.copies acc.cleans
    .ok (main :: acc.usedefaults.map (fun u => .call_set_usedefault pname u),
         exported)
  else if e.tag = chs ("link") then decodeLink e exported
  else if e.tag = chs ("processes_selection") then do
    let ops ← decodeSelection e
    .ok (ops, exported)
  else if e.tag = chs ("gui") then do
    let ops ← decodeGui parseNum e
    .ok (ops, exported)
  else .error ("ValueError: invalid tag in pipeline")

/-- The decoder's main loop: decode each entry and apply its builder calls
immediately, threading the pipeline under construction and the
`exported_parameters` set. -/
def createAux {ν π : Type} (lib : Lib)
    (s2v : Option Str → Except String (Option π))
    (parseNum : Option Str → Except String ν) (p : Pipeline ν)
    (exported : List Str) : List XElem → Except String (Pipeline ν)
  | [] => .ok p
  | e :: es => do
    let r ← decode_child s2v parseNum e exported
    let p' ← runOps lib p r.1
    createAux lib s2v parseNum p' r.2 es

/-- The decoder's entry loop started from a fresh builder. -/
def createBody {ν π : Type} (lib : Lib)
    (s2v : Option Str → Except String (Option π))
    (parseNum : Option Str → Except String ν) (children : List XElem) :
    Except String (Pipeline ν) :=
  createAux lib s2v parseNum (emptyPipeline ν) [] children

/-- `create_xml_pipeline` (xml.py lines 19-136): version check, then the
entry loop.  The Python guard is `if version and version != '2.0'`, so an
absent attribute (`None`) and the empty string both pass the check. -/
def create_xml_pipeline {ν π : Type} (lib : Lib)
    (s2v : Option Str → Except String (Option π))
    (parseNum : Option Str → Except String ν) (doc : XElem) :
    Except String (Pipeline ν) :=
  match doc.get (chs ("capsul_xml")) with
  | some v =>
    if v ≠ [] ∧ v ≠ chs ("2.0") then
      .error ("UnsupportedVersionError: only Capsul XML 2.0 is supported")
    else createBody lib s2v parseNum doc.children
  | none => createBody lib s2v parseNum doc.children

/-! ## Encoder: `save_xml_pipeline`

Translated from `capsul/pipeline/xml.py` lines 139-278.  The element tree
is built; file serialization is not modelled.  The `NipypeProcess` branch
of `_write_process` is omitted: the modelled builder produces no nipype
nodes (note the branch dereferences an undefined name `proces` in the
source).  The `Switch` branch of `_write_processes` is likewise
unreachable: the modelled builder API creates no switch nodes. -/

/-- `_write_process` (xml.py lines 156-190): a `<process>` element.  The
source recombines `process.__module__` and the class name into the dotted
reference the node was created from; the node's stored module reference is
used directly. -/
def _write_process (mo name : Str) : XElem :=
  .mk (chs ("process")) [(chs ("module"), mo), (chs ("name"), name)] [] none

/-- `_write_iteration` (xml.py lines 192-196): a `<process>` element with
one `<iterate>` child per iterative parameter. -/
def _write_iteration (mo name : Str) (iter : List Str) : XElem :=
  .mk (chs ("process")) [(chs ("module"), mo), (chs ("name"), name)]
    (iter.map (fun q => .mk (chs ("iterate")) [(chs ("name"), q)] [] none))
    none

/-- `_write_processes` (xml.py lines 198-210): one element per named node,
skipping the pipeline node `""`. -/
def _write_processes {ν : Type} (p : Pipeline ν) : List XElem :=
  p.nodes.flatMap (fun nn =>
    if nn.1 = [] then []
    else if nn.2.isIter then [_write_iteration nn.2.module nn.1 nn.2.iterative]
    else [_write_process nn.2.module nn.1])

/-- `_write_links` (xml.py lines 212-231): emit one `<link>` element per
entry of `links_to` of every pipeline-level non-output plug and every
named-node output plug; dotted endpoints for named nodes, bare names for
the pipeline node.  The source stores the integer `1` in the `weak`
attribute; its textual form is used here. -/
def _write_links {ν : Type} (p : Pipeline ν) : List XElem :=
  p.nodes.flatMap (fun nn =>
    nn.2.plugs.flatMap (fun qp =>
      if (nn.1 = [] ∧ qp.2.output = false) ∨ (nn.1 ≠ [] ∧ qp.2.output = true)
      then
        qp.2.links_to.map (fun l =>
          let src := if nn.1 = [] then qp.1 else nn.1 ++ '.' :: qp.1
          let dst := if l.1 = [] then l.2.1 else l.1 ++ '.' :: l.2.1
          XElem.mk (chs ("link"))
            ([(chs ("source"), src), (chs ("dest"), dst)] ++
              (if l.2.2 then [(chs ("weak"), chs ("1"))] else [])) [] none)
      else []))

/-- One `<position>` element of `_write_nodes_positions` (xml.py lines
238-241).  A `None` key cannot be serialized; its `name` attribute is
modelled as absent. -/
def posElem {ν : Type} (numToStr : ν → Str) (np : Option Str × (ν × ν)) :
    XElem :=
  XElem.mk (chs ("position"))
    ((match np.1 with | some n => [(chs ("name"), n)] | none => []) ++
      [(chs ("x"), numToStr np.2.1), (chs ("y"), numToStr np.2.2)]) [] none

/-- `_write_nodes_positions` (xml.py lines 233-242): one `<position>`
element per recorded node position. -/
def _write_nodes_positions {ν : Type} (numToStr : ν → Str) (p : Pipeline ν) :
    List XElem :=
  p.node_position.map (posElem numToStr)

/-- The `<zoom>` element of the encoder (xml.py lines 271-275). -/
def zoomElem {ν : Type} (numToStr : ν → Str) (v : ν) : XElem :=
  .mk (chs ("zoom")) [(chs ("level"), numToStr v)] [] none

/-- The `<gui>` element of the encoder (xml.py lines 233-242 and 269-275):
present when there are node positions or a zoom factor, holding the
position elements followed by the zoom element. -/
def guiElems {ν : Type} (numToStr : ν → Str) (p : Pipeline ν) : List XElem :=
  let zooms : List XElem :=
    match p.scene_scale_factor with
    | some v => [zoomElem numToStr v]
    | none => []
  if p.node_position.isEmpty = false ∨ (p.scene_scale_factor).isSome then
    [.mk (chs ("gui")) [] (_write_nodes_positions numToStr p ++ zooms) none]
  else []

/-- `save_xml_pipeline` (xml.py lines 139-278): the root element.  The
class-name and docstring-trimming logic is abstracted: the root's `name`
attribute takes the default used for plain `Pipeline` objects and `doc`
the stored documentation (the decoder reads neither). -/
def save_xml_pipeline {ν : Type} (numToStr : ν → Str) (p : Pipeline ν) :
    XElem :=
  .mk (chs ("pipeline"))
    [(chs ("name"), chs ("CustomPipeline")),
     (chs ("doc"), p.documentation.getD [])]
    (_write_processes p ++ _write_links p ++ guiElems numToStr p) none

end Capsul

namespace Inspector

open Capsul

/-! ## Activation inspector

Translated from `capsul/wip/qt_gui/activation_inspector.py`.  The record
file's event lines are modelled already split by the regular expression
`(\d+)([+-=])([^:]*)(:([a-zA-Z_0-9]+))?` into their groups: iteration
digits, operator character (one of `+`, `-`, `=`), node name, optional
plug name (group 5, `None` when the `:plug` part is absent).  Lines the
expression does not match make `parser.match(...)` return `None` and the
method fail before reaching the dictionary update; they are outside this
model. -/

/-- One parsed line of the activation record. -/
structure Event where
  iteration : Str
  op : Char
  node : Str
  plug : Option Str

/-- The running `current_activations` dictionary. -/
abbrev ActMap := List (Str × Bool)

/-- The `"{0}:{1}".format(node, plug)` key, after `plug = plug or ""`. -/
def fmtKey (node : Str) (plug : Option Str) : Str :=
  node ++ ':' :: (plug.getD [])

/-- One step of the record loop (activation_inspector.py lines 218-222):
`+` assigns the key `True`, any other operator executes `del`, which
raises `KeyError` when the key is absent. -/
def record_step (m : ActMap) (e : Event) : Except String ActMap :=
  if e.op = '+' then .ok (odSet m (fmtKey e.node e.plug) true)
  else
    match ddel m (fmtKey e.node e.plug) with
    | some m' => .ok m'
    | none => .error ("KeyError")

/-- One turn of the record loop: update the dictionary and append a copy
to the `activations` stack (activation_inspector.py lines 218-223). -/
def refresh_fold_step (st : ActMap × List ActMap) (e : Event) :
    Except String (ActMap × List ActMap) := do
  let m' ← record_step st.1 e
  .ok (m', st.2 ++ [m'])

/-- `refresh_activation_from_record` (activation_inspector.py lines
184-231), reduced to its data core: check the header pipeline id, then
replay the events, storing a copy of the dictionary after each step. -/
def refresh_activation_from_record (record_pipeline_id pipeline_id : Str)
    (events : List Event) : Except String (List ActMap) := do
  if record_pipeline_id ≠ pipeline_id then
    .error ("ValueError: recorded activations for another pipeline")
  else
    let st ← events.foldlM refresh_fold_step ([], [])
    .ok st.2

/-- The text of row `i` of the events list widget; Python's
`item(i).text()` on an out-of-range row would fail, the theorems only use
in-range rows. -/
def itemText (items : List Str) (i : Nat) : Str := items.getD i []

/-- The backward-search loop of `find_previous` (activation_inspector.py
lines 293-299): rows are inspected while strictly positive, decreasing. -/
def find_previous_loop (pat : Str → Bool) (items : List Str) :
    Nat → Option Nat
  | 0 => none
  | i + 1 =>
    if pat (itemText items (i + 1)) then some (i + 1)
    else find_previous_loop pat items i

/-- `find_previous` (activation_inspector.py lines 280-301): starts at
`currentRow() - 1`, returns the new current row together with the method's
return value (1 when a match was selected, 0 otherwise; the current row is
untouched in the latter case). -/
def find_previous (pat : Str → Bool) (items : List Str) (current : Int) :
    Int × Nat :=
  match find_previous_loop pat items (current - 1).toNat with
  | some i => ((i : Int), 1)
  | none => (current, 0)

end Inspector

namespace Capsul

/-! ## Concrete instantiations used by the witnesses -/

/-- A two-module process library: each module declares an input `i` and an
output `o`. -/
def tlib : Lib := fun m =>
  if m = chs ("mods.P") then some [(chs ("i"), false), (chs ("o"), true)]
  else if m = chs ("mods.Q") then some [(chs ("i"), false), (chs ("o"), true)]
  else if m = chs ("mods.O") then some [(chs ("o"), true)]
  else if m = chs ("mods.I") then some [(chs ("i"), false)]
  else none

/-- A trivial `string_to_value` instance (every value parses to `None`). -/
def ts2v : Option Str → Except String (Option Unit) := fun _ => .ok none

/-- A concrete `float()` instance over the string-abstracted numeric
domain: parsing is the identity and fails on `None`. -/
def tnum : Option Str → Except String Str := reqS

/-! ## Statement helpers -/

/-- The `name` attributes of the `<iterate>` children of a process entry,
in declaration order. -/
def iterNames (e : XElem) : List (Option Str) :=
  e.children.filterMap (fun c =>
    if c.tag = chs ("iterate") then some (c.get (chs ("name"))) else none)

/-- Replace the node-position dictionary of a pipeline. -/
def Pipeline.withPos {ν : Type} (q : Pipeline ν)
    (np : List (Option Str × (ν × ν))) : Pipeline ν :=
  { q with node_position := np }

/-- Replace the zoom factor of a pipeline. -/
def Pipeline.withScale {ν : Type} (q : Pipeline ν) (v : Option ν) :
    Pipeline ν :=
  { q with scene_scale_factor := v }

/-- A builder call that only records presentation metadata. -/
def GuiOp {ν π : Type} : BOp ν π → Prop
  | .set_node_position _ _ _ => True
  | .set_scene_scale_factor _ => True
  | _ => False

/-- A concrete process entry with one `<iterate>` child. -/
def procW : XElem :=
  .mk (chs ("process"))
    [(chs ("name"), chs ("P1")), (chs ("module"), chs ("mods.P"))]
    [.mk (chs ("iterate")) [(chs ("name"), chs ("i"))] [] none] none

/-- A dotted `node.plug` endpoint string. -/
def dotted (n p : Str) : Str := n ++ '.' :: p

/-- A `<link>` entry with the given `source` and `dest` attributes. -/
def linkElem (src dst : Str) : XElem :=
  .mk (chs ("link")) [(chs ("source"), src), (chs ("dest"), dst)] [] none

/-- The graph built by adding one process (whose module declares the
single output parameter `p`) and exporting `node.p` under the bare name
`b`: the pipeline-level output plug `b` and the connecting link stored on
the inner output plug. -/
def shorthandOutG (ν : Type) (mo n p b : Str) : Pipeline ν :=
  { nodes := [([], ⟨[], false, [], [(b, ⟨true, []⟩)]⟩),
              (n, ⟨mo, false, [], [(p, ⟨true, [([], b, false)]⟩)]⟩)]
    selection_groups := []
    node_position := []
    scene_scale_factor := none
    documentation := none }

/-- The graph built by adding one process (whose module declares the
single input parameter `p`) and exporting `node.p` under the bare name
`b`: the pipeline-level input plug `b` holding the connecting link. -/
def shorthandInG (ν : Type) (mo n p b : Str) : Pipeline ν :=
  { nodes := [([], ⟨[], false, [], [(b, ⟨false, [(n, p, false)]⟩)]⟩),
              (n, ⟨mo, false, [], [(p, ⟨false, []⟩)]⟩)]
    selection_groups := []
    node_position := []
    scene_scale_factor := none
    documentation := none }

/-- A document entry holding an unrecognized structural tag at one of the
positions the decoder inspects: the entry's own tag, the children of a
`process` entry, the children and grandchildren of a `processes_selection`
entry, or the children of a `gui` entry.  (Children of `doc` and `link`
entries are never iterated by the decoder.) -/
def badEntry (e : XElem) : Prop :=
  (¬ (e.tag = chs ("doc") ∨ e.tag = chs ("process") ∨ e.tag = chs ("link") ∨
      e.tag = chs ("processes_selection") ∨ e.tag = chs ("gui"))) ∨
  (e.tag = chs ("process") ∧ ∃ c ∈ e.children,
    ¬ (c.tag = chs ("set") ∨ c.tag = chs ("iterate") ∨
       c.tag = chs ("nipype"))) ∨
  (e.tag = chs ("processes_selection") ∧ ∃ c ∈ e.children,
    c.tag ≠ chs ("processes_group") ∨
    ∃ g ∈ c.children, g.tag ≠ chs ("process")) ∨
  (e.tag = chs ("gui") ∧ ∃ c ∈ e.children,
    ¬ (c.tag = chs ("position") ∨ c.tag = chs ("zoom")))

/-- A concrete pipeline carrying only presentation metadata: one node
position and a zoom factor. -/
def guiP : Pipeline Str :=
  { nodes := [([], ⟨[], false, [], []⟩)]
    selection_groups := []
    node_position := [(some (chs ("A")), (chs ("1.5"), chs ("2.5")))]
    scene_scale_factor := some (chs ("0.7"))
    documentation := none }

/-- The graph built by adding one `mods.P` process named `P1` and
exporting its output `o` under the name `out`. -/
def expG : Pipeline Str :=
  { nodes := [([], ⟨[], false, [], [(chs ("out"), ⟨true, []⟩)]⟩),
              (chs ("P1"), ⟨chs ("mods.P"), false, [],
                [(chs ("i"), ⟨false, []⟩),
                 (chs ("o"), ⟨true, [([], chs ("out"), false)]⟩)]⟩)]
    selection_groups := []
    node_position := []
    scene_scale_factor := none
    documentation := none }

/-- A node-free graph holding one (empty) selection group. -/
def selG : Pipeline Str :=
  { nodes := [([], ⟨[], false, [], []⟩)]
    selection_groups := [(chs ("sel"), [])]
    node_position := []
    scene_scale_factor := none
    documentation := none }

/-- A concrete well-formed `<processes_selection>` entry with one group. -/
def selW : XElem :=
  .mk (chs ("processes_selection")) [(chs ("name"), chs ("sel"))]
    [.mk (chs ("processes_group")) [(chs ("name"), chs ("g1"))]
       [.mk (chs ("process")) [(chs ("name"), chs ("A"))] [] none] none] none

/-- A concrete `<processes_selection>` entry with two groups that share
the name `g`. -/
def selDupW : XElem :=
  .mk (chs ("processes_selection")) [(chs ("name"), chs ("sel"))]
    [.mk (chs ("processes_group")) [(chs ("name"), chs ("g"))]
       [.mk (chs ("process")) [(chs ("name"), chs ("A"))] [] none] none,
     .mk (chs ("processes_group")) [(chs ("name"), chs ("g"))]
       [.mk (chs ("process")) [(chs ("name"), chs ("B"))] [] none] none] none

end Capsul

namespace Capsul

/-! ## Builder-graph invariants

The state reachable from an empty pipeline through well-formed builder
calls.  These are the facts the round-trip and link-polarity claims rest
on; each is preserved by `applyOp`. -/

/-- A name usable as a node, plug or exported-parameter name in the XML
codec: non-empty, without dots (endpoint splitting) and without hyphens
(arrow splitting). -/
def wfName (s : Str) : Prop :=
  s ≠ [] ∧ pyIn '.' s = false ∧ pyIn '-' s = false

instance wfNameDec (s : Str) : Decidable (wfName s) :=
  decidable_of_iff (s ≠ [] ∧ pyIn '.' s = false ∧ pyIn '-' s = false)
    Iff.rfl

/-- A link tuple `(src node, src plug, dest node, dest plug, weak)`. -/
abbrev LinkT := Str × Str × Str × Str × Bool

/-- The link tuples contributed by one node. -/
def nodeLinks (nn : Str × PNode) : List LinkT :=
  nn.2.plugs.flatMap (fun qp => qp.2.links_to.map (fun l => (nn.1, qp.1, l)))

/-- The named nodes of a pipeline (all nodes after the pipeline node). -/
def namedNodes {ν : Type} (G : Pipeline ν) : List (Str × PNode) :=
  G.nodes.tail

/-- The pipeline-level plugs (the plugs of the head node `""`). -/
def pipePlugs {ν : Type} (G : Pipeline ν) : List (Str × Plug) :=
  match G.nodes.head? with
  | some nn => nn.2.plugs
  | none => []

/-- The parameter skeleton of a plug list: names and direction flags. -/
def skeleton (plugs : List (Str × Plug)) : List (Str × Bool) :=
  plugs.map (fun qp => (qp.1, qp.2.output))

/-- A library whose modules declare distinct, well-formed parameter
names. -/
def libWF (lib : Lib) : Prop :=
  ∀ mo params, lib mo = some params →
    (params.map Prod.fst).Nodup ∧ ∀ pr ∈ params, wfName pr.1

/-- Builder calls of the shape the round-trip claim quantifies over:
well-formed fresh names, no weak links, no pipeline-to-pipeline links,
and non-empty iterative parameter lists. -/
def opWF {ν π : Type} : BOp ν π → Prop
  | .add_process name mod _ _ _ =>
      (∃ n, name = some n ∧ wfName n) ∧ mod.isSome
  | .add_iterative_process name mod _ _ _ iterp =>
      (∃ n, name = some n ∧ wfName n) ∧ mod.isSome ∧ iterp ≠ [] ∧
      ∀ o ∈ iterp, o.isSome
  | .add_link s weak =>
      weak = false ∧ ∀ a b, splitArrow s = some (a, b) →
        ¬ ((parseEndpoint a).1 = [] ∧ (parseEndpoint b).1 = [])
  | .export_parameter _ _ name => wfName name
  | .set_node_position name _ _ => name.isSome
  | _ => True

/-- The core invariant of builder-reachable pipeline states (all facts
except the pipeline-plug link coverage, which is momentarily broken in the
middle of `export_parameter`). -/
structure GCore {ν : Type} (lib : Lib) (G : Pipeline ν) : Prop where
  shape : G.nodes = ([], ⟨[], false, [], pipePlugs G⟩) :: namedNodes G
  named_wf : ∀ nn ∈ namedNodes G, wfName nn.1
  nodup_nodes : (G.nodes.map Prod.fst).Nodup
  nodup_plugs : ∀ nn ∈ G.nodes, (nn.2.plugs.map Prod.fst).Nodup
  named_lib : ∀ nn ∈ namedNodes G,
    lib nn.2.module = some (skeleton nn.2.plugs) ∧
    (nn.2.isIter = true ↔ nn.2.iterative ≠ []) ∧
    ∀ qp ∈ nn.2.plugs, wfName qp.1
  pipe_wf : ∀ bp ∈ pipePlugs G, wfName bp.1
  links_src : ∀ nn ∈ G.nodes, ∀ qp ∈ nn.2.plugs, ∀ l ∈ qp.2.links_to,
    (nn.1 = [] ∧ qp.2.output = false) ∨ (nn.1 ≠ [] ∧ qp.2.output = true)
  links_dst : ∀ nn ∈ G.nodes, ∀ qp ∈ nn.2.plugs, ∀ l ∈ qp.2.links_to,
    l.2.2 = false ∧ ¬ (nn.1 = [] ∧ l.1 = []) ∧
    ∃ dp, G.getPlug l.1 l.2.1 = some dp ∧
      (if l.1 = [] then dp.output = true else dp.output = false)
  nodup_links : (allLinksD G).Nodup
  scalar : ∀ nn ∈ namedNodes G, ∀ qp ∈ nn.2.plugs, qp.2.output = false →
    isIterPlug G nn.1 qp.1 = false → incomingCount G nn.1 qp.1 ≤ 1
  nodup_pos : (G.node_position.map Prod.fst).Nodup

/-- The invariant of builder-reachable pipeline states: the core invariant
together with link coverage of the pipeline-level plugs (every exported
input has at least one outgoing link, every exported output at least one
incoming link). -/
structure GInv {ν : Type} (lib : Lib) (G : Pipeline ν)
    extends GCore lib G : Prop where
  pipe_in_nonempty : ∀ bp ∈ pipePlugs G, bp.2.output = false →
    bp.2.links_to ≠ []
  pipe_out_covered : ∀ bp ∈ pipePlugs G, bp.2.output = true →
    ∃ t ∈ allLinksD G, t.2.2.1 = [] ∧ t.2.2.2.1 = bp.1

/-- The `<link>` element `_write_links` emits for one stored link tuple. -/
def linkXElemOf (t : LinkT) : XElem :=
  XElem.mk (chs ("link"))
    ([(chs ("source"), if t.1 = [] then t.2.1 else t.1 ++ '.' :: t.2.1),
      (chs ("dest"),
        if t.2.2.1 = [] then t.2.2.2.1 else t.2.2.1 ++ '.' :: t.2.2.2.1)] ++
      (if t.2.2.2.2 then [(chs ("weak"), chs ("1"))] else [])) [] none

/-- The pipeline-level (bare) plug name a link element mentions, if any:
the source plug when the link leaves the pipeline node, otherwise the
destination plug when the link enters it. -/
def bareOf (t : LinkT) : Option Str :=
  if t.1 = [] then some t.2.1
  else if t.2.2.1 = [] then some t.2.2.2.1
  else none

/-- The bare pipeline-parameter names mentioned by a list of link tuples,
in order of first mention, skipping the names in `seen`. -/
def mentionsAux (seen : List Str) : List LinkT → List Str
  | [] => []
  | t :: ts =>
    (bareOf t).elim (mentionsAux seen ts) (fun b =>
      if b ∈ seen then mentionsAux seen ts
      else b :: mentionsAux (b :: seen) ts)

/-- The bare pipeline-parameter names mentioned by a list of link tuples,
in order of first mention. -/
def mentions (l : List LinkT) : List Str := mentionsAux [] l

/-- The links leaving the plug `(n, q)` among a list of link tuples, in
order. -/
def linksIn (l : List LinkT) (n q : Str) : List (Str × Str × Bool) :=
  l.filterMap (fun t =>
    if t.1 = n ∧ t.2.1 = q then some t.2.2 else none)

/-- The direction flag of the pipeline-level plug `b` of `G`. -/
def pout {ν : Type} (G : Pipeline ν) (b : Str) : Bool :=
  match G.getPlug [] b with
  | some pl => pl.output
  | none => false

/-- A named node with its plug links replaced by the links a list of link
tuples assigns to them. -/
def relinkNode (l : List LinkT) (nn : Str × PNode) : Str × PNode :=
  (nn.1, ⟨nn.2.module, nn.2.isIter, nn.2.iterative,
    nn.2.plugs.map (fun qp =>
      (qp.1, ⟨qp.2.output, linksIn l nn.1 qp.1⟩))⟩)

/-- The decoder state after replaying the process entries for the named
nodes `ns`: a bare pipeline node followed by the link-less named nodes. -/
def midN (ν : Type) (ns : List (Str × PNode)) : Pipeline ν :=
  { nodes := ([], ⟨[], false, [], []⟩) :: ns.map (relinkNode [])
    selection_groups := []
    node_position := []
    scene_scale_factor := none
    documentation := none }

/-- The decoder state in the middle of the link replay for `G`, after the
link tuples `l`: pipeline-level plugs in order of first mention, each
holding its links replayed so far, and the named nodes of `G` with their
links replayed so far. -/
def midL {ν : Type} (G : Pipeline ν) (l : List LinkT) : Pipeline ν :=
  { nodes := ([], ⟨[], false, [],
      (mentions l).map (fun b => (b, ⟨pout G b, linksIn l [] b⟩))⟩) ::
      (namedNodes G).map (relinkNode l)
    selection_groups := []
    node_position := []
    scene_scale_factor := none
    documentation := none }

/-- The `<process>` element `_write_processes` emits for one named
node. -/
def procElemOf (nn : Str × PNode) : XElem :=
  if nn.2.isIter then _write_iteration nn.2.module nn.1 nn.2.iterative
  else _write_process nn.2.module nn.1

/-- The builder call the decoder issues for the process element of one
named node. -/
def procOpOf {ν π : Type} (nn : Str × PNode) : BOp ν π :=
  if nn.2.isIter then
    .add_iterative_process (some nn.1) (some nn.2.module) [] [] []
      (nn.2.iterative.map some)
  else .add_process (some nn.1) (some nn.2.module) [] [] []

end Capsul

/-! ## Supporting lemmas -/

/-- The backward-search loop finds nothing when no strictly positive
in-range row matches. -/
theorem Inspector.find_previous_loop_eq_none (pat : Capsul.Str → Bool)
    (items : List Capsul.Str)
    (h : ∀ i : Nat, i < items.length → 0 < i →
      pat (Inspector.itemText items i) = false) :
    ∀ k, k < items.length → Inspector.find_previous_loop pat items k = none := by
  intro k
  induction k with
  | zero => intro _; rfl
  | succ n ih =>
    intro hk
    rw [Inspector.find_previous_loop, h (n + 1) hk (Nat.succ_pos n)]
    simpa using ih (Nat.lt_of_succ_lt hk)

/-- `del d[k]` fails exactly when the key is absent. -/
theorem Capsul.ddel_eq_none {V : Type} (m : List (Capsul.Str × V))
    (k : Capsul.Str) (h : m.lookup k = none) : Capsul.ddel m k = none := by
  induction m with
  | nil => rfl
  | cons kv rest ih =>
    rw [List.lookup] at h
    by_cases hk : kv.1 = k
    · rw [show (k == kv.1) = true from beq_iff_eq.2 hk.symm] at h
      simp at h
    · rw [show (k == kv.1) = false from beq_eq_false_iff_ne.2 (fun e => hk e.symm)] at h
      rw [Capsul.ddel, if_neg hk, ih h]
      rfl

/-! ## Claims -/

/-- C10: `find_previous` searches backwards only while the candidate row
index is strictly greater than 0, so for every events list whose only
match for the pattern is the first item (row 0), `find_previous` leaves
the current row unchanged and returns 0. -/
theorem C10_find_previous_row0_unreachable (pat : Capsul.Str → Bool)
    (items : List Capsul.Str) (current : Int)
    (hc0 : 0 ≤ current) (hc : current < items.length)
    (_h0 : pat (Inspector.itemText items 0) = true)
    (hrest : ∀ i : Nat, i < items.length → 0 < i →
      pat (Inspector.itemText items i) = false) :
    Inspector.find_previous pat items current = (current, 0) := by
  have hk : (current - 1).toNat < items.length := by omega
  rw [Inspector.find_previous,
    Inspector.find_previous_loop_eq_none pat items hrest _ hk]

/-- Witness for C10 at a concrete two-row events list with its only match
at row 0. -/
theorem C10_witness :
    Inspector.find_previous (fun s => decide (s = Capsul.chs ("+ A:")))
      [Capsul.chs ("+ A:"), Capsul.chs ("- A:x")] 1 = (1, 0) :=
  C10_find_previous_row0_unreachable _ _ 1 (by decide) (by decide) (by decide)
    (by decide)

/-- C9: in `refresh_activation_from_record`, an event whose operator is
`-` or `=` removes the key `node:plug` from the current activation map and
only `+` events add keys; the whole refresh raises `KeyError` whenever a
`-` or `=` event names a key that is not currently present. -/
theorem C9_record_step_semantics :
    (∀ (m : Inspector.ActMap) (e : Inspector.Event), e.op = '+' →
      Inspector.record_step m e =
        .ok (Capsul.odSet m (Inspector.fmtKey e.node e.plug) true)) ∧
    (∀ (m m' : Inspector.ActMap) (e : Inspector.Event), e.op ≠ '+' →
      Capsul.ddel m (Inspector.fmtKey e.node e.plug) = some m' →
      Inspector.record_step m e = .ok m') ∧
    (∀ (m : Inspector.ActMap) (e : Inspector.Event), e.op ≠ '+' →
      m.lookup (Inspector.fmtKey e.node e.plug) = none →
      Inspector.record_step m e = .error ("KeyError")) ∧
    (∀ (pid : Capsul.Str) (pre : List Inspector.Event) (e : Inspector.Event)
        (suf : List Inspector.Event) (m : Inspector.ActMap)
        (accs : List Inspector.ActMap),
      (e.op = '-' ∨ e.op = '=') →
      pre.foldlM Inspector.refresh_fold_step ([], []) = .ok (m, accs) →
      m.lookup (Inspector.fmtKey e.node e.plug) = none →
      Inspector.refresh_activation_from_record pid pid (pre ++ e :: suf) =
        .error ("KeyError")) := by
  refine ⟨?_, ?_, ?_, ?_⟩
  · intro m e h
    simp [Inspector.record_step, h]
  · intro m m' e h hd
    simp [Inspector.record_step, h, hd]
  · intro m e h hl
    simp [Inspector.record_step, h, Capsul.ddel_eq_none m _ hl]
  · intro pid pre e suf m accs hop hpre hl
    have hne : e.op ≠ '+' := by
      rcases hop with h | h <;> rw [h] <;> decide
    have hstep : Inspector.record_step m e = .error ("KeyError") := by
      simp [Inspector.record_step, hne, Capsul.ddel_eq_none m _ hl]
    rw [Inspector.refresh_activation_from_record]
    simp only [ne_eq, not_true_eq_false, if_false, List.foldlM_append, hpre]
    simp [List.foldlM, Inspector.refresh_fold_step, hstep]

/-- Witness for C9: a record replaying an addition of `A:` then a removal
of the absent key `B:` fails with a `KeyError`. -/
theorem C9_witness :
    Inspector.refresh_activation_from_record (Capsul.chs ("pid"))
      (Capsul.chs ("pid"))
      [⟨Capsul.chs ("1"), '+', Capsul.chs ("A"), none⟩,
       ⟨Capsul.chs ("2"), '-', Capsul.chs ("B"), none⟩] =
      .error ("KeyError") :=
  C9_record_step_semantics.2.2.2 (Capsul.chs ("pid"))
    [⟨Capsul.chs ("1"), '+', Capsul.chs ("A"), none⟩]
    ⟨Capsul.chs ("2"), '-', Capsul.chs ("B"), none⟩ []
    [(Capsul.chs ("A:"), true)] [[(Capsul.chs ("A:"), true)]]
    (Or.inl rfl) (by decide) (by decide)

namespace Capsul

/-- C3 counterexample: a document *without* any version tag is accepted,
not rejected — the guard `if version and version != '2.0'` lets an absent
(`None`) attribute through, and the empty document parses to the empty
pipeline. -/
theorem C3_counterexample :
    XElem.get (XElem.mk (chs ("pipeline")) [] [] none) (chs ("capsul_xml"))
      = none ∧
    create_xml_pipeline tlib ts2v tnum (XElem.mk (chs ("pipeline")) [] [] none)
      = .ok (emptyPipeline Str) :=
  ⟨rfl, rfl⟩

/-- C3 (amended): a document whose version tag is present, non-empty and
different from `2.0` is rejected with the unsupported-version error before
any entry is processed; a document whose version tag is absent (or empty)
is *not* rejected by the version check. -/
theorem C3_version_check {ν π : Type} (lib : Lib)
    (s2v : Option Str → Except String (Option π))
    (parseNum : Option Str → Except String ν) (doc : XElem) (v : Str)
    (hv : doc.get (chs ("capsul_xml")) = some v) (h1 : v ≠ [])
    (h2 : v ≠ chs ("2.0")) :
    create_xml_pipeline lib s2v parseNum doc =
      .error ("UnsupportedVersionError: only Capsul XML 2.0 is supported") := by
  rw [create_xml_pipeline, hv]
  simp [h1, h2]

/-- Witness for C3 at a concrete document with version tag `1.0`: the
parse fails regardless of the document's entries. -/
theorem C3_version_witness :
    create_xml_pipeline tlib ts2v tnum
      (XElem.mk (chs ("pipeline")) [(chs ("capsul_xml"), chs ("1.0"))]
        [XElem.mk (chs ("process")) [] [] none] none) =
      .error ("UnsupportedVersionError: only Capsul XML 2.0 is supported") :=
  C3_version_check tlib ts2v tnum _ (chs ("1.0")) (by decide) (by decide)
    (by decide)

end Capsul

namespace Capsul

/-- One process child leaves the accumulated `iterate` list unchanged
unless it is an `<iterate>` element, in which case it appends that child's
`name` attribute. -/
theorem procChild_iterate {π : Type}
    (s2v : Option Str → Except String (Option π)) (acc acc1 : ProcAcc π)
    (c : XElem) (h : procChild s2v acc c = .ok acc1) :
    acc1.iterate = acc.iterate ++
      (if c.tag = chs ("iterate") then [c.get (chs ("name"))] else []) := by
  rw [procChild] at h
  by_cases h1 : c.tag = chs ("set")
  · rw [if_pos h1] at h
    rcases hv : s2v (c.get (chs ("value"))) with e | v <;> rw [hv] at h <;>
      simp at h
    rw [if_neg (by rw [h1]; decide), ← h]
    simp
  · rw [if_neg h1] at h
    by_cases h2 : c.tag = chs ("iterate")
    · rw [if_pos h2] at h
      simp at h
      rw [if_pos h2, ← h]
    · rw [if_neg h2] at h
      rw [if_neg h2]
      by_cases h3 : c.tag = chs ("nipype")
      · rw [if_pos h3] at h
        dsimp only [] at h
        split_ifs at h <;> simp at h <;> rw [← h] <;> simp
      · rw [if_neg h3] at h
        simp at h

/-- The process child fold appends the `<iterate>` names of the processed
children to the accumulated `iterate` list. -/
theorem procFold_iterate {π : Type}
    (s2v : Option Str → Except String (Option π)) (cs : List XElem) :
    ∀ (acc acc' : ProcAcc π), cs.foldlM (procChild s2v) acc = .ok acc' →
      acc'.iterate = acc.iterate ++ cs.filterMap (fun c =>
        if c.tag = chs ("iterate") then some (c.get (chs ("name"))) else none)
      := by
  induction cs with
  | nil =>
    intro acc acc' h
    have h' : acc = acc' := by
      simpa [List.foldlM, pure, Except.pure] using h
    rw [← h']
    simp
  | cons c cs ih =>
    intro acc acc' h
    rw [List.foldlM_cons] at h
    rcases hc : procChild s2v acc c with e | acc1
    · rw [hc] at h
      simp at h
    · rw [hc] at h
      simp only [exceptOkBind] at h
      rw [ih acc1 acc' h, procChild_iterate s2v acc acc1 c hc]
      rw [List.filterMap_cons]
      split_ifs with ht
      · simp [ht]
      · simp [ht]

/-- C5: for every process entry, the decoder issues
`add_iterative_process` with exactly the parameter names listed in the
entry's `<iterate>` children, in declaration order, whenever at least one
`<iterate>` child is present, and issues a plain `add_process` otherwise
(followed in both cases by the recorded nipype `set_usedefault` calls). -/
theorem C5_process_entry {ν π : Type}
    (s2v : Option Str → Except String (Option π))
    (parseNum : Option Str → Except String ν) (e : XElem)
    (exported : List Str) (ops : List (BOp ν π)) (ex' : List Str)
    (htag : e.tag = chs ("process"))
    (hok : decode_child s2v parseNum e exported = .ok (ops, ex')) :
    ∃ acc : ProcAcc π,
      e.children.foldlM (procChild s2v) ⟨[], [], [], [], []⟩ = .ok acc ∧
      acc.iterate = iterNames e ∧
      ex' = exported ∧
      ops = (if iterNames e ≠ [] then
              BOp.add_iterative_process (e.get (chs ("name")))
                (e.get (chs ("module"))) acc.sets acc.copies acc.cleans
                (iterNames e)
            else
              BOp.add_process (e.get (chs ("name"))) (e.get (chs ("module")))
                acc.sets acc.copies acc.cleans)
          :: acc.usedefaults.map
              (fun u => BOp.call_set_usedefault (e.get (chs ("name"))) u) := by
  rw [decode_child, if_neg (by rw [htag]; decide), if_pos htag] at hok
  rcases hf : e.children.foldlM (procChild s2v) ⟨[], [], [], [], []⟩ with msg | acc
  · rw [hf] at hok
    simp at hok
  · rw [hf] at hok
    simp only [exceptOkBind] at hok
    have hit : acc.iterate = iterNames e := by
      rw [procFold_iterate s2v e.children _ acc hf, iterNames]
      simp
    refine ⟨acc, rfl, hit, ?_, ?_⟩
    · exact (congrArg Prod.snd (Except.ok.inj hok)).symm
    · have := congrArg Prod.fst (Except.ok.inj hok)
      simp only [] at this
      rw [← this, hit]

end Capsul

namespace Capsul

/-- Witness for C5: a process entry with one `<iterate>` child named `i`
decodes to an `add_iterative_process` call carrying exactly `[i]`. -/
theorem C5_witness :
    ∃ acc : ProcAcc Unit,
      procW.children.foldlM (procChild ts2v) ⟨[], [], [], [], []⟩ = .ok acc ∧
      acc.iterate = iterNames procW ∧
      ([] : List Str) = [] ∧
      [BOp.add_iterative_process (ν := Str) (π := Unit) (some (chs ("P1")))
        (some (chs ("mods.P"))) [] [] [] [some (chs ("i"))]] =
      (if iterNames procW ≠ [] then
        BOp.add_iterative_process (procW.get (chs ("name")))
          (procW.get (chs ("module"))) [] [] [] (iterNames procW)
      else
        BOp.add_process (procW.get (chs ("name"))) (procW.get (chs ("module")))
          [] [] []) :: List.map
            (fun u => BOp.call_set_usedefault (procW.get (chs ("name"))) u)
            [] := by
  have h := C5_process_entry ts2v tnum procW []
    [BOp.add_iterative_process (some (chs ("P1"))) (some (chs ("mods.P")))
      [] [] [] [some (chs ("i"))]] [] rfl rfl
  rcases h with ⟨acc, h1, h2, h3, h4⟩
  have hsets : acc.sets = [] := by
    have : acc = ⟨[], [], [], [], [some (chs ("i"))]⟩ := by
      have := h1
      rw [show procW.children.foldlM (procChild ts2v) ⟨[], [], [], [], []⟩ =
        Except.ok (⟨[], [], [], [], [some (chs ("i"))]⟩ : ProcAcc Unit)
        from rfl] at this
      exact (Except.ok.inj this).symm
    rw [this]
  refine ⟨acc, h1, h2, rfl, ?_⟩
  rw [h4]
  have hacc : acc = ⟨[], [], [], [], [some (chs ("i"))]⟩ := by
    have := h1
    rw [show procW.children.foldlM (procChild ts2v) ⟨[], [], [], [], []⟩ =
      Except.ok (⟨[], [], [], [], [some (chs ("i"))]⟩ : ProcAcc Unit)
      from rfl] at this
    exact (Except.ok.inj this).symm
  rw [hacc]

end Capsul

namespace Capsul

/-- A successful `<processes_group>` grandchild loop means every grandchild
is a `<process>` element, and appends their names in order. -/
theorem selGroupAux_ok (gs : List XElem) :
    ∀ (init ms : List (Option Str)), selGroupAux init gs = .ok ms →
      (∀ g ∈ gs, g.tag = chs ("process")) ∧
      ms = init ++ gs.map (fun g => g.get (chs ("name"))) := by
  induction gs with
  | nil =>
    intro init ms h
    rw [selGroupAux] at h
    refine ⟨by simp, ?_⟩
    rw [← Except.ok.inj h]
    simp
  | cons g gs ih =>
    intro init ms h
    rw [selGroupAux] at h
    by_cases ht : g.tag = chs ("process")
    · rw [if_pos ht] at h
      rcases ih _ _ h with ⟨hall, hms⟩
      refine ⟨?_, ?_⟩
      · intro g' hg'
        rcases List.mem_cons.1 hg' with rfl | hmem
        · exact ht
        · exact hall g' hmem
      · rw [hms]
        simp
    · rw [if_neg ht] at h
      simp at h

/-- The grandchild loop succeeds when every grandchild is a `<process>`
element. -/
theorem selGroupAux_allOk (gs : List XElem)
    (h : ∀ g ∈ gs, g.tag = chs ("process")) :
    ∀ init, selGroupAux init gs =
      .ok (init ++ gs.map (fun g => g.get (chs ("name")))) := by
  induction gs with
  | nil => intro init; rw [selGroupAux]; simp
  | cons g gs ih =>
    intro init
    rw [selGroupAux, if_pos (h g (List.mem_cons_self g gs))]
    rw [ih (fun g' hg' => h g' (List.mem_cons_of_mem g hg'))]
    simp

/-- The grandchild loop fails when some grandchild is not a `<process>`
element. -/
theorem selGroupAux_err (gs : List XElem)
    (h : ∃ g ∈ gs, g.tag ≠ chs ("process")) :
    ∀ init, ∃ msg, selGroupAux init gs = .error msg := by
  induction gs with
  | nil => simp at h
  | cons g gs ih =>
    intro init
    rw [selGroupAux]
    by_cases ht : g.tag = chs ("process")
    · rw [if_pos ht]
      rcases h with ⟨g', hg', hne⟩
      rcases List.mem_cons.1 hg' with rfl | hmem
      · exact absurd ht hne
      · exact ih ⟨g', hmem, hne⟩ _
    · rw [if_neg ht]
      exact ⟨_, rfl⟩

/-- A successful `<processes_selection>` child loop means every child is a
well-formed `<processes_group>`, and builds the ordered-dict of groups. -/
theorem selGroupsAux_ok (cs : List XElem) :
    ∀ (init gs : List (Option Str × List (Option Str))),
      selGroupsAux init cs = .ok gs →
      (∀ c ∈ cs, c.tag = chs ("processes_group") ∧
        ∀ g ∈ c.children, g.tag = chs ("process")) ∧
      gs = cs.foldl (fun acc c => odSet acc (c.get (chs ("name")))
        (c.children.map (fun g => g.get (chs ("name"))))) init := by
  induction cs with
  | nil =>
    intro init gs h
    rw [selGroupsAux] at h
    exact ⟨by simp, by rw [← Except.ok.inj h]; simp⟩
  | cons c cs ih =>
    intro init gs h
    rw [selGroupsAux] at h
    by_cases ht : c.tag = chs ("processes_group")
    · rw [if_pos ht] at h
      rcases hg : selGroup c with msg | ms
      · rw [hg] at h
        simp at h
      · rw [hg] at h
        simp only [exceptOkBind] at h
        rcases selGroupAux_ok c.children [] ms hg with ⟨hgr, hms⟩
        rcases ih _ _ h with ⟨hall, hgs⟩
        refine ⟨?_, ?_⟩
        · intro c' hc'
          rcases List.mem_cons.1 hc' with rfl | hmem
          · exact ⟨ht, hgr⟩
          · exact hall c' hmem
        · rw [hgs, List.foldl_cons, hms]
          simp
    · rw [if_neg ht] at h
      simp at h

/-- The `<processes_selection>` child loop fails when some child is not a
`<processes_group>` or some grandchild is not a `<process>`. -/
theorem selGroupsAux_err (cs : List XElem)
    (h : ∃ c ∈ cs, c.tag ≠ chs ("processes_group") ∨
      ∃ g ∈ c.children, g.tag ≠ chs ("process")) :
    ∀ init, ∃ msg, selGroupsAux init cs = .error msg := by
  induction cs with
  | nil => simp at h
  | cons c cs ih =>
    intro init
    rw [selGroupsAux]
    by_cases ht : c.tag = chs ("processes_group")
    · rw [if_pos ht]
      by_cases hbad : ∃ g ∈ c.children, g.tag ≠ chs ("process")
      · rcases selGroupAux_err c.children hbad [] with ⟨msg, hmsg⟩
        rw [show selGroup c = .error msg from hmsg]
        exact ⟨msg, rfl⟩
      · push_neg at hbad
        rw [show selGroup c =
          .ok (c.children.map (fun g => g.get (chs ("name")))) from by
            rw [selGroup, selGroupAux_allOk c.children hbad []]
            simp]
        simp only [exceptOkBind]
        rcases h with ⟨c', hc', hprop⟩
        rcases List.mem_cons.1 hc' with rfl | hmem
        · rcases hprop with h' | h'
          · exact absurd ht h'
          · rcases h' with ⟨g, hg, hgne⟩
            exact absurd (hbad g hg) hgne
        · exact ih ⟨c', hmem, hprop⟩ _
    · rw [if_neg ht]
      exact ⟨_, rfl⟩

/-- Ordered-dict assignment of a fresh key appends. -/
theorem odSet_append {K V : Type} [DecidableEq K] (m : List (K × V)) (k : K)
    (v : V) (h : ∀ kv ∈ m, kv.1 ≠ k) : odSet m k v = m ++ [(k, v)] := by
  induction m with
  | nil => rfl
  | cons kv rest ih =>
    rw [odSet, if_neg (h kv (List.mem_cons_self kv rest))]
    rw [ih (fun kv' hkv' => h kv' (List.mem_cons_of_mem kv hkv'))]
    rfl

/-- Folding fresh-keyed ordered-dict assignments over a list with distinct
keys appends the association list in order. -/
theorem foldl_odSet_map {α K V : Type} [DecidableEq K] (key : α → K)
    (val : α → V) (cs : List α) :
    ∀ (init : List (K × V)),
      (∀ c ∈ cs, ∀ kv ∈ init, kv.1 ≠ key c) →
      (cs.map key).Nodup →
      cs.foldl (fun acc c => odSet acc (key c) (val c)) init =
        init ++ cs.map (fun c => (key c, val c)) := by
  induction cs with
  | nil => intro init _ _; simp
  | cons c cs ih =>
    intro init hfresh hnodup
    rw [List.foldl_cons,
      odSet_append init (key c) (val c)
        (hfresh c (List.mem_cons_self c cs))]
    rw [List.map_cons, List.nodup_cons] at hnodup
    rw [ih (init ++ [(key c, val c)]) ?_ hnodup.2]
    · simp
    · intro c' hc' kv hkv
      rcases List.mem_append.1 hkv with hm | hm
      · exact hfresh c' (List.mem_cons_of_mem c hc') kv hm
      · rcases List.mem_singleton.1 hm with rfl
        intro heq
        apply hnodup.1
        have hkk : key c = key c' := heq
        rw [hkk]
        exact List.mem_map_of_mem key hc'

end Capsul

namespace Capsul

/-- C6 (amended): a `processes_selection` entry whose group names are
pairwise distinct decodes to one `add_processes_selection` call mapping
each `processes_group` child's name, in declaration order, to the ordered
list of its `process` children's names; any other child tag, or any other
grandchild tag, fails the parse.  (With duplicate group names the ordered
dictionary keeps the first position but the last group's members, see the
counterexample.) -/
theorem C6_selection_decoding :
    (∀ (ν π : Type) (s2v : Option Str → Except String (Option π))
        (parseNum : Option Str → Except String ν) (e : XElem)
        (exported : List Str) (ops : List (BOp ν π)) (ex' : List Str),
      e.tag = chs ("processes_selection") →
      decode_child s2v parseNum e exported = .ok (ops, ex') →
      (e.children.map (fun c => c.get (chs ("name")))).Nodup →
      (∀ c ∈ e.children, c.tag = chs ("processes_group") ∧
        ∀ g ∈ c.children, g.tag = chs ("process")) ∧
      ex' = exported ∧
      ops = [BOp.add_processes_selection (e.get (chs ("name")))
        (e.children.map (fun c => (c.get (chs ("name")),
          c.children.map (fun g => g.get (chs ("name"))))))]) ∧
    (∀ (ν π : Type) (s2v : Option Str → Except String (Option π))
        (parseNum : Option Str → Except String ν) (e : XElem)
        (exported : List Str),
      e.tag = chs ("processes_selection") →
      (∃ c ∈ e.children, c.tag ≠ chs ("processes_group") ∨
        ∃ g ∈ c.children, g.tag ≠ chs ("process")) →
      ∃ msg, decode_child (ν := ν) (π := π) s2v parseNum e exported =
        .error msg) := by
  constructor
  · intro ν π s2v parseNum e exported ops ex' htag hok hnodup
    rw [decode_child, if_neg (by rw [htag]; decide),
      if_neg (by rw [htag]; decide), if_neg (by rw [htag]; decide),
      if_pos htag] at hok
    rcases hsel : selGroupsAux ([] : List (Option Str × List (Option Str)))
        e.children with msg | gs
    · rw [decodeSelection, hsel] at hok
      simp at hok
    · rw [decodeSelection, hsel] at hok
      simp only [exceptOkBind] at hok
      rcases selGroupsAux_ok e.children [] gs hsel with ⟨hall, hgs⟩
      have hmap : gs = e.children.map (fun c => (c.get (chs ("name")),
          c.children.map (fun g => g.get (chs ("name"))))) := by
        rw [hgs, foldl_odSet_map (fun c => c.get (chs ("name")))
          (fun c => c.children.map (fun g => g.get (chs ("name"))))
          e.children [] (by intro c _ kv hkv; simp at hkv) hnodup]
        simp
      refine ⟨hall, ?_, ?_⟩
      · exact (congrArg Prod.snd (Except.ok.inj hok)).symm
      · have := congrArg Prod.fst (Except.ok.inj hok)
        simp only [] at this
        rw [← this, hmap]
  · intro ν π s2v parseNum e exported htag hbad
    rw [decode_child, if_neg (by rw [htag]; decide),
      if_neg (by rw [htag]; decide), if_neg (by rw [htag]; decide),
      if_pos htag]
    rcases selGroupsAux_err e.children hbad
        ([] : List (Option Str × List (Option Str))) with ⟨msg, hmsg⟩
    rw [decodeSelection, hmsg]
    exact ⟨msg, rfl⟩

/-- C6 counterexample: with two groups both named `g`, the decoder's
ordered dictionary keeps a single entry holding only the *last* group's
members, so the registered value does not map each child, in declaration
order, to its own member list. -/
theorem C6_counterexample :
    decode_child ts2v tnum selDupW [] =
      .ok ([BOp.add_processes_selection (some (chs ("sel")))
        [(some (chs ("g")), [some (chs ("B"))])]], []) ∧
    [(some (chs ("g")), [some (chs ("B"))])] ≠
      selDupW.children.map (fun c => (c.get (chs ("name")),
        c.children.map (fun g => g.get (chs ("name"))))) :=
  ⟨rfl, by decide⟩

/-- Witness for C6 at a concrete one-group selection entry. -/
theorem C6_witness :
    (∀ c ∈ selW.children, c.tag = chs ("processes_group") ∧
      ∀ g ∈ c.children, g.tag = chs ("process")) ∧
    ([] : List Str) = [] ∧
    [BOp.add_processes_selection (ν := Str) (π := Unit) (some (chs ("sel")))
      [(some (chs ("g1")), [some (chs ("A"))])]] =
    [BOp.add_processes_selection (selW.get (chs ("name")))
      (selW.children.map (fun c => (c.get (chs ("name")),
        c.children.map (fun g => g.get (chs ("name"))))))] :=
  C6_selection_decoding.1 Str Unit ts2v tnum selW []
    [BOp.add_processes_selection (some (chs ("sel")))
      [(some (chs ("g1")), [some (chs ("A"))])]] [] rfl rfl (by decide)

end Capsul

namespace Capsul

/-- Folding ordered-dict assignments of a distinct-keyed association list
into an empty dictionary reproduces the list. -/
theorem foldl_odSet_id {K V : Type} [DecidableEq K] (l : List (K × V))
    (h : (l.map Prod.fst).Nodup) :
    l.foldl (fun acc t => odSet acc t.1 t.2) [] = l := by
  have hm := foldl_odSet_map (α := K × V) Prod.fst Prod.snd l []
    (by intro c _ kv hkv; simp at hkv) h
  simpa using hm

/-- Appending gui children to a successfully decoded prefix continues the
decoding from the accumulated calls. -/
theorem decodeGuiAux_append {ν π : Type}
    (parseNum : Option Str → Except String ν) (l1 l2 : List XElem) :
    ∀ (init mid : List (BOp ν π)),
      decodeGuiAux parseNum init l1 = .ok mid →
      decodeGuiAux parseNum init (l1 ++ l2) = decodeGuiAux parseNum mid l2 := by
  induction l1 with
  | nil =>
    intro init mid h
    rw [decodeGuiAux] at h
    rw [List.nil_append, Except.ok.inj h]
  | cons c cs ih =>
    intro init mid h
    rw [decodeGuiAux] at h
    rw [List.cons_append, decodeGuiAux]
    by_cases h1 : c.tag = chs ("position")
    · rw [if_pos h1] at h ⊢
      rcases hx : parseNum (c.get (chs ("x"))) with msg | x
      · rw [hx] at h
        simp at h
      · rw [hx] at h
        simp only [exceptOkBind] at h ⊢
        rcases hy : parseNum (c.get (chs ("y"))) with msg | y
        · rw [hy] at h
          simp at h
        · rw [hy] at h
          simp only [exceptOkBind] at h ⊢
          exact ih _ _ h
    · rw [if_neg h1] at h ⊢
      by_cases h2 : c.tag = chs ("zoom")
      · rw [if_pos h2] at h ⊢
        rcases hl : parseNum (c.get (chs ("level"))) with msg | lv
        · rw [hl] at h
          simp at h
        · rw [hl] at h
          simp only [exceptOkBind] at h ⊢
          exact ih _ _ h
      · rw [if_neg h2] at h
        simp at h

end Capsul

namespace Capsul

/-- Decoding the emitted `<position>` elements collects the
`set_node_position` calls carrying exactly the recorded positions. -/
theorem decodeGuiAux_positions {ν π : Type}
    (parseNum : Option Str → Except String ν) (numToStr : ν → Str)
    (hpf : ∀ v, parseNum (some (numToStr v)) = .ok v)
    (l : List (Option Str × (ν × ν))) :
    ∀ (init : List (BOp ν π)),
      decodeGuiAux parseNum init (l.map (posElem numToStr)) =
        .ok (init ++ l.map (fun t => .set_node_position t.1 t.2.1 t.2.2)) := by
  induction l with
  | nil => intro init; simp [decodeGuiAux]
  | cons t l ih =>
    intro init
    rcases t with ⟨n, x, y⟩
    rcases n with _ | n
    · rw [List.map_cons, decodeGuiAux,
        if_pos (show (posElem numToStr (none, x, y)).tag = chs ("position")
          from rfl)]
      rw [show (posElem numToStr (none, x, y)).get (chs ("x")) =
        some (numToStr x) from rfl, hpf x]
      simp only [exceptOkBind]
      rw [show (posElem numToStr (none, x, y)).get (chs ("y")) =
        some (numToStr y) from rfl, hpf y]
      simp only [exceptOkBind]
      rw [show (posElem numToStr (none, x, y)).get (chs ("name")) =
        none from rfl]
      rw [ih]
      simp
    · rw [List.map_cons, decodeGuiAux,
        if_pos (show (posElem numToStr (some n, x, y)).tag = chs ("position")
          from rfl)]
      rw [show (posElem numToStr (some n, x, y)).get (chs ("x")) =
        some (numToStr x) from rfl, hpf x]
      simp only [exceptOkBind]
      rw [show (posElem numToStr (some n, x, y)).get (chs ("y")) =
        some (numToStr y) from rfl, hpf y]
      simp only [exceptOkBind]
      rw [show (posElem numToStr (some n, x, y)).get (chs ("name")) =
        some n from rfl]
      rw [ih]
      simp

end Capsul

namespace Capsul

/-- Every builder call collected by the gui child loop is a
position or zoom call. -/
theorem decodeGuiAux_guiOps {ν π : Type}
    (parseNum : Option Str → Except String ν) (cs : List XElem) :
    ∀ (init ops : List (BOp ν π)),
      decodeGuiAux parseNum init cs = .ok ops →
      (∀ op ∈ init, GuiOp op) → ∀ op ∈ ops, GuiOp op := by
  induction cs with
  | nil =>
    intro init ops h hinit
    rw [decodeGuiAux] at h
    rw [← Except.ok.inj h]
    exact hinit
  | cons c cs ih =>
    intro init ops h hinit
    rw [decodeGuiAux] at h
    by_cases h1 : c.tag = chs ("position")
    · rw [if_pos h1] at h
      rcases hx : parseNum (c.get (chs ("x"))) with msg | x
      · rw [hx] at h
        simp at h
      · rw [hx] at h
        simp only [exceptOkBind] at h
        rcases hy : parseNum (c.get (chs ("y"))) with msg | y
        · rw [hy] at h
          simp at h
        · rw [hy] at h
          simp only [exceptOkBind] at h
          refine ih _ _ h ?_
          intro op hop
          rcases List.mem_append.1 hop with hm | hm
          · exact hinit op hm
          · rcases List.mem_singleton.1 hm with rfl
            trivial
    · rw [if_neg h1] at h
      by_cases h2 : c.tag = chs ("zoom")
      · rw [if_pos h2] at h
        rcases hl : parseNum (c.get (chs ("level"))) with msg | lv
        · rw [hl] at h
          simp at h
        · rw [hl] at h
          simp only [exceptOkBind] at h
          refine ih _ _ h ?_
          intro op hop
          rcases List.mem_append.1 hop with hm | hm
          · exact hinit op hm
          · rcases List.mem_singleton.1 hm with rfl
            trivial
      · rw [if_neg h2] at h
        simp at h

/-- A gui builder call only records presentation metadata: the nodes, the
selection groups and the documentation are untouched. -/
theorem applyOp_gui_frame {ν π : Type} (lib : Lib) (p p' : Pipeline ν)
    (op : BOp ν π) (hg : GuiOp op) (h : applyOp lib p op = .ok p') :
    p'.nodes = p.nodes ∧ p'.selection_groups = p.selection_groups ∧
    p'.documentation = p.documentation := by
  cases op with
  | set_node_position n x y =>
    rw [applyOp] at h
    rw [← Except.ok.inj h]
    exact ⟨rfl, rfl, rfl⟩
  | set_scene_scale_factor v =>
    rw [applyOp] at h
    rw [← Except.ok.inj h]
    exact ⟨rfl, rfl, rfl⟩
  | set_documentation d => simp [GuiOp] at hg
  | add_process a b c d e => simp [GuiOp] at hg
  | add_iterative_process a b c d e f => simp [GuiOp] at hg
  | call_set_usedefault a b => simp [GuiOp] at hg
  | add_link a b => simp [GuiOp] at hg
  | export_parameter a b c => simp [GuiOp] at hg
  | add_processes_selection a b => simp [GuiOp] at hg

/-- Running a list of gui builder calls leaves the nodes, the selection
groups and the documentation untouched. -/
theorem runOps_gui_frame {ν π : Type} (lib : Lib) (ops : List (BOp ν π)) :
    ∀ (p p' : Pipeline ν), (∀ op ∈ ops, GuiOp op) →
      runOps lib p ops = .ok p' →
      p'.nodes = p.nodes ∧ p'.selection_groups = p.selection_groups ∧
      p'.documentation = p.documentation := by
  induction ops with
  | nil =>
    intro p p' _ h
    rw [runOps, List.foldlM] at h
    have : p = p' := by simpa [pure, Except.pure] using h
    rw [← this]
    exact ⟨rfl, rfl, rfl⟩
  | cons op ops ih =>
    intro p p' hall h
    rw [runOps, List.foldlM_cons] at h
    rcases ha : applyOp lib p op with msg | p1
    · rw [ha] at h
      simp at h
    · rw [ha] at h
      simp only [exceptOkBind] at h
      rcases applyOp_gui_frame lib p p1 op
        (hall op (List.mem_cons_self op ops)) ha with ⟨e1, e2, e3⟩
      rcases ih p1 p' (fun o ho => hall o (List.mem_cons_of_mem op ho)) h
        with ⟨f1, f2, f3⟩
      exact ⟨f1.trans e1, f2.trans e2, f3.trans e3⟩

end Capsul

namespace Capsul

/-- Running the decoded `set_node_position` calls folds the recorded
positions into the node-position dictionary. -/
theorem runOps_positions {ν π : Type} (lib : Lib)
    (l : List (Option Str × (ν × ν))) :
    ∀ (q : Pipeline ν),
      runOps (π := π) lib q
        (l.map (fun t => BOp.set_node_position t.1 t.2.1 t.2.2)) =
      .ok (q.withPos (l.foldl (fun acc t => odSet acc t.1 t.2)
        q.node_position)) := by
  induction l with
  | nil => intro q; rfl
  | cons t l ih =>
    intro q
    rw [List.map_cons, runOps, List.foldlM_cons]
    rw [show applyOp (π := π) lib q (BOp.set_node_position t.1 t.2.1 t.2.2) =
      .ok (q.withPos (odSet q.node_position t.1 (t.2.1, t.2.2))) from rfl]
    simp only [exceptOkBind]
    rw [show (List.foldlM (applyOp lib)
        (q.withPos (odSet q.node_position t.1 (t.2.1, t.2.2)))
        (l.map (fun t => BOp.set_node_position t.1 t.2.1 t.2.2)) :
        Except String (Pipeline ν)) =
      runOps (π := π) lib
        (q.withPos (odSet q.node_position t.1 (t.2.1, t.2.2)))
        (l.map (fun t => BOp.set_node_position t.1 t.2.1 t.2.2)) from rfl]
    rw [ih]
    rfl

end Capsul

namespace Capsul

/-- The tag of a literal element. -/
theorem tag_mk (t : Str) (a : List (Str × Str)) (c : List XElem)
    (x : Option Str) : (XElem.mk t a c x).tag = t := rfl

/-- The gui element the encoder emits decodes, under any
exported-parameter set, into position and zoom calls that replay the
recorded presentation metadata onto a metadata-free state. -/
theorem gui_entry_replay {ν π : Type} :
    ∀ (s2v : Option Str → Except String (Option π))
      (parseNum : Option Str → Except String ν) (numToStr : ν → Str)
      (lib : Lib) (p q : Pipeline ν) (ex : List Str),
      (∀ v, parseNum (some (numToStr v)) = .ok v) →
      q.node_position = [] → q.scene_scale_factor = none →
      (p.node_position.map Prod.fst).Nodup →
      ∀ g ∈ guiElems numToStr p,
        ∃ (ops : List (BOp ν π)) (q' : Pipeline ν),
          decode_child s2v parseNum g ex = .ok (ops, ex) ∧
          runOps lib q ops = .ok q' ∧
          q'.node_position = p.node_position ∧
          q'.scene_scale_factor = p.scene_scale_factor ∧
          q'.nodes = q.nodes ∧ q'.selection_groups = q.selection_groups := by
  intro s2v parseNum numToStr lib p q ex hpf hq1 hq2 hnodup g hg
  rw [guiElems] at hg
  by_cases hcond : p.node_position.isEmpty = false ∨
      (p.scene_scale_factor).isSome
  · rw [if_pos hcond] at hg
    simp only [List.mem_singleton] at hg
    subst hg
    rcases hsf : p.scene_scale_factor with _ | v
    · -- no zoom factor
      dsimp only
      refine ⟨p.node_position.map
        (fun t => BOp.set_node_position t.1 t.2.1 t.2.2), q.withPos
        p.node_position, ?_, ?_, ?_, ?_, rfl, rfl⟩
      · rw [decode_child, if_neg (by rw [tag_mk]; decide),
          if_neg (by rw [tag_mk]; decide), if_neg (by rw [tag_mk]; decide),
          if_neg (by rw [tag_mk]; decide), if_pos (by rw [tag_mk])]
        rw [show decodeGui (ν := ν) (π := π) parseNum
          (XElem.mk (chs ("gui")) []
            (_write_nodes_positions numToStr p ++ []) none) =
          decodeGuiAux parseNum []
            (_write_nodes_positions numToStr p ++ []) from rfl]
        rw [List.append_nil, _write_nodes_positions]
        rw [decodeGuiAux_positions parseNum numToStr hpf p.node_position []]
        simp
      · rw [runOps_positions lib p.node_position q, hq1]
        rw [foldl_odSet_id p.node_position hnodup]
      · rw [Pipeline.withPos]
      · rw [Pipeline.withPos]
        simp [hq2, hsf]
    · -- zoom factor present
      dsimp only
      refine ⟨p.node_position.map
        (fun t => BOp.set_node_position t.1 t.2.1 t.2.2) ++
        [BOp.set_scene_scale_factor v],
        (q.withPos p.node_position).withScale (some v),
        ?_, ?_, ?_, ?_, rfl, rfl⟩
      · rw [decode_child, if_neg (by rw [tag_mk]; decide),
          if_neg (by rw [tag_mk]; decide), if_neg (by rw [tag_mk]; decide),
          if_neg (by rw [tag_mk]; decide), if_pos (by rw [tag_mk])]
        rw [show decodeGui (ν := ν) (π := π) parseNum
          (XElem.mk (chs ("gui")) []
            (_write_nodes_positions numToStr p ++ [zoomElem numToStr v])
            none) =
          decodeGuiAux parseNum []
            (_write_nodes_positions numToStr p ++ [zoomElem numToStr v])
          from rfl]
        rw [decodeGuiAux_append parseNum (_write_nodes_positions numToStr p)
          [zoomElem numToStr v] []
          (p.node_position.map
            (fun t => BOp.set_node_position t.1 t.2.1 t.2.2))
          (by rw [_write_nodes_positions]
              rw [decodeGuiAux_positions parseNum numToStr hpf
                p.node_position []]
              simp)]
        rw [decodeGuiAux, if_neg (by rw [zoomElem, tag_mk]; decide),
          if_pos (by rw [zoomElem, tag_mk])]
        rw [show (zoomElem numToStr v).get (chs ("level")) =
          some (numToStr v) from rfl, hpf v]
        simp only [exceptOkBind]
        rw [decodeGuiAux]
        simp
      · rw [runOps, List.foldlM_append]
        rw [show (List.foldlM (applyOp lib) q
            (p.node_position.map
              (fun t => BOp.set_node_position t.1 t.2.1 t.2.2)) :
            Except String (Pipeline ν)) =
          runOps (π := π) lib q
            (p.node_position.map
              (fun t => BOp.set_node_position t.1 t.2.1 t.2.2)) from rfl]
        rw [runOps_positions lib p.node_position q, hq1]
        rw [foldl_odSet_id p.node_position hnodup]
        simp only [exceptOkBind]
        rfl
      · rw [Pipeline.withScale, Pipeline.withPos]
      · rw [Pipeline.withScale]
  · rw [if_neg hcond] at hg
    simp at hg

/-- C7: a `gui` entry only records presentation metadata — its builder
calls are exclusively `set_node_position` / `set_scene_scale_factor` and
leave the nodes, the selection groups and the documentation (the state
activation is derived from) untouched — and the encoder writes the stored
node positions and zoom factor back into a `gui` entry, which decodes to
calls reproducing exactly the same metadata. -/
theorem C7_gui_entries :
    (∀ (ν π : Type) (s2v : Option Str → Except String (Option π))
        (parseNum : Option Str → Except String ν) (e : XElem)
        (exported : List Str) (ops : List (BOp ν π)) (ex' : List Str)
        (lib : Lib) (p p' : Pipeline ν),
      e.tag = chs ("gui") →
      decode_child s2v parseNum e exported = .ok (ops, ex') →
      runOps lib p ops = .ok p' →
      ex' = exported ∧ (∀ op ∈ ops, GuiOp op) ∧
      p'.nodes = p.nodes ∧ p'.selection_groups = p.selection_groups ∧
      p'.documentation = p.documentation) ∧
    (∀ (ν π : Type) (s2v : Option Str → Except String (Option π))
        (parseNum : Option Str → Except String ν) (numToStr : ν → Str)
        (lib : Lib) (p q : Pipeline ν),
      (∀ v, parseNum (some (numToStr v)) = .ok v) →
      q.node_position = [] → q.scene_scale_factor = none →
      (p.node_position.map Prod.fst).Nodup →
      ∀ g ∈ guiElems numToStr p,
        ∃ (ops : List (BOp ν π)) (q' : Pipeline ν),
          decode_child s2v parseNum g [] = .ok (ops, []) ∧
          runOps lib q ops = .ok q' ∧
          q'.node_position = p.node_position ∧
          q'.scene_scale_factor = p.scene_scale_factor ∧
          q'.nodes = q.nodes ∧ q'.selection_groups = q.selection_groups) := by
  constructor
  · intro ν π s2v parseNum e exported ops ex' lib p p' htag hok hrun
    rw [decode_child, if_neg (by rw [htag]; decide),
      if_neg (by rw [htag]; decide), if_neg (by rw [htag]; decide),
      if_neg (by rw [htag]; decide), if_pos htag] at hok
    rcases hg : decodeGui (ν := ν) (π := π) parseNum e with msg | gops
    · rw [hg] at hok
      simp at hok
    · rw [hg] at hok
      simp only [exceptOkBind] at hok
      have hops : gops = ops := congrArg Prod.fst (Except.ok.inj hok)
      have hex : ex' = exported :=
        (congrArg Prod.snd (Except.ok.inj hok)).symm
      have hgui : ∀ op ∈ ops, GuiOp op := by
        rw [← hops]
        exact decodeGuiAux_guiOps parseNum e.children [] gops hg
          (by intro op hop; simp at hop)
      rcases runOps_gui_frame lib ops p p' hgui hrun with ⟨e1, e2, e3⟩
      exact ⟨hex, hgui, e1, e2, e3⟩
  · intro ν π s2v parseNum numToStr lib p q hpf hq1 hq2 hnodup g hg
    exact gui_entry_replay s2v parseNum numToStr lib p q [] hpf hq1 hq2
      hnodup g hg

end Capsul

namespace Capsul

/-- Witness for C7: the gui element emitted for a pipeline with one node
position and a zoom factor decodes and replays to exactly that metadata on
a fresh pipeline. -/
theorem C7_witness :
    ∃ (ops : List (BOp Str Unit)) (q' : Pipeline Str),
      decode_child ts2v tnum
        (XElem.mk (chs ("gui")) []
          (_write_nodes_positions (fun v => v) guiP ++
            [zoomElem (fun v => v) (chs ("0.7"))]) none) [] =
        .ok (ops, []) ∧
      runOps tlib (emptyPipeline Str) ops = .ok q' ∧
      q'.node_position = guiP.node_position ∧
      q'.scene_scale_factor = guiP.scene_scale_factor ∧
      q'.nodes = (emptyPipeline Str).nodes ∧
      q'.selection_groups = (emptyPipeline Str).selection_groups := by
  have h := C7_gui_entries.2 Str Unit ts2v tnum (fun v => v) tlib guiP
    (emptyPipeline Str) (fun v => rfl) rfl rfl (by decide)
    (XElem.mk (chs ("gui")) []
      (_write_nodes_positions (fun v => v) guiP ++
        [zoomElem (fun v => v) (chs ("0.7"))]) none)
    (by rw [show guiElems (fun v => v) guiP =
          [XElem.mk (chs ("gui")) []
            (_write_nodes_positions (fun v => v) guiP ++
              [zoomElem (fun v => v) (chs ("0.7"))]) none] from rfl]
        exact List.mem_singleton.2 rfl)
  exact h

end Capsul

namespace Capsul

/-- The process child loop fails when some child carries an unrecognized
tag. -/
theorem procFold_err {π : Type} (s2v : Option Str → Except String (Option π))
    (cs : List XElem)
    (h : ∃ c ∈ cs, ¬ (c.tag = chs ("set") ∨ c.tag = chs ("iterate") ∨
      c.tag = chs ("nipype"))) :
    ∀ acc, ∃ msg, cs.foldlM (procChild s2v) acc = .error msg := by
  induction cs with
  | nil => simp at h
  | cons c cs ih =>
    intro acc
    rw [List.foldlM_cons]
    rcases hc : procChild s2v acc c with msg | acc1
    · exact ⟨msg, by simp⟩
    · simp only [exceptOkBind]
      rcases h with ⟨c', hm, hbad⟩
      rcases List.mem_cons.1 hm with rfl | hmem
      · exfalso
        push_neg at hbad
        rw [procChild, if_neg hbad.1, if_neg hbad.2.1, if_neg hbad.2.2] at hc
        simp at hc
      · exact ih ⟨c', hmem, hbad⟩ acc1

/-- The gui child loop fails when some child carries an unrecognized
tag. -/
theorem decodeGuiAux_err {ν π : Type}
    (parseNum : Option Str → Except String ν) (cs : List XElem)
    (h : ∃ c ∈ cs, ¬ (c.tag = chs ("position") ∨ c.tag = chs ("zoom"))) :
    ∀ (init : List (BOp ν π)), ∃ msg,
      decodeGuiAux parseNum init cs = .error msg := by
  induction cs with
  | nil => simp at h
  | cons c cs ih =>
    intro init
    rw [decodeGuiAux]
    rcases h with ⟨c', hm, hbad⟩
    rcases List.mem_cons.1 hm with rfl | hmem
    · push_neg at hbad
      rw [if_neg hbad.1, if_neg hbad.2]
      exact ⟨_, rfl⟩
    · by_cases h1 : c.tag = chs ("position")
      · rw [if_pos h1]
        rcases hx : parseNum (c.get (chs ("x"))) with msg | x
        · exact ⟨msg, by simp⟩
        · simp only [exceptOkBind]
          rcases hy : parseNum (c.get (chs ("y"))) with msg | y
          · exact ⟨msg, by simp⟩
          · simp only [exceptOkBind]
            exact ih ⟨c', hmem, hbad⟩ _
      · rw [if_neg h1]
        by_cases h2 : c.tag = chs ("zoom")
        · rw [if_pos h2]
          rcases hl : parseNum (c.get (chs ("level"))) with msg | lv
          · exact ⟨msg, by simp⟩
          · simp only [exceptOkBind]
            exact ih ⟨c', hmem, hbad⟩ _
        · rw [if_neg h2]
          exact ⟨_, rfl⟩

/-- Decoding an entry that holds an unrecognized tag at an inspected
position always fails. -/
theorem decode_child_err {ν π : Type}
    (s2v : Option Str → Except String (Option π))
    (parseNum : Option Str → Except String ν) (e : XElem)
    (hb : badEntry e) :
    ∀ exported, ∃ msg,
      decode_child (ν := ν) (π := π) s2v parseNum e exported = .error msg := by
  intro exported
  rcases hb with hb | hb | hb | hb
  · push_neg at hb
    rw [decode_child, if_neg hb.1, if_neg hb.2.1, if_neg hb.2.2.1,
      if_neg hb.2.2.2.1, if_neg hb.2.2.2.2]
    exact ⟨_, rfl⟩
  · rcases hb with ⟨htag, hbad⟩
    rw [decode_child, if_neg (by rw [htag]; decide), if_pos htag]
    rcases procFold_err s2v e.children hbad ⟨[], [], [], [], []⟩ with ⟨msg, hm⟩
    exact ⟨msg, by rw [hm]; simp⟩
  · rcases hb with ⟨htag, hbad⟩
    rw [decode_child, if_neg (by rw [htag]; decide),
      if_neg (by rw [htag]; decide), if_neg (by rw [htag]; decide),
      if_pos htag]
    rcases selGroupsAux_err e.children hbad [] with ⟨msg, hm⟩
    refine ⟨msg, ?_⟩
    rw [decodeSelection, hm]
    simp
  · rcases hb with ⟨htag, hbad⟩
    rw [decode_child, if_neg (by rw [htag]; decide),
      if_neg (by rw [htag]; decide), if_neg (by rw [htag]; decide),
      if_neg (by rw [htag]; decide), if_pos htag]
    rcases decodeGuiAux_err (ν := ν) (π := π) parseNum e.children hbad []
      with ⟨msg, hm⟩
    refine ⟨msg, ?_⟩
    rw [decodeGui, hm]
    simp

/-- The entry loop fails whenever some entry holds an unrecognized tag at
an inspected position. -/
theorem createAux_err {ν π : Type} (lib : Lib)
    (s2v : Option Str → Except String (Option π))
    (parseNum : Option Str → Except String ν) (es : List XElem)
    (h : ∃ e ∈ es, badEntry e) :
    ∀ (p : Pipeline ν) (exported : List Str), ∃ msg,
      createAux lib s2v parseNum p exported es = .error msg := by
  induction es with
  | nil => simp at h
  | cons e es ih =>
    intro p exported
    rw [createAux]
    rcases hd : decode_child (ν := ν) (π := π) s2v parseNum e exported
      with msg | r
    · exact ⟨msg, by simp⟩
    · simp only [exceptOkBind]
      rcases h with ⟨e', hm, hbad⟩
      rcases List.mem_cons.1 hm with rfl | hmem
      · exfalso
        rcases decode_child_err s2v parseNum e' hbad exported with ⟨msg, hmsg⟩
        rw [hd] at hmsg
        exact Except.noConfusion hmsg
      · rcases hr : runOps lib p r.1 with msg | p'
        · exact ⟨msg, by simp⟩
        · simp only [exceptOkBind]
          exact ih ⟨e', hmem, hbad⟩ p' r.2

/-- C4 (amended): an unrecognized structural tag at any of the positions
the decoder inspects — a top-level entry, a child of a `process` entry, a
child or grandchild of a `processes_selection` entry, or a child of a
`gui` entry — fails the whole parse, and no pipeline is returned.
(Children of `doc` and `link` entries are not inspected; see the
counterexample.) -/
theorem C4_unrecognized_tag_fails {ν π : Type} (lib : Lib)
    (s2v : Option Str → Except String (Option π))
    (parseNum : Option Str → Except String ν) (doc : XElem)
    (h : ∃ e ∈ doc.children, badEntry e) :
    ∃ msg, create_xml_pipeline (ν := ν) (π := π) lib s2v parseNum doc =
      .error msg := by
  rw [create_xml_pipeline]
  rcases hv : doc.get (chs ("capsul_xml")) with _ | v
  · exact createAux_err lib s2v parseNum doc.children h (emptyPipeline ν) []
  · dsimp only
    by_cases hok : v ≠ [] ∧ v ≠ chs ("2.0")
    · rw [if_pos hok]
      exact ⟨_, rfl⟩
    · rw [if_neg hok]
      exact createAux_err lib s2v parseNum doc.children h (emptyPipeline ν) []

/-- Witness for C4 at a document with a single top-level entry carrying
the unrecognized tag `wibble`. -/
theorem C4_witness :
    ∃ msg, create_xml_pipeline tlib ts2v tnum
      (XElem.mk (chs ("pipeline")) []
        [XElem.mk (chs ("wibble")) [] [] none] none) = .error msg :=
  C4_unrecognized_tag_fails tlib ts2v tnum _
    ⟨XElem.mk (chs ("wibble")) [] [] none, List.mem_singleton.2 rfl,
      Or.inl (by decide)⟩

/-- C4 counterexample: an unrecognized tag *nested inside a `link` entry*
is silently ignored — the decoder never iterates the children of `link`
(or `doc`) entries — so the parse succeeds and a pipeline is returned. -/
theorem C4_counterexample :
    (XElem.mk (chs ("wibble")) [] [] none).tag ∉
      [chs ("doc"), chs ("process"), chs ("link"), chs ("set"),
       chs ("iterate"), chs ("nipype"), chs ("processes_selection"),
       chs ("processes_group"), chs ("gui"), chs ("position"),
       chs ("zoom")] ∧
    ∃ p : Pipeline Str, create_xml_pipeline tlib ts2v tnum
      (XElem.mk (chs ("pipeline")) []
        [XElem.mk (chs ("process"))
           [(chs ("name"), chs ("A")), (chs ("module"), chs ("mods.P"))]
           [] none,
         XElem.mk (chs ("link"))
           [(chs ("source"), chs ("A.o")), (chs ("dest"), chs ("x"))]
           [XElem.mk (chs ("wibble")) [] [] none] none] none) = .ok p :=
  ⟨by decide, ⟨_, rfl⟩⟩

end Capsul

namespace Capsul

/-- A dot-free string has no last-dot split. -/
theorem splitLastDot_none (s : Str) (h : pyIn '.' s = false) :
    splitLastDot s = none := by
  induction s with
  | nil => rfl
  | cons c rest ih =>
    rw [pyIn, List.any_cons] at h
    simp only [Bool.or_eq_false_iff] at h
    have hc : ¬ c = '.' := by simpa using h.1
    rw [splitLastDot, ih h.2]
    simp [hc]

/-- Splitting at the last dot undoes appending a dot-free suffix. -/
theorem splitLastDot_append (a b : Str) (hb : pyIn '.' b = false) :
    splitLastDot (a ++ '.' :: b) = some (a, b) := by
  induction a with
  | nil =>
    rw [List.nil_append, splitLastDot, splitLastDot_none b hb]
    simp
  | cons c a ih =>
    rw [List.cons_append, splitLastDot, ih]

/-- A string with a dot spliced in contains a dot. -/
theorem pyIn_dot_append (a b : Str) : pyIn '.' (a ++ '.' :: b) = true := by
  simp [pyIn, List.any_append, List.any_cons]

/-- A hyphen-free string contains no arrow. -/
theorem findArrow_none (s : Str) (h : pyIn '-' s = false) :
    findArrow s = none := by
  induction s with
  | nil => rfl
  | cons c rest ih =>
    rw [pyIn, List.any_cons] at h
    simp only [Bool.or_eq_false_iff] at h
    have hc : ¬ c = '-' := by simpa using h.1
    cases rest with
    | nil => rfl
    | cons d rest' =>
      rw [findArrow, if_neg (fun hh => hc hh.1),
        ih (by rw [pyIn]; exact h.2)]
      rfl

/-- `findArrow` of a hyphen-free head consed onto a non-empty tail
recurses structurally. -/
theorem findArrow_cons (c : Char) (l : Str) (hc : ¬ c = '-') (hl : l ≠ []) :
    findArrow (c :: l) = (findArrow l).map (fun ab => (c :: ab.1, ab.2)) := by
  cases l with
  | nil => exact absurd rfl hl
  | cons d rest => rw [findArrow, if_neg (fun hh => hc hh.1)]

/-- The first arrow of `a ++ -> ++ b` with hyphen-free `a` is the splice
point. -/
theorem findArrow_seam (a b : Str) (ha : pyIn '-' a = false) :
    findArrow (a ++ '-' :: '>' :: b) = some (a, b) := by
  induction a with
  | nil =>
    rw [List.nil_append, findArrow, if_pos ⟨rfl, rfl⟩]
  | cons c a ih =>
    rw [pyIn, List.any_cons] at ha
    simp only [Bool.or_eq_false_iff] at ha
    have hc : ¬ c = '-' := by simpa using ha.1
    rw [List.cons_append,
      findArrow_cons c (a ++ '-' :: '>' :: b) hc (by simp),
      ih (by rw [pyIn]; exact ha.2)]
    rfl

/-- Splitting `a ++ -> ++ b` on the arrow recovers the halves when both
are hyphen-free. -/
theorem splitArrow_seam (a b : Str) (ha : pyIn '-' a = false)
    (hb : pyIn '-' b = false) :
    splitArrow (a ++ '-' :: '>' :: b) = some (a, b) := by
  rw [splitArrow, findArrow_seam a b ha]
  dsimp only
  rw [findArrow_none b hb]

end Capsul

namespace Capsul

/-- A `<link>` entry reaches the link branch of the decoder. -/
theorem decode_child_link {ν π : Type}
    (s2v : Option Str → Except String (Option π))
    (parseNum : Option Str → Except String ν) (a b : Str)
    (exported : List Str) :
    decode_child s2v parseNum (linkElem a b) exported =
      decodeLink (linkElem a b) exported := by
  rw [decode_child, if_neg (by rw [linkElem, tag_mk]; decide),
    if_neg (by rw [linkElem, tag_mk]; decide),
    if_pos (by rw [linkElem, tag_mk])]

/-- Adding a fresh process from a one-parameter module to the empty
pipeline. -/
theorem applyOp_add_first {ν π : Type} (lib : Lib) (mo n : Str)
    (params : List (Str × Bool)) (hmod : lib mo = some params)
    (hn : n ≠ []) :
    applyOp (π := π) lib (emptyPipeline ν)
      (BOp.add_process (some n) (some mo) [] [] []) =
    .ok { nodes := [([], ⟨[], false, [], []⟩),
            (n, ⟨mo, false, [],
              params.map (fun pr => (pr.1, ⟨pr.2, []⟩))⟩)]
          selection_groups := []
          node_position := []
          scene_scale_factor := none
          documentation := none } := by
  have hbeq : (n == ([] : Str)) = false := by
    rw [beq_eq_false_iff_ne]
    exact hn
  rw [applyOp]
  rw [show reqS (some n) = Except.ok n from rfl]
  simp only [exceptOkBind]
  rw [show reqS (some mo) = Except.ok mo from rfl]
  simp only [exceptOkBind]
  rw [hmod]
  rw [show (emptyPipeline ν).nodes.lookup n = none from by
    rw [emptyPipeline]
    dsimp only
    rw [List.lookup, hbeq]
    rfl]
  rfl

end Capsul

namespace Capsul

/-- Exporting the single output parameter of the just-added node under a
bare name creates the pipeline-level output plug and the connecting
link. -/
theorem applyOp_export_out {ν π : Type} (lib : Lib) (mo n p b : Str)
    (hn : n ≠ []) :
    applyOp (π := π) lib
      { nodes := [([], ⟨[], false, [], []⟩),
          (n, ⟨mo, false, [], [(p, ⟨true, []⟩)]⟩)]
        selection_groups := []
        node_position := []
        scene_scale_factor := none
        documentation := none }
      (BOp.export_parameter n p b) = .ok (shorthandOutG ν mo n p b) := by
  have hbn : (n == ([] : Str)) = false := by
    rw [beq_eq_false_iff_ne]
    exact hn
  rw [applyOp]
  simp only [List.lookup, hbn, beq_self_eq_true, Option.bind]
  simp only [odUpd, List.map_cons, List.map_nil]
  simp only [if_neg hn, if_pos (rfl : ([] : Str) = [])]
  simp [addLinkCore, Pipeline.getPlug, List.lookup, hbn, allLinksD,
    incomingCount, isIterPlug, Pipeline.updPlug, odUpd, hn, shorthandOutG,
    appendLink]

/-- Exporting the single input parameter of the just-added node under a
bare name creates the pipeline-level input plug holding the connecting
link. -/
theorem applyOp_export_in {ν π : Type} (lib : Lib) (mo n p b : Str)
    (hn : n ≠ []) :
    applyOp (π := π) lib
      { nodes := [([], ⟨[], false, [], []⟩),
          (n, ⟨mo, false, [], [(p, ⟨false, []⟩)]⟩)]
        selection_groups := []
        node_position := []
        scene_scale_factor := none
        documentation := none }
      (BOp.export_parameter n p b) = .ok (shorthandInG ν mo n p b) := by
  have hbn : (n == ([] : Str)) = false := by
    rw [beq_eq_false_iff_ne]
    exact hn
  rw [applyOp]
  simp only [List.lookup, hbn, beq_self_eq_true, Option.bind]
  simp only [odUpd, List.map_cons, List.map_nil]
  simp only [if_neg hn, if_pos (rfl : ([] : Str) = [])]
  simp [addLinkCore, Pipeline.getPlug, List.lookup, hbn, allLinksD,
    incomingCount, isIterPlug, Pipeline.updPlug, odUpd, hn, shorthandInG,
    appendLink]

end Capsul

namespace Capsul

/-- Re-encoding the export-shorthand graph (output direction) emits the
single shorthand link entry. -/
theorem write_links_shorthandOut {ν : Type} (mo n p b : Str) (hn : n ≠ []) :
    _write_links (shorthandOutG ν mo n p b) = [linkElem (dotted n p) b] := by
  rw [_write_links, shorthandOutG]
  simp [hn, linkElem, dotted]

/-- Re-encoding the export-shorthand graph (input direction) emits the
single shorthand link entry. -/
theorem write_links_shorthandIn {ν : Type} (mo n p b : Str) (hn : n ≠ []) :
    _write_links (shorthandInG ν mo n p b) = [linkElem b (dotted n p)] := by
  rw [_write_links, shorthandInG]
  simp [hn, linkElem, dotted]

end Capsul

namespace Capsul

/-- C2: a link entry with exactly one dotted `node.plug` endpoint and one
bare name not previously exported decodes to an implicit export-then-link
(`export_parameter` on the dotted endpoint under the bare name, which is
added to the exported set) instead of a plain `add_link`; a later link
entry reusing that bare name decodes to a plain `add_link`; and
re-encoding such a graph emits the same single shorthand link entry
rather than two separate explicit steps. -/
theorem C2_link_shorthand :
    (∀ (ν π : Type) (s2v : Option Str → Except String (Option π))
        (parseNum : Option Str → Except String ν) (n p b : Str)
        (exported : List Str),
      pyIn '.' p = false → pyIn '.' b = false → b ∉ exported →
      decode_child s2v parseNum (linkElem (dotted n p) b) exported =
        .ok ([BOp.export_parameter n p b], b :: exported)) ∧
    (∀ (ν π : Type) (s2v : Option Str → Except String (Option π))
        (parseNum : Option Str → Except String ν) (n p b : Str)
        (exported : List Str),
      pyIn '.' p = false → pyIn '.' b = false → b ∉ exported →
      decode_child s2v parseNum (linkElem b (dotted n p)) exported =
        .ok ([BOp.export_parameter n p b], b :: exported)) ∧
    (∀ (ν π : Type) (s2v : Option Str → Except String (Option π))
        (parseNum : Option Str → Except String ν) (n p b : Str)
        (exported : List Str),
      pyIn '.' b = false → b ∈ exported →
      decode_child s2v parseNum (linkElem (dotted n p) b) exported =
        .ok ([BOp.add_link (dotted n p ++ chs ("->") ++ b) false],
          exported)) ∧
    (∀ (ν π : Type) (s2v : Option Str → Except String (Option π))
        (parseNum : Option Str → Except String ν) (n p b : Str)
        (exported : List Str),
      pyIn '.' b = false → b ∈ exported →
      decode_child s2v parseNum (linkElem b (dotted n p)) exported =
        .ok ([BOp.add_link (b ++ chs ("->") ++ dotted n p) false],
          exported)) ∧
    (∀ (ν π : Type) (lib : Lib) (mo n p b : Str),
      lib mo = some [(p, true)] → n ≠ [] →
      runOps (π := π) lib (emptyPipeline ν)
        [BOp.add_process (some n) (some mo) [] [] [],
         BOp.export_parameter n p b] = .ok (shorthandOutG ν mo n p b) ∧
      _write_links (shorthandOutG ν mo n p b) =
        [linkElem (dotted n p) b]) ∧
    (∀ (ν π : Type) (lib : Lib) (mo n p b : Str),
      lib mo = some [(p, false)] → n ≠ [] →
      runOps (π := π) lib (emptyPipeline ν)
        [BOp.add_process (some n) (some mo) [] [] [],
         BOp.export_parameter n p b] = .ok (shorthandInG ν mo n p b) ∧
      _write_links (shorthandInG ν mo n p b) =
        [linkElem b (dotted n p)]) := by
  refine ⟨?_, ?_, ?_, ?_, ?_, ?_⟩
  · intro ν π s2v parseNum n p b exported hp hb hbex
    rw [decode_child_link, decodeLink]
    rw [show (linkElem (dotted n p) b).get (chs ("dest")) = some b from rfl]
    rw [show (linkElem (dotted n p) b).get (chs ("source")) =
      some (dotted n p) from rfl]
    rw [show reqS (some (dotted n p)) = Except.ok (dotted n p) from rfl]
    simp only [exceptOkBind]
    rw [dotted, if_pos (pyIn_dot_append n p)]
    rw [show reqS (some b) = Except.ok b from rfl]
    simp only [exceptOkBind]
    rw [if_neg (by rw [hb]; exact Bool.false_ne_true), if_neg hbex,
      splitLastDot_append n p hp]
    rfl
  · intro ν π s2v parseNum n p b exported hp hb hbex
    rw [decode_child_link, decodeLink]
    rw [show (linkElem b (dotted n p)).get (chs ("dest")) =
      some (dotted n p) from rfl]
    rw [show (linkElem b (dotted n p)).get (chs ("source")) = some b
      from rfl]
    rw [show reqS (some b) = Except.ok b from rfl]
    simp only [exceptOkBind]
    rw [if_neg (by rw [hb]; exact Bool.false_ne_true), if_neg hbex]
    rw [show reqS (some (dotted n p)) = Except.ok (dotted n p) from rfl]
    simp only [exceptOkBind]
    rw [dotted, splitLastDot_append n p hp]
    rfl
  · intro ν π s2v parseNum n p b exported hb hbex
    rw [decode_child_link, decodeLink]
    rw [show (linkElem (dotted n p) b).get (chs ("dest")) = some b from rfl]
    rw [show (linkElem (dotted n p) b).get (chs ("source")) =
      some (dotted n p) from rfl]
    rw [show reqS (some (dotted n p)) = Except.ok (dotted n p) from rfl]
    simp only [exceptOkBind]
    rw [dotted, if_pos (pyIn_dot_append n p)]
    rw [show reqS (some b) = Except.ok b from rfl]
    simp only [exceptOkBind]
    rw [if_neg (by rw [hb]; exact Bool.false_ne_true), if_pos hbex]
  · intro ν π s2v parseNum n p b exported hb hbex
    rw [decode_child_link, decodeLink]
    rw [show (linkElem b (dotted n p)).get (chs ("dest")) =
      some (dotted n p) from rfl]
    rw [show (linkElem b (dotted n p)).get (chs ("source")) = some b
      from rfl]
    rw [show reqS (some b) = Except.ok b from rfl]
    simp only [exceptOkBind]
    rw [if_neg (by rw [hb]; exact Bool.false_ne_true), if_pos hbex]
    rfl
  · intro ν π lib mo n p b hmod hn
    refine ⟨?_, write_links_shorthandOut mo n p b hn⟩
    rw [runOps, List.foldlM_cons,
      applyOp_add_first lib mo n [(p, true)] hmod hn]
    simp only [exceptOkBind, List.map_cons, List.map_nil, List.foldlM_cons]
    rw [applyOp_export_out lib mo n p b hn]
    rfl
  · intro ν π lib mo n p b hmod hn
    refine ⟨?_, write_links_shorthandIn mo n p b hn⟩
    rw [runOps, List.foldlM_cons,
      applyOp_add_first lib mo n [(p, false)] hmod hn]
    simp only [exceptOkBind, List.map_cons, List.map_nil, List.foldlM_cons]
    rw [applyOp_export_in lib mo n p b hn]
    rfl

end Capsul

namespace Capsul

/-- Witness for C2: the shorthand entry `A.o -> out` decodes to an export
when `out` is fresh and to a plain `add_link` when `out` was already
exported, and re-encoding the exported graph reproduces the single
shorthand entry. -/
theorem C2_witness :
    decode_child ts2v tnum
      (linkElem (dotted (chs ("A")) (chs ("o"))) (chs ("out"))) [] =
      .ok ([BOp.export_parameter (chs ("A")) (chs ("o")) (chs ("out"))],
        [chs ("out")]) ∧
    decode_child ts2v tnum
      (linkElem (dotted (chs ("A")) (chs ("o"))) (chs ("out")))
      [chs ("out")] =
      .ok ([BOp.add_link
        (dotted (chs ("A")) (chs ("o")) ++ chs ("->") ++ chs ("out"))
        false], [chs ("out")]) ∧
    runOps (ν := Str) (π := Unit) tlib (emptyPipeline Str)
      [BOp.add_process (some (chs ("A"))) (some (chs ("mods.O"))) [] [] [],
       BOp.export_parameter (chs ("A")) (chs ("o")) (chs ("out"))] =
      .ok (shorthandOutG Str (chs ("mods.O")) (chs ("A")) (chs ("o"))
        (chs ("out"))) ∧
    _write_links (shorthandOutG Str (chs ("mods.O")) (chs ("A")) (chs ("o"))
      (chs ("out"))) =
      [linkElem (dotted (chs ("A")) (chs ("o"))) (chs ("out"))] :=
  ⟨C2_link_shorthand.1 Str Unit ts2v tnum (chs ("A")) (chs ("o"))
      (chs ("out")) [] (by decide) (by decide) (by decide),
   C2_link_shorthand.2.2.1 Str Unit ts2v tnum (chs ("A")) (chs ("o"))
      (chs ("out")) [chs ("out")] (by decide) (by decide),
   (C2_link_shorthand.2.2.2.2.1 Str Unit tlib (chs ("mods.O")) (chs ("A"))
      (chs ("o")) (chs ("out")) (by decide) (by decide)).1,
   (C2_link_shorthand.2.2.2.2.1 Str Unit tlib (chs ("mods.O")) (chs ("A"))
      (chs ("o")) (chs ("out")) (by decide) (by decide)).2⟩

end Capsul

namespace Capsul

/-! ## Association-list lemmas for the builder state -/

/-- A failed lookup means the key is absent. -/
theorem lookup_eq_none_iff {β : Type} (m : List (Str × β)) (k : Str) :
    m.lookup k = none ↔ k ∉ m.map Prod.fst := by
  induction m with
  | nil => simp
  | cons kv rest ih =>
    rw [List.lookup, List.map_cons]
    by_cases hk : k = kv.1
    · rw [show (k == kv.1) = true from beq_iff_eq.2 hk]
      constructor
      · intro h
        exact Option.noConfusion h
      · intro h
        exact absurd (List.mem_cons_self kv.1 (rest.map Prod.fst)) (hk ▸ h)
    · rw [show (k == kv.1) = false from beq_eq_false_iff_ne.2 hk, ih]
      constructor
      · intro h hmem
        rcases List.mem_cons.1 hmem with he | hm
        · exact hk he
        · exact h hm
      · intro h hm
        exact h (List.mem_cons_of_mem kv.1 hm)

/-- A successful lookup returns a member. -/
theorem lookup_mem {β : Type} (m : List (Str × β)) (k : Str) (v : β)
    (h : m.lookup k = some v) : (k, v) ∈ m := by
  induction m with
  | nil => exact Option.noConfusion h
  | cons kv rest ih =>
    rw [List.lookup] at h
    by_cases hk : k = kv.1
    · rw [show (k == kv.1) = true from beq_iff_eq.2 hk] at h
      simp at h
      have hkv : (k, v) = kv := by
        rcases kv with ⟨k1, v1⟩
        simp at hk h ⊢
        exact ⟨hk, h.symm⟩
      rw [hkv]
      exact List.mem_cons_self kv rest
    · rw [show (k == kv.1) = false from beq_eq_false_iff_ne.2 hk] at h
      exact List.mem_cons_of_mem kv (ih h)

/-- Under distinct keys, every member is found by lookup. -/
theorem mem_lookup_of_nodup {β : Type} (m : List (Str × β)) (k : Str) (v : β)
    (hnd : (m.map Prod.fst).Nodup) (h : (k, v) ∈ m) :
    m.lookup k = some v := by
  induction m with
  | nil => simp at h
  | cons kv rest ih =>
    rw [List.map_cons, List.nodup_cons] at hnd
    rcases List.mem_cons.1 h with rfl | hmem
    · rw [List.lookup, show (k == k) = true from beq_self_eq_true k]
    · rw [List.lookup]
      have hk : ¬ k = kv.1 := by
        intro he
        exact hnd.1 (he ▸ List.mem_map_of_mem Prod.fst hmem)
      rw [show (k == kv.1) = false from beq_eq_false_iff_ne.2 hk]
      exact ih hnd.2 hmem

/-- Lookup through an append, found on the left. -/
theorem lookup_append_left {β : Type} (m m2 : List (Str × β)) (k : Str)
    (v : β) (h : m.lookup k = some v) : (m ++ m2).lookup k = some v := by
  induction m with
  | nil => exact Option.noConfusion h
  | cons kv rest ih =>
    rw [List.lookup] at h
    rw [List.cons_append, List.lookup]
    by_cases hk : k = kv.1
    · rw [show (k == kv.1) = true from beq_iff_eq.2 hk] at h ⊢
      exact h
    · rw [show (k == kv.1) = false from beq_eq_false_iff_ne.2 hk] at h ⊢
      exact ih h

/-- Lookup through an append, absent on the left. -/
theorem lookup_append_right {β : Type} (m m2 : List (Str × β)) (k : Str)
    (h : m.lookup k = none) : (m ++ m2).lookup k = m2.lookup k := by
  induction m with
  | nil => simp
  | cons kv rest ih =>
    rw [List.lookup] at h
    rw [List.cons_append, List.lookup]
    by_cases hk : k = kv.1
    · rw [show (k == kv.1) = true from beq_iff_eq.2 hk] at h
      simp at h
    · rw [show (k == kv.1) = false from beq_eq_false_iff_ne.2 hk] at h ⊢
      exact ih h

/-- `odUpd` preserves the key list. -/
theorem odUpd_keys {β : Type} (m : List (Str × β)) (k : Str) (f : β → β) :
    (odUpd m k f).map Prod.fst = m.map Prod.fst := by
  rw [odUpd, List.map_map]
  apply List.map_congr_left
  intro kv _
  by_cases hk : kv.1 = k
  · simp [Function.comp, hk]
  · simp [Function.comp, hk]

/-- Lookup of the updated key. -/
theorem odUpd_lookup_self {β : Type} (m : List (Str × β)) (k : Str)
    (f : β → β) (v : β) (h : m.lookup k = some v) :
    (odUpd m k f).lookup k = some (f v) := by
  induction m with
  | nil => exact Option.noConfusion h
  | cons kv rest ih =>
    rw [List.lookup] at h
    rw [odUpd, List.map_cons]
    by_cases hk : kv.1 = k
    · rw [show (k == kv.1) = true from beq_iff_eq.2 hk.symm] at h
      simp at h
      rw [if_pos hk, List.lookup]
      rw [show (k == (kv.1, f kv.2).1) = true from beq_iff_eq.2 hk.symm]
      dsimp only
      rw [h]
    · rw [show (k == kv.1) = false from beq_eq_false_iff_ne.2
        (fun he => hk he.symm)] at h
      rw [if_neg hk, List.lookup,
        show (k == kv.1) = false from beq_eq_false_iff_ne.2
          (fun he => hk he.symm)]
      exact ih h

end Capsul

namespace Capsul

/-- Lookup of an untouched key under `odUpd`. -/
theorem odUpd_lookup_ne {β : Type} (m : List (Str × β)) (k k' : Str)
    (f : β → β) (hk : k' ≠ k) :
    (odUpd m k f).lookup k' = m.lookup k' := by
  induction m with
  | nil => rfl
  | cons kv rest ih =>
    obtain ⟨k1, v1⟩ := kv
    rw [odUpd, List.map_cons]
    dsimp only
    by_cases he : k1 = k
    · rw [if_pos he]
      simp only [List.lookup,
        show (k' == k1) = false from
          beq_eq_false_iff_ne.2 (fun hx => hk (hx.trans he))]
      exact ih
    · rw [if_neg he]
      by_cases hx : k' = k1
      · simp only [List.lookup, show (k' == k1) = true from beq_iff_eq.2 hx]
      · simp only [List.lookup,
          show (k' == k1) = false from beq_eq_false_iff_ne.2 hx]
        exact ih

/-- Members of an `odUpd`-updated list. -/
theorem mem_odUpd {β : Type} (m : List (Str × β)) (k : Str) (f : β → β)
    (kv' : Str × β) (h : kv' ∈ odUpd m k f) :
    (kv' ∈ m ∧ kv'.1 ≠ k) ∨ (∃ v, (k, v) ∈ m ∧ kv' = (k, f v)) := by
  rw [odUpd] at h
  rcases List.mem_map.1 h with ⟨kv, hkv, heq⟩
  by_cases hk : kv.1 = k
  · right
    refine ⟨kv.2, ?_, ?_⟩
    · rw [← hk]
      exact hkv
    · rw [← heq, if_pos hk, hk]
  · left
    rw [← heq, if_neg hk]
    exact ⟨hkv, hk⟩

/-- Lookup of an absent key is still absent after `odUpd`. -/
theorem odUpd_lookup_none {β : Type} (m : List (Str × β)) (k : Str)
    (f : β → β) (h : m.lookup k = none) : (odUpd m k f).lookup k = none := by
  rw [lookup_eq_none_iff] at h ⊢
  rw [odUpd_keys]
  exact h

/-- `getPlug` after a plug update: the targeted plug is mapped through the
update, every other plug is unchanged. -/
theorem getPlug_updPlug {ν : Type} (G : Pipeline ν) (sn sq n q : Str)
    (f : Plug → Plug) :
    (G.updPlug sn sq f).getPlug n q =
      if n = sn ∧ q = sq then (G.getPlug sn sq).map f
      else G.getPlug n q := by
  by_cases hn : n = sn
  · subst hn
    by_cases hq : q = sq
    · subst hq
      rw [if_pos ⟨rfl, rfl⟩]
      rw [Pipeline.updPlug, Pipeline.getPlug, Pipeline.getPlug]
      dsimp only
      rcases hl : G.nodes.lookup n with _ | nd
      · rw [odUpd_lookup_none G.nodes n _ hl]
        rfl
      · rw [odUpd_lookup_self G.nodes n _ nd hl]
        dsimp only [Option.bind]
        rcases hp : nd.plugs.lookup q with _ | pl
        · rw [odUpd_lookup_none nd.plugs q f hp]
          rfl
        · rw [odUpd_lookup_self nd.plugs q f pl hp]
          rfl
    · rw [if_neg (fun hx => hq hx.2)]
      rw [Pipeline.updPlug, Pipeline.getPlug, Pipeline.getPlug]
      dsimp only
      rcases hl : G.nodes.lookup n with _ | nd
      · rw [odUpd_lookup_none G.nodes n _ hl]
      · rw [odUpd_lookup_self G.nodes n _ nd hl]
        dsimp only [Option.bind]
        rw [odUpd_lookup_ne nd.plugs sq q f hq]
  · rw [if_neg (fun hx => hn hx.1)]
    rw [Pipeline.updPlug, Pipeline.getPlug, Pipeline.getPlug]
    dsimp only
    rw [odUpd_lookup_ne G.nodes sn n _ hn]

end Capsul

namespace Capsul

/-- Combined lookup rule for `odUpd`. -/
theorem odUpd_lookup {β : Type} (m : List (Str × β)) (k k' : Str)
    (f : β → β) :
    (odUpd m k f).lookup k' =
      if k' = k then (m.lookup k').map f else m.lookup k' := by
  by_cases h : k' = k
  · subst h
    rcases hl : m.lookup k' with _ | v
    · rw [if_pos rfl, odUpd_lookup_none m k' f hl]
      rfl
    · rw [if_pos rfl, odUpd_lookup_self m k' f v hl]
      rfl
  · rw [if_neg h, odUpd_lookup_ne m k k' f h]

/-- Lookup over a key-preserving map of an association list. -/
theorem lookup_map_pair {β γ : Type} (l : List (Str × β))
    (f : Str × β → γ) (k : Str) :
    (l.map (fun x => (x.1, f x))).lookup k =
      (l.lookup k).map (fun v => f (k, v)) := by
  induction l with
  | nil => rfl
  | cons kv rest ih =>
    rw [List.map_cons, List.lookup, List.lookup]
    by_cases h : k = kv.1
    · subst h
      simp only [beq_self_eq_true]
      rfl
    · rw [show (k == kv.1) = false from beq_eq_false_iff_ne.2 h]
      exact ih

/-- Lookup over the graph of a function on names. -/
theorem lookup_map_self {β : Type} (l : List Str) (f : Str → β) (k : Str) :
    (l.map (fun b => (b, f b))).lookup k =
      if k ∈ l then some (f k) else none := by
  induction l with
  | nil => rfl
  | cons b rest ih =>
    rw [List.map_cons, List.lookup]
    by_cases h : k = b
    · subst h
      rw [show (k == k) = true from beq_self_eq_true k]
      simp
    · rw [show (k == b) = false from beq_eq_false_iff_ne.2 h, ih]
      by_cases hm : k ∈ rest
      · rw [if_pos hm, if_pos (List.mem_cons_of_mem b hm)]
      · rw [if_neg hm, if_neg (by
          intro hx
          rcases List.mem_cons.1 hx with hx | hx
          · exact h hx
          · exact hm hx)]

/-- `odUpd` distributes over append. -/
theorem odUpd_append {β : Type} (m1 m2 : List (Str × β)) (k : Str)
    (f : β → β) : odUpd (m1 ++ m2) k f = odUpd m1 k f ++ odUpd m2 k f := by
  rw [odUpd, odUpd, odUpd, List.map_append]

/-- `odUpd` with an absent key is the identity. -/
theorem odUpd_of_not_mem {β : Type} (m : List (Str × β)) (k : Str)
    (f : β → β) (h : k ∉ m.map Prod.fst) : odUpd m k f = m := by
  induction m with
  | nil => rfl
  | cons kv rest ih =>
    rw [List.map_cons] at h
    rw [odUpd, List.map_cons,
      if_neg (fun he => h (List.mem_cons.2 (Or.inl he.symm)))]
    have h2 := ih (fun hx => h (List.mem_cons_of_mem _ hx))
    rw [odUpd] at h2
    rw [h2]

/-- Pointwise update of a name-indexed map. -/
theorem odUpd_map_self {β : Type} (l : List Str) (f : Str → β) (k : Str)
    (g : β → β) :
    odUpd (l.map (fun b => (b, f b))) k g =
      l.map (fun b => (b, if b = k then g (f b) else f b)) := by
  rw [odUpd, List.map_map]
  apply List.map_congr_left
  intro b _
  by_cases h : b = k
  · simp [Function.comp, h]
  · simp [Function.comp, h]

/-- Decomposition of an association list at the first occurrence of a
key. -/
theorem lookup_decomp {β : Type} (m : List (Str × β)) (k : Str) (v : β)
    (h : m.lookup k = some v) :
    ∃ m1 m2, m = m1 ++ (k, v) :: m2 ∧ k ∉ m1.map Prod.fst := by
  induction m with
  | nil => exact Option.noConfusion h
  | cons kv rest ih =>
    rw [List.lookup] at h
    by_cases hk : k = kv.1
    · rw [show (k == kv.1) = true from beq_iff_eq.2 hk] at h
      dsimp only at h
      have hv := Option.some.inj h
      have hkv : kv = (k, v) := by
        rw [Prod.ext_iff]
        exact ⟨hk.symm, hv⟩
      exact ⟨[], rest, by rw [List.nil_append, hkv], by simp⟩
    · rw [show (k == kv.1) = false from beq_eq_false_iff_ne.2 hk] at h
      dsimp only at h
      rcases ih h with ⟨m1, m2, he, hnk⟩
      refine ⟨kv :: m1, m2, by rw [List.cons_append, he], ?_⟩
      rw [List.map_cons]
      intro hx
      rcases List.mem_cons.1 hx with hx | hx
      · exact hk hx
      · exact hnk hx

/-- Keys of an ordered-dict assignment. -/
theorem odSet_keys {K V : Type} [DecidableEq K] (m : List (K × V)) (k : K)
    (v : V) :
    (odSet m k v).map Prod.fst =
      if k ∈ m.map Prod.fst then m.map Prod.fst
      else m.map Prod.fst ++ [k] := by
  induction m with
  | nil => simp [odSet]
  | cons kv rest ih =>
    rw [odSet]
    by_cases h : kv.1 = k
    · rw [if_pos h, List.map_cons, List.map_cons,
        if_pos (List.mem_cons.2 (Or.inl h.symm))]
      rw [h]
    · rw [if_neg h, List.map_cons, List.map_cons, ih]
      by_cases hm : k ∈ rest.map Prod.fst
      · rw [if_pos hm, if_pos (List.mem_cons_of_mem _ hm)]
      · rw [if_neg hm, if_neg (by
          intro hx
          rcases List.mem_cons.1 hx with hx | hx
          · exact h hx.symm
          · exact hm hx)]
        rw [List.cons_append]

/-- Ordered-dict assignment preserves distinct keys. -/
theorem odSet_nodup {K V : Type} [DecidableEq K] (m : List (K × V)) (k : K)
    (v : V) (h : (m.map Prod.fst).Nodup) :
    ((odSet m k v).map Prod.fst).Nodup := by
  rw [odSet_keys]
  by_cases hm : k ∈ m.map Prod.fst
  · rw [if_pos hm]
    exact h
  · rw [if_neg hm]
    refine List.Nodup.append h (List.nodup_singleton k) ?_
    intro a ha hb
    rw [List.mem_singleton] at hb
    subst hb
    exact hm ha

end Capsul

namespace Capsul

/-- Link selection from an empty tuple list. -/
theorem linksIn_nil (n q : Str) : linksIn [] n q = [] := rfl

/-- Link selection distributes over append. -/
theorem linksIn_append (l1 l2 : List LinkT) (n q : Str) :
    linksIn (l1 ++ l2) n q = linksIn l1 n q ++ linksIn l2 n q := by
  rw [linksIn, linksIn, linksIn, List.filterMap_append]

/-- Link selection from a singleton. -/
theorem linksIn_single (t : LinkT) (n q : Str) :
    linksIn [t] n q = if t.1 = n ∧ t.2.1 = q then [t.2.2] else [] := by
  by_cases h : t.1 = n ∧ t.2.1 = q
  · simp [linksIn, List.filterMap_cons, h]
  · simp [linksIn, List.filterMap_cons, h]

/-- Membership in the mention list. -/
theorem mem_mentionsAux (l : List LinkT) :
    ∀ (seen : List Str) (b : Str),
      b ∈ mentionsAux seen l ↔
        b ∉ seen ∧ ∃ t ∈ l, bareOf t = some b := by
  induction l with
  | nil =>
    intro seen b
    simp [mentionsAux]
  | cons t ts ih =>
    intro seen b
    rw [mentionsAux]
    rcases hb : bareOf t with _ | c
    all_goals simp only [Option.elim_none, Option.elim_some]
    · rw [ih seen b]
      constructor
      · rintro ⟨h1, u, hu, h2⟩
        exact ⟨h1, u, List.mem_cons_of_mem t hu, h2⟩
      · rintro ⟨h1, u, hu, h2⟩
        rcases List.mem_cons.1 hu with rfl | hu
        · rw [hb] at h2
          exact Option.noConfusion h2
        · exact ⟨h1, u, hu, h2⟩
    · by_cases hc : c ∈ seen
      · rw [if_pos hc, ih seen b]
        constructor
        · rintro ⟨h1, u, hu, h2⟩
          exact ⟨h1, u, List.mem_cons_of_mem t hu, h2⟩
        · rintro ⟨h1, u, hu, h2⟩
          rcases List.mem_cons.1 hu with rfl | hu
          · rw [hb] at h2
            rw [Option.some.inj h2] at hc
            exact absurd hc h1
          · exact ⟨h1, u, hu, h2⟩
      · rw [if_neg hc]
        constructor
        · intro hm
          rcases List.mem_cons.1 hm with rfl | hm
          · exact ⟨hc, t, List.mem_cons_self t ts, hb⟩
          · rw [ih (c :: seen) b] at hm
            rcases hm with ⟨h1, u, hu, h2⟩
            exact ⟨fun hx => h1 (List.mem_cons_of_mem c hx), u,
              List.mem_cons_of_mem t hu, h2⟩
        · rintro ⟨h1, u, hu, h2⟩
          rcases List.mem_cons.1 hu with rfl | hu
          · rw [hb] at h2
            exact List.mem_cons.2 (Or.inl (Option.some.inj h2).symm)
          · by_cases hbc : b = c
            · exact List.mem_cons.2 (Or.inl hbc)
            · refine List.mem_cons.2 (Or.inr ?_)
              rw [ih (c :: seen) b]
              refine ⟨?_, u, hu, h2⟩
              intro hx
              rcases List.mem_cons.1 hx with hx | hx
              · exact hbc hx
              · exact h1 hx

/-- The mention list has distinct entries. -/
theorem mentionsAux_nodup (l : List LinkT) :
    ∀ seen : List Str, (mentionsAux seen l).Nodup := by
  induction l with
  | nil =>
    intro seen
    exact List.nodup_nil
  | cons t ts ih =>
    intro seen
    rw [mentionsAux]
    rcases hb : bareOf t with _ | c
    all_goals simp only [Option.elim_none, Option.elim_some]
    · exact ih seen
    · by_cases hc : c ∈ seen
      · rw [if_pos hc]
        exact ih seen
      · rw [if_neg hc]
        refine List.nodup_cons.2 ⟨?_, ih (c :: seen)⟩
        intro hx
        rw [mem_mentionsAux] at hx
        exact hx.1 (List.mem_cons_self c seen)

/-- Mention-list congruence in the seen set. -/
theorem mentionsAux_congr (l : List LinkT) :
    ∀ (s1 s2 : List Str), (∀ b, b ∈ s1 ↔ b ∈ s2) →
      mentionsAux s1 l = mentionsAux s2 l := by
  induction l with
  | nil =>
    intro s1 s2 _
    rfl
  | cons t ts ih =>
    intro s1 s2 hs
    rw [mentionsAux, mentionsAux]
    rcases hb : bareOf t with _ | c
    all_goals simp only [Option.elim_none, Option.elim_some]
    · exact ih s1 s2 hs
    · by_cases hc : c ∈ s1
      · rw [if_pos hc, if_pos ((hs c).1 hc)]
        exact ih s1 s2 hs
      · rw [if_neg hc, if_neg (fun hx => hc ((hs c).2 hx))]
        rw [ih (c :: s1) (c :: s2) (by
          intro b
          rw [List.mem_cons, List.mem_cons, hs b])]

/-- Mention list of an appended tuple list. -/
theorem mentionsAux_append (l1 l2 : List LinkT) :
    ∀ seen, mentionsAux seen (l1 ++ l2) =
      mentionsAux seen l1 ++
      mentionsAux (mentionsAux seen l1 ++ seen) l2 := by
  induction l1 with
  | nil =>
    intro seen
    rw [List.nil_append, mentionsAux, List.nil_append, List.nil_append]
  | cons t ts ih =>
    intro seen
    rw [List.cons_append, mentionsAux, mentionsAux]
    rcases hb : bareOf t with _ | c
    all_goals simp only [Option.elim_none, Option.elim_some]
    · exact ih seen
    · by_cases hc : c ∈ seen
      · simp only [if_pos hc]
        exact ih seen
      · simp only [if_neg hc]
        rw [ih (c :: seen), List.cons_append]
        congr 1
        congr 1
        apply mentionsAux_congr
        intro b
        simp only [List.mem_append, List.mem_cons]
        tauto

/-- Membership in the mentions of a tuple list. -/
theorem mem_mentions (l : List LinkT) (b : Str) :
    b ∈ mentions l ↔ ∃ t ∈ l, bareOf t = some b := by
  rw [mentions, mem_mentionsAux]
  simp

/-- Mentions after a tuple that mentions no bare name. -/
theorem mentions_append_none (pre : List LinkT) (t : LinkT)
    (hb : bareOf t = none) : mentions (pre ++ [t]) = mentions pre := by
  rw [mentions, mentionsAux_append, mentionsAux, hb, Option.elim_none,
    mentionsAux, List.append_nil, mentions]

/-- Mentions after a tuple whose bare name was already mentioned. -/
theorem mentions_append_old (pre : List LinkT) (t : LinkT) (b : Str)
    (hb : bareOf t = some b) (hm : b ∈ mentions pre) :
    mentions (pre ++ [t]) = mentions pre := by
  rw [mentions, mentionsAux_append, mentionsAux, hb, Option.elim_some]
  simp only [List.append_nil]
  have hm2 : b ∈ mentionsAux [] pre := hm
  simp only [if_pos hm2]
  rw [mentionsAux, List.append_nil, mentions]

/-- Mentions after a tuple carrying a fresh bare name. -/
theorem mentions_append_new (pre : List LinkT) (t : LinkT) (b : Str)
    (hb : bareOf t = some b) (hm : b ∉ mentions pre) :
    mentions (pre ++ [t]) = mentions pre ++ [b] := by
  rw [mentions, mentionsAux_append, mentionsAux, hb, Option.elim_some]
  simp only [List.append_nil]
  have hm2 : b ∉ mentionsAux [] pre := hm
  simp only [if_neg hm2]
  rw [mentionsAux, mentions]

/-- Recognizing the canonical node-list shape. -/
theorem shape_intro {ν : Type} (G : Pipeline ν) (pp : List (Str × Plug))
    (tl : List (Str × PNode))
    (h : G.nodes = ([], ⟨[], false, [], pp⟩) :: tl) :
    G.nodes = ([], ⟨[], false, [], pipePlugs G⟩) :: namedNodes G ∧
    pipePlugs G = pp ∧ namedNodes G = tl := by
  have h1 : pipePlugs G = pp := by
    rw [pipePlugs, h]
    rfl
  have h2 : namedNodes G = tl := by
    rw [namedNodes, h]
    rfl
  exact ⟨by rw [h, h1, h2], h1, h2⟩

/-- The links of a pipeline, node by node. -/
theorem allLinksD_eq_flatMap {ν : Type} (p : Pipeline ν) :
    allLinksD p = p.nodes.flatMap nodeLinks := rfl

end Capsul

namespace Capsul

/-- The link tuples of one node, plug by plug. -/
theorem nodeLinks_eq (nn : Str × PNode) :
    nodeLinks nn = nn.2.plugs.flatMap (fun qp =>
      qp.2.links_to.map (fun l => (nn.1, qp.1, l))) := rfl

/-- Membership in the link list of a pipeline. -/
theorem mem_allLinksD {ν : Type} (p : Pipeline ν) (t : LinkT) :
    t ∈ allLinksD p ↔ ∃ nn ∈ p.nodes, ∃ qp ∈ nn.2.plugs,
      ∃ l ∈ qp.2.links_to, t = (nn.1, qp.1, l) := by
  rw [allLinksD]
  constructor
  · intro h
    rcases List.mem_flatMap.1 h with ⟨nn, hnn, h2⟩
    rcases List.mem_flatMap.1 h2 with ⟨qp, hqp, h3⟩
    rcases List.mem_map.1 h3 with ⟨l, hl, he⟩
    exact ⟨nn, hnn, qp, hqp, l, hl, he.symm⟩
  · rintro ⟨nn, hnn, qp, hqp, l, hl, rfl⟩
    exact List.mem_flatMap.2 ⟨nn, hnn, List.mem_flatMap.2 ⟨qp, hqp,
      List.mem_map.2 ⟨l, hl, rfl⟩⟩⟩

/-- Updating a decomposed association list. -/
theorem odUpd_decomp {β : Type} (m1 m2 : List (Str × β)) (k : Str) (v : β)
    (f : β → β) (h1 : k ∉ m1.map Prod.fst) (h2 : k ∉ m2.map Prod.fst) :
    odUpd (m1 ++ (k, v) :: m2) k f = m1 ++ (k, f v) :: m2 := by
  rw [odUpd_append, odUpd_of_not_mem m1 k f h1, odUpd, List.map_cons,
    if_pos (show (k, v).1 = k from rfl)]
  rw [show List.map
      (fun kv => if kv.1 = k then (kv.1, f kv.2) else kv) m2 =
      odUpd m2 k f from rfl,
    odUpd_of_not_mem m2 k f h2]

/-- Inserting one element deep in a nest of appends is a permutation with
prepending it. -/
theorem perm_insert3 {α : Type} (a : α) (x y z w : List α) :
    (x ++ ((y ++ ((z ++ [a]) ++ w)))).Perm (a :: (x ++ (y ++ (z ++ w)))) := by
  have h := @List.perm_middle _ a ((x ++ y) ++ z) w
  simpa [List.append_assoc] using h

/-- Appending one link to an existing plug permutes the pipeline's link
list into the new tuple consed onto the old list. -/
theorem allLinksD_updPlug_perm {ν : Type} (p : Pipeline ν) (sn sq : Str)
    (dn dq : Str) (w : Bool) (sp : Plug)
    (hnn : (p.nodes.map Prod.fst).Nodup)
    (hnp : ∀ nn ∈ p.nodes, (nn.2.plugs.map Prod.fst).Nodup)
    (hs : p.getPlug sn sq = some sp) :
    (allLinksD (p.updPlug sn sq (appendLink dn dq w))).Perm
      ((sn, sq, dn, dq, w) :: allLinksD p) := by
  rw [Pipeline.getPlug] at hs
  rcases hnd : p.nodes.lookup sn with _ | nd
  · rw [hnd] at hs
    exact Option.noConfusion hs
  rw [hnd] at hs
  dsimp only [Option.bind] at hs
  rcases lookup_decomp p.nodes sn nd hnd with ⟨n1, n2, hne, hn1⟩
  rcases lookup_decomp nd.plugs sq sp hs with ⟨q1, q2, hqe, hq1⟩
  have hsn2 : sn ∉ n2.map Prod.fst := by
    rw [hne, List.map_append, List.map_cons] at hnn
    exact (List.nodup_cons.1 (List.Nodup.of_append_right hnn)).1
  have hsq2 : sq ∉ q2.map Prod.fst := by
    have hmem : (sn, nd) ∈ p.nodes := by
      rw [hne]
      exact List.mem_append_right _ (List.mem_cons_self _ _)
    have hq := hnp (sn, nd) hmem
    rw [hqe, List.map_append, List.map_cons] at hq
    exact (List.nodup_cons.1 (List.Nodup.of_append_right hq)).1
  have e1 : allLinksD (p.updPlug sn sq (appendLink dn dq w)) =
      n1.flatMap nodeLinks ++
      ((q1.flatMap (fun qp => qp.2.links_to.map (fun l => (sn, qp.1, l))) ++
        ((sp.links_to.map (fun l => (sn, sq, l)) ++ [(sn, sq, dn, dq, w)]) ++
         q2.flatMap (fun qp => qp.2.links_to.map (fun l => (sn, qp.1, l))))) ++
       n2.flatMap nodeLinks) := by
    rw [allLinksD_eq_flatMap, Pipeline.updPlug]
    dsimp only
    rw [hne, odUpd_decomp n1 n2 sn nd _ hn1 hsn2, List.flatMap_append,
      List.flatMap_cons, nodeLinks_eq]
    dsimp only
    rw [hqe, odUpd_decomp q1 q2 sq sp _ hq1 hsq2, List.flatMap_append,
      List.flatMap_cons]
    dsimp only [appendLink]
    rw [List.map_append, List.append_assoc, List.append_assoc]
    simp only [List.map_cons, List.map_nil, List.append_assoc]
  have e0 : allLinksD p =
      n1.flatMap nodeLinks ++
      ((q1.flatMap (fun qp => qp.2.links_to.map (fun l => (sn, qp.1, l))) ++
        (sp.links_to.map (fun l => (sn, sq, l)) ++
         q2.flatMap (fun qp => qp.2.links_to.map (fun l => (sn, qp.1, l))))) ++
       n2.flatMap nodeLinks) := by
    rw [allLinksD_eq_flatMap, hne, List.flatMap_append, List.flatMap_cons,
      nodeLinks_eq]
    dsimp only
    rw [hqe, List.flatMap_append, List.flatMap_cons]
  rw [e1, e0]
  have h := @List.perm_middle _ (sn, sq, dn, dq, w)
    (n1.flatMap nodeLinks ++
      (q1.flatMap (fun qp => qp.2.links_to.map (fun l => (sn, qp.1, l))) ++
       sp.links_to.map (fun l => (sn, sq, l))))
    (q2.flatMap (fun qp => qp.2.links_to.map (fun l => (sn, qp.1, l))) ++
      n2.flatMap nodeLinks)
  simpa [List.append_assoc] using h

end Capsul

namespace Capsul

/-- Computation rule: the link-addition core succeeds when every check
passes. -/
theorem addLinkCore_eq_ok {ν : Type} (p : Pipeline ν) (sn sq dn dq : Str)
    (w : Bool) (sp dp : Plug)
    (h1 : p.getPlug sn sq = some sp) (h2 : p.getPlug dn dq = some dp)
    (h3 : if sn = [] then sp.output = false else sp.output = true)
    (h4 : if dn = [] then dp.output = true else dp.output = false)
    (h5 : (sn, sq, dn, dq, w) ∉ allLinksD p)
    (h6 : ¬ (dn ≠ [] ∧ w = false ∧ isIterPlug p dn dq = false ∧
        1 ≤ incomingCount p dn dq)) :
    addLinkCore p sn sq dn dq w =
      .ok (p.updPlug sn sq (appendLink dn dq w)) := by
  rw [addLinkCore, h1]
  simp only [Option.elim_some]
  rw [h2]
  simp only [Option.elim_some]
  rw [if_neg (not_not_intro h3), if_neg (not_not_intro h4), if_neg h5,
    if_neg h6]

/-- Facts a successful link addition guarantees. -/
theorem addLinkCore_ok_facts {ν : Type} (p p₂ : Pipeline ν)
    (sn sq dn dq : Str) (w : Bool)
    (h : addLinkCore p sn sq dn dq w = .ok p₂) :
    ∃ sp dp, p.getPlug sn sq = some sp ∧ p.getPlug dn dq = some dp ∧
      (if sn = [] then sp.output = false else sp.output = true) ∧
      (if dn = [] then dp.output = true else dp.output = false) ∧
      (sn, sq, dn, dq, w) ∉ allLinksD p ∧
      ¬ (dn ≠ [] ∧ w = false ∧ isIterPlug p dn dq = false ∧
          1 ≤ incomingCount p dn dq) ∧
      p₂ = p.updPlug sn sq (appendLink dn dq w) := by
  rw [addLinkCore] at h
  rcases hsp : p.getPlug sn sq with _ | sp
  · rw [hsp] at h
    simp only [Option.elim_none] at h
    exact Except.noConfusion h
  rw [hsp] at h
  simp only [Option.elim_some] at h
  rcases hdp : p.getPlug dn dq with _ | dp
  · rw [hdp] at h
    simp only [Option.elim_none] at h
    exact Except.noConfusion h
  rw [hdp] at h
  simp only [Option.elim_some] at h
  by_cases c1 : if sn = [] then sp.output = false else sp.output = true
  · rw [if_neg (not_not_intro c1)] at h
    by_cases c2 : if dn = [] then dp.output = true else dp.output = false
    · rw [if_neg (not_not_intro c2)] at h
      by_cases c3 : (sn, sq, dn, dq, w) ∈ allLinksD p
      · rw [if_pos c3] at h
        exact Except.noConfusion h
      · rw [if_neg c3] at h
        by_cases c4 : dn ≠ [] ∧ w = false ∧ isIterPlug p dn dq = false ∧
            1 ≤ incomingCount p dn dq
        · rw [if_pos c4] at h
          exact Except.noConfusion h
        · rw [if_neg c4] at h
          exact ⟨sp, dp, rfl, rfl, c1, c2, c3, c4, (Except.ok.inj h).symm⟩
    · rw [if_pos c2] at h
      exact Except.noConfusion h
  · rw [if_pos c1] at h
    exact Except.noConfusion h

/-- Node keys are unchanged by a plug update. -/
theorem updPlug_keys {ν : Type} (p : Pipeline ν) (sn sq : Str)
    (f : Plug → Plug) :
    (p.updPlug sn sq f).nodes.map Prod.fst = p.nodes.map Prod.fst := by
  rw [Pipeline.updPlug]
  dsimp only
  rw [odUpd_keys]

/-- Node lookup after a plug update. -/
theorem lookup_updPlug {ν : Type} (p : Pipeline ν) (sn sq n : Str)
    (f : Plug → Plug) :
    (p.updPlug sn sq f).nodes.lookup n =
      if n = sn then (p.nodes.lookup n).map
        (fun nd => { nd with plugs := odUpd nd.plugs sq f })
      else p.nodes.lookup n := by
  rw [Pipeline.updPlug]
  dsimp only
  rw [odUpd_lookup]

/-- Iteration flags are unchanged by a plug update. -/
theorem isIterPlug_updPlug {ν : Type} (p : Pipeline ν) (sn sq n q : Str)
    (f : Plug → Plug) :
    isIterPlug (p.updPlug sn sq f) n q = isIterPlug p n q := by
  rw [isIterPlug, isIterPlug, lookup_updPlug]
  by_cases h : n = sn
  · rw [if_pos h]
    rcases p.nodes.lookup n with _ | nd
    · rfl
    · rfl
  · rw [if_neg h]

/-- Plug names and directions are unchanged by a link append. -/
theorem skeleton_append_links (plugs : List (Str × Plug)) (sq : Str)
    (dn dq : Str) (w : Bool) :
    skeleton (odUpd plugs sq (appendLink dn dq w)) =
      skeleton plugs := by
  rw [skeleton, skeleton, odUpd, List.map_map]
  apply List.map_congr_left
  intro qp _
  by_cases h : qp.1 = sq
  · simp [Function.comp, h, appendLink]
  · simp [Function.comp, h]

end Capsul

namespace Capsul

/-- Per-plug step of the link-emission equality. -/
theorem write_links_plugs (n1 : Str) (plugs : List (Str × Plug))
    (hsrc : ∀ qp ∈ plugs, ∀ l ∈ qp.2.links_to,
      (n1 = [] ∧ qp.2.output = false) ∨ (n1 ≠ [] ∧ qp.2.output = true)) :
    (plugs.flatMap (fun qp =>
      if (n1 = [] ∧ qp.2.output = false) ∨ (n1 ≠ [] ∧ qp.2.output = true)
      then
        qp.2.links_to.map (fun l =>
          let src := if n1 = [] then qp.1 else n1 ++ '.' :: qp.1
          let dst := if l.1 = [] then l.2.1 else l.1 ++ '.' :: l.2.1
          XElem.mk (chs ("link"))
            ([(chs ("source"), src), (chs ("dest"), dst)] ++
              (if l.2.2 then [(chs ("weak"), chs ("1"))] else [])) [] none)
      else [])) =
      plugs.flatMap (fun qp =>
        (qp.2.links_to.map (fun l => (n1, qp.1, l))).map linkXElemOf) := by
  induction plugs with
  | nil => rfl
  | cons qp rest ih =>
    rw [List.flatMap_cons, List.flatMap_cons,
      ih (fun x hx => hsrc x (List.mem_cons_of_mem _ hx))]
    congr 1
    by_cases hc : (n1 = [] ∧ qp.2.output = false) ∨
        (n1 ≠ [] ∧ qp.2.output = true)
    · rw [if_pos hc, List.map_map]
      apply List.map_congr_left
      intro l _
      rfl
    · rw [if_neg hc]
      rcases hl : qp.2.links_to with _ | ⟨l, ls⟩
      · rfl
      · exact absurd (hsrc qp (List.mem_cons_self _ _) l
          (by rw [hl]; exact List.mem_cons_self _ _)) hc

/-- Node-list form of the link-emission equality. -/
theorem write_links_nodes_aux (ns : List (Str × PNode))
    (hsrc : ∀ nn ∈ ns, ∀ qp ∈ nn.2.plugs, ∀ l ∈ qp.2.links_to,
      (nn.1 = [] ∧ qp.2.output = false) ∨ (nn.1 ≠ [] ∧ qp.2.output = true)) :
    (ns.flatMap (fun nn =>
      nn.2.plugs.flatMap (fun qp =>
        if (nn.1 = [] ∧ qp.2.output = false) ∨
            (nn.1 ≠ [] ∧ qp.2.output = true)
        then
          qp.2.links_to.map (fun l =>
            let src := if nn.1 = [] then qp.1 else nn.1 ++ '.' :: qp.1
            let dst := if l.1 = [] then l.2.1 else l.1 ++ '.' :: l.2.1
            XElem.mk (chs ("link"))
              ([(chs ("source"), src), (chs ("dest"), dst)] ++
                (if l.2.2 then [(chs ("weak"), chs ("1"))] else [])) [] none)
        else []))) =
      (ns.flatMap nodeLinks).map linkXElemOf := by
  induction ns with
  | nil => rfl
  | cons nn rest ih =>
    rw [List.flatMap_cons, List.flatMap_cons, List.map_append,
      ih (fun x hx => hsrc x (List.mem_cons_of_mem _ hx))]
    congr 1
    rw [nodeLinks_eq, List.map_flatMap]
    exact write_links_plugs nn.1 nn.2.plugs (hsrc nn (List.mem_cons_self _ _))

/-- Under the source-polarity discipline of stored links, the encoder
emits exactly one link element per stored link, in storage order. -/
theorem write_links_eq {ν : Type} (p : Pipeline ν)
    (hsrc : ∀ nn ∈ p.nodes, ∀ qp ∈ nn.2.plugs, ∀ l ∈ qp.2.links_to,
      (nn.1 = [] ∧ qp.2.output = false) ∨ (nn.1 ≠ [] ∧ qp.2.output = true)) :
    _write_links p = (allLinksD p).map linkXElemOf := by
  rw [_write_links, allLinksD_eq_flatMap]
  exact write_links_nodes_aux p.nodes hsrc

end Capsul

namespace Capsul

/-- C8: for every pipeline whose stored links respect the builder's
source-side discipline (links are stored on an output plug of a named node
or on a non-output plug of the pipeline-level node `""`, as every
builder-constructed pipeline's are), `_write_links` emits exactly one link
element per stored link, in storage order — each link exactly once — and
every emitted link's source endpoint is such a plug, so every emitted link
element satisfies the link polarity invariant on its source side. -/
theorem C8_links_source_polarity {ν : Type} (G : Pipeline ν)
    (hsrc : ∀ nn ∈ G.nodes, ∀ qp ∈ nn.2.plugs, ∀ l ∈ qp.2.links_to,
      (nn.1 = [] ∧ qp.2.output = false) ∨ (nn.1 ≠ [] ∧ qp.2.output = true))
    (hnn : (G.nodes.map Prod.fst).Nodup)
    (hnp : ∀ nn ∈ G.nodes, (nn.2.plugs.map Prod.fst).Nodup) :
    _write_links G = (allLinksD G).map linkXElemOf ∧
    ∀ t ∈ allLinksD G, ∃ sp, G.getPlug t.1 t.2.1 = some sp ∧
      ((t.1 = [] ∧ sp.output = false) ∨ (t.1 ≠ [] ∧ sp.output = true)) := by
  refine ⟨write_links_eq G hsrc, ?_⟩
  intro t ht
  rcases (mem_allLinksD G t).1 ht with ⟨nn, hmem, qp, hqp, l, hl, rfl⟩
  have h1 : G.nodes.lookup nn.1 = some nn.2 :=
    mem_lookup_of_nodup G.nodes nn.1 nn.2 hnn hmem
  have h2 : nn.2.plugs.lookup qp.1 = some qp.2 :=
    mem_lookup_of_nodup nn.2.plugs qp.1 qp.2 (hnp nn hmem) hqp
  refine ⟨qp.2, ?_, hsrc nn hmem qp hqp l hl⟩
  rw [Pipeline.getPlug, h1]
  dsimp only [Option.bind]
  exact h2

/-- Witness for C8 at the concrete export-shorthand graph holding one
link. -/
theorem C8_witness :
    _write_links (shorthandOutG Unit (chs ("mods.P")) (chs ("P1"))
        (chs ("o")) (chs ("out"))) =
      (allLinksD (shorthandOutG Unit (chs ("mods.P")) (chs ("P1"))
        (chs ("o")) (chs ("out")))).map linkXElemOf ∧
    ∀ t ∈ allLinksD (shorthandOutG Unit (chs ("mods.P")) (chs ("P1"))
        (chs ("o")) (chs ("out"))),
      ∃ sp, (shorthandOutG Unit (chs ("mods.P")) (chs ("P1"))
        (chs ("o")) (chs ("out"))).getPlug t.1 t.2.1 = some sp ∧
      ((t.1 = [] ∧ sp.output = false) ∨ (t.1 ≠ [] ∧ sp.output = true)) :=
  C8_links_source_polarity
    (shorthandOutG Unit (chs ("mods.P")) (chs ("P1")) (chs ("o"))
      (chs ("out")))
    (by decide) (by decide) (by decide)

end Capsul

namespace Capsul

/-- Node-list shape after a plug update. -/
theorem updPlug_nodes_shape {ν : Type} (p : Pipeline ν) (sn sq : Str)
    (f : Plug → Plug) (pp : List (Str × Plug)) (tl : List (Str × PNode))
    (hshape : p.nodes = ([], ⟨[], false, [], pp⟩) :: tl) :
    (p.updPlug sn sq f).nodes =
      ([], ⟨[], false, [], if sn = [] then odUpd pp sq f else pp⟩) ::
        odUpd tl sn (fun nd => { nd with plugs := odUpd nd.plugs sq f }) := by
  rw [Pipeline.updPlug]
  dsimp only
  rw [hshape, odUpd, List.map_cons]
  congr 1
  by_cases hsn : sn = []
  · rw [if_pos hsn,
      if_pos (show (([], (⟨[], false, [], pp⟩ : PNode)) :
        Str × PNode).1 = sn from hsn.symm)]
  · rw [if_neg hsn, if_neg (fun hx => hsn (Eq.symm hx))]

/-- An entry of a plug-updated node list differs from an original node
only in its plug list, which is either untouched or `odUpd`-updated. -/
theorem mem_odUpd_plugs (tl : List (Str × PNode)) (sn sq : Str)
    (f : Plug → Plug) (nn' : Str × PNode)
    (h : nn' ∈ odUpd tl sn
      (fun nd => { nd with plugs := odUpd nd.plugs sq f })) :
    ∃ nn ∈ tl, nn'.1 = nn.1 ∧ nn'.2.module = nn.2.module ∧
      nn'.2.isIter = nn.2.isIter ∧ nn'.2.iterative = nn.2.iterative ∧
      (nn'.2.plugs = nn.2.plugs ∨ nn'.2.plugs = odUpd nn.2.plugs sq f) := by
  rcases mem_odUpd tl sn _ nn' h with ⟨hm, _⟩ | ⟨nd, hm, he⟩
  · exact ⟨nn', hm, rfl, rfl, rfl, rfl, Or.inl rfl⟩
  · exact ⟨(sn, nd), hm, by rw [he], by rw [he], by rw [he], by rw [he],
      Or.inr (by rw [he])⟩

/-- Requiring a list of present names succeeds on a fully present list. -/
theorem reqAll_map_some (l : List Str) : reqAll (l.map some) = .ok l := by
  induction l with
  | nil => rfl
  | cons a rest ih =>
    rw [List.map_cons, reqAll, List.mapM_cons,
      show reqS (some a) = Except.ok a from rfl]
    simp only [exceptOkBind]
    rw [show ((rest.map some).mapM reqS :
        Except String (List Str)) = reqAll (rest.map some) from rfl, ih]
    simp only [exceptOkBind]
    rfl

/-- A list of present optional names is a mapped list of names. -/
theorem exists_map_some_of_somes (l : List (Option Str))
    (h : ∀ o ∈ l, o.isSome) : ∃ xs : List Str, l = xs.map some := by
  induction l with
  | nil => exact ⟨[], rfl⟩
  | cons o rest ih =>
    rcases ih (fun x hx => h x (List.mem_cons_of_mem o hx)) with ⟨xs, hxs⟩
    rcases Option.isSome_iff_exists.1 (h o (List.mem_cons_self o rest))
      with ⟨a, ha⟩
    exact ⟨a :: xs, by rw [List.map_cons, ← hxs, ha]⟩

/-- The invariant only depends on the node list and the position keys. -/
theorem GInv_of_nodes_eq {ν : Type} (lib : Lib) (p p' : Pipeline ν)
    (h1 : p'.nodes = p.nodes)
    (h2 : (p'.node_position.map Prod.fst).Nodup)
    (hinv : GInv lib p) : GInv lib p' := by
  have enamed : namedNodes p' = namedNodes p := by
    rw [namedNodes, namedNodes, h1]
  have epipe : pipePlugs p' = pipePlugs p := by
    rw [pipePlugs, pipePlugs, h1]
  have elinks : allLinksD p' = allLinksD p := by
    rw [allLinksD_eq_flatMap, allLinksD_eq_flatMap, h1]
  have egp : ∀ n q, p'.getPlug n q = p.getPlug n q := by
    intro n q
    rw [Pipeline.getPlug, Pipeline.getPlug, h1]
  have eit : ∀ n q, isIterPlug p' n q = isIterPlug p n q := by
    intro n q
    rw [isIterPlug, isIterPlug, h1]
  have einc : ∀ n q, incomingCount p' n q = incomingCount p n q := by
    intro n q
    rw [incomingCount, incomingCount, elinks]
  refine ⟨⟨?_, ?_, ?_, ?_, ?_, ?_, ?_, ?_, ?_, ?_, ?_⟩, ?_, ?_⟩
  · rw [h1, epipe, enamed]
    exact hinv.shape
  · rw [enamed]
    exact hinv.named_wf
  · rw [h1]
    exact hinv.nodup_nodes
  · rw [h1]
    exact hinv.nodup_plugs
  · rw [enamed]
    exact hinv.named_lib
  · rw [epipe]
    exact hinv.pipe_wf
  · rw [h1]
    exact hinv.links_src
  · simp only [h1, egp]
    exact hinv.links_dst
  · rw [elinks]
    exact hinv.nodup_links
  · simp only [enamed, eit, einc]
    exact hinv.scalar
  · exact h2
  · simp only [epipe]
    exact hinv.pipe_in_nonempty
  · simp only [epipe, elinks]
    exact hinv.pipe_out_covered

/-- The empty pipeline satisfies the builder invariant. -/
theorem GInv_empty {ν : Type} (lib : Lib) : GInv lib (emptyPipeline ν) := by
  have hshape : (emptyPipeline ν).nodes =
      ([], (⟨[], false, [], []⟩ : PNode)) :: [] := rfl
  rcases shape_intro (emptyPipeline ν) [] [] hshape with ⟨hs, hpp, htl⟩
  have hlinks : allLinksD (emptyPipeline ν) = [] := rfl
  refine ⟨⟨hs, ?_, ?_, ?_, ?_, ?_, ?_, ?_, ?_, ?_, ?_⟩, ?_, ?_⟩
  · rw [htl]
    intro nn h
    exact absurd h (List.not_mem_nil nn)
  · simp [emptyPipeline]
  · intro nn h
    rw [show (emptyPipeline ν).nodes =
      [([], (⟨[], false, [], []⟩ : PNode))] from rfl] at h
    rcases List.mem_singleton.1 h with rfl
    exact List.nodup_nil
  · rw [htl]
    intro nn h
    exact absurd h (List.not_mem_nil nn)
  · rw [hpp]
    intro bp h
    exact absurd h (List.not_mem_nil bp)
  · intro nn h
    rw [show (emptyPipeline ν).nodes =
      [([], (⟨[], false, [], []⟩ : PNode))] from rfl] at h
    rcases List.mem_singleton.1 h with rfl
    intro qp hq
    exact absurd hq (List.not_mem_nil qp)
  · intro nn h
    rw [show (emptyPipeline ν).nodes =
      [([], (⟨[], false, [], []⟩ : PNode))] from rfl] at h
    rcases List.mem_singleton.1 h with rfl
    intro qp hq
    exact absurd hq (List.not_mem_nil qp)
  · rw [hlinks]
    exact List.nodup_nil
  · rw [htl]
    intro nn h
    exact absurd h (List.not_mem_nil nn)
  · simp [emptyPipeline]
  · rw [hpp]
    intro bp h
    exact absurd h (List.not_mem_nil bp)
  · rw [hpp]
    intro bp h
    exact absurd h (List.not_mem_nil bp)

end Capsul

namespace Capsul

/-- A successful (non-weak, non-pipeline-to-pipeline) link addition
preserves the core invariant, inserts exactly the new link tuple, and
touches the pipeline-level plugs only when the source is
pipeline-level. -/
theorem GCore_addLink {ν : Type} (lib : Lib) (p p₂ : Pipeline ν)
    (sn sq dn dq : Str) (hc : GCore lib p)
    (hnn0 : ¬ (sn = [] ∧ dn = []))
    (h : addLinkCore p sn sq dn dq false = .ok p₂) :
    GCore lib p₂ ∧
    (allLinksD p₂).Perm ((sn, sq, dn, dq, false) :: allLinksD p) ∧
    pipePlugs p₂ = (if sn = [] then
        odUpd (pipePlugs p) sq (appendLink dn dq false)
      else pipePlugs p) := by
  rcases addLinkCore_ok_facts p p₂ sn sq dn dq false h with
    ⟨sp, dp, hsp, hdp, hpol1, hpol2, hdup, hms, hp2⟩
  subst hp2
  have hperm := allLinksD_updPlug_perm p sn sq dn dq false sp
    hc.nodup_nodes hc.nodup_plugs hsp
  have hshape2 := updPlug_nodes_shape p sn sq (appendLink dn dq false)
    (pipePlugs p) (namedNodes p) hc.shape
  rcases shape_intro _ _ _ hshape2 with ⟨hs2, hpp2, htl2⟩
  have hndx : ∃ nd, p.nodes.lookup sn = some nd ∧
      nd.plugs.lookup sq = some sp := by
    rw [Pipeline.getPlug] at hsp
    rcases hnd : p.nodes.lookup sn with _ | nd
    · rw [hnd] at hsp
      exact Option.noConfusion hsp
    · rw [hnd] at hsp
      exact ⟨nd, rfl, hsp⟩
  rcases hndx with ⟨nds, hsnd, hsq⟩
  have hsmem : (sn, nds) ∈ p.nodes := lookup_mem p.nodes sn nds hsnd
  have hdiff : ¬ (dn = sn ∧ dq = sq) := by
    rintro ⟨h1, h2⟩
    rw [h1, h2, hsp] at hdp
    have hspdp := Option.some.inj hdp
    by_cases hsn : sn = []
    · rw [if_pos hsn] at hpol1
      rw [if_pos (h1.trans hsn)] at hpol2
      rw [← hspdp, hpol1] at hpol2
      exact Bool.noConfusion hpol2
    · rw [if_neg hsn] at hpol1
      rw [if_neg (fun hx => hsn (h1.symm.trans hx))] at hpol2
      rw [← hspdp, hpol1] at hpol2
      exact Bool.noConfusion hpol2
  have hgp := fun x y =>
    getPlug_updPlug p sn sq x y (appendLink dn dq false)
  refine ⟨⟨hs2, ?_, ?_, ?_, ?_, ?_, ?_, ?_, ?_, ?_, ?_⟩, hperm, hpp2⟩
  · rw [htl2]
    intro nn' hm
    rcases mem_odUpd_plugs (namedNodes p) sn sq (appendLink dn dq false)
      nn' hm with ⟨nn, hmem, he1, _, _, _, _⟩
    rw [he1]
    exact hc.named_wf nn hmem
  · rw [updPlug_keys]
    exact hc.nodup_nodes
  · intro nn' hm
    have hm2 : nn' ∈ odUpd p.nodes sn (appendLinkN sq dn dq false) := hm
    rcases mem_odUpd_plugs p.nodes sn sq (appendLink dn dq false)
      nn' hm2 with ⟨nn, hmem, _, _, _, _, hpl⟩
    rcases hpl with hpl | hpl
    · rw [hpl]
      exact hc.nodup_plugs nn hmem
    · rw [hpl, odUpd_keys]
      exact hc.nodup_plugs nn hmem
  · rw [htl2]
    intro nn' hm
    rcases mem_odUpd_plugs (namedNodes p) sn sq (appendLink dn dq false)
      nn' hm with ⟨nn, hmem, he1, he2, he3, he4, hpl⟩
    rcases hc.named_lib nn hmem with ⟨hl1, hl2, hl3⟩
    refine ⟨?_, ?_, ?_⟩
    · rw [he2]
      rcases hpl with hpl | hpl
      · rw [hpl]
        exact hl1
      · rw [hpl, skeleton_append_links]
        exact hl1
    · rw [he3, he4]
      exact hl2
    · intro qp hq
      rcases hpl with hpl | hpl
      · rw [hpl] at hq
        exact hl3 qp hq
      · rw [hpl] at hq
        rcases mem_odUpd nn.2.plugs sq _ qp hq with ⟨hq2, _⟩ | ⟨v, hq2, hqe⟩
        · exact hl3 qp hq2
        · rw [hqe]
          exact hl3 (sq, v) hq2
  · rw [hpp2]
    by_cases hsn : sn = []
    · rw [if_pos hsn]
      intro bp hm
      rcases mem_odUpd (pipePlugs p) sq _ bp hm with ⟨hm2, _⟩ | ⟨v, hm2, he⟩
      · exact hc.pipe_wf bp hm2
      · rw [he]
        exact hc.pipe_wf (sq, v) hm2
    · rw [if_neg hsn]
      exact hc.pipe_wf
  · intro nn' hm qp' hq l hl
    have hm2 : nn' ∈ odUpd p.nodes sn (appendLinkN sq dn dq false) := hm
    rcases mem_odUpd p.nodes sn _ nn' hm2 with ⟨hmem, _⟩ | ⟨nd, hmem, he⟩
    · exact hc.links_src nn' hmem qp' hq l hl
    · have hnd : nd = nds := by
        have hx := mem_lookup_of_nodup p.nodes sn nd hc.nodup_nodes hmem
        rw [hsnd] at hx
        exact (Option.some.inj hx).symm
      rw [hnd] at he
      rw [he] at hq
      have hq' : qp' ∈ odUpd nds.plugs sq (appendLink dn dq false) := hq
      rcases mem_odUpd nds.plugs sq _ qp' hq' with ⟨hq2, _⟩ | ⟨v, hq2, hqe⟩
      · have := hc.links_src (sn, nds) hsmem qp' hq2 l hl
        rw [he]
        exact this
      · have hv : v = sp := by
          have hx := mem_lookup_of_nodup nds.plugs sq v
            (hc.nodup_plugs (sn, nds) hsmem) hq2
          rw [hsq] at hx
          exact (Option.some.inj hx).symm
        rw [hv] at hqe hq2
        rw [hqe] at hl
        have hl2 : l ∈ sp.links_to ++ [(dn, dq, false)] := hl
        rcases List.mem_append.1 hl2 with hl3 | hl3
        · have := hc.links_src (sn, nds) hsmem (sq, sp) hq2 l hl3
          rw [he, hqe]
          exact this
        · rcases List.mem_singleton.1 hl3 with rfl
          rw [he, hqe]
          by_cases hsn : sn = []
          · rw [if_pos hsn] at hpol1
            exact Or.inl ⟨hsn, hpol1⟩
          · rw [if_neg hsn] at hpol1
            exact Or.inr ⟨hsn, hpol1⟩
  · intro nn' hm qp' hq l hl
    have htrans : ∀ (a : Str × PNode) (bq : Str × Plug), a ∈ p.nodes →
        bq ∈ a.2.plugs → l ∈ bq.2.links_to →
        l.2.2 = false ∧ ¬ (a.1 = [] ∧ l.1 = []) ∧
        ∃ dp2, (p.updPlug sn sq (appendLink dn dq false)).getPlug l.1 l.2.1
            = some dp2 ∧
          (if l.1 = [] then dp2.output = true else dp2.output = false) := by
      intro a bq hma hqb hlb
      rcases hc.links_dst a hma bq hqb l hlb with ⟨e1, e2, dp0, e3, e4⟩
      refine ⟨e1, e2, ?_⟩
      rw [hgp l.1 l.2.1]
      by_cases hxy : l.1 = sn ∧ l.2.1 = sq
      · rw [hxy.1, hxy.2] at e3
        rw [hsp] at e3
        have hd0 : dp0 = sp := (Option.some.inj e3).symm
        subst hd0
        rw [if_pos hxy, hsp]
        exact ⟨_, rfl, e4⟩
      · rw [if_neg hxy]
        exact ⟨dp0, e3, e4⟩
    have hm2 : nn' ∈ odUpd p.nodes sn (appendLinkN sq dn dq false) := hm
    rcases mem_odUpd p.nodes sn _ nn' hm2 with ⟨hmem, _⟩ | ⟨nd, hmem, he⟩
    · exact htrans nn' qp' hmem hq hl
    · have hnd : nd = nds := by
        have hx := mem_lookup_of_nodup p.nodes sn nd hc.nodup_nodes hmem
        rw [hsnd] at hx
        exact (Option.some.inj hx).symm
      rw [hnd] at he
      rw [he] at hq
      have hq' : qp' ∈ odUpd nds.plugs sq (appendLink dn dq false) := hq
      rcases mem_odUpd nds.plugs sq _ qp' hq' with ⟨hq2, _⟩ | ⟨v, hq2, hqe⟩
      · have := htrans (sn, nds) qp' hsmem hq2 hl
        rw [he]
        exact this
      · have hv : v = sp := by
          have hx := mem_lookup_of_nodup nds.plugs sq v
            (hc.nodup_plugs (sn, nds) hsmem) hq2
          rw [hsq] at hx
          exact (Option.some.inj hx).symm
        rw [hv] at hqe hq2
        rw [hqe] at hl
        have hl2 : l ∈ sp.links_to ++ [(dn, dq, false)] := hl
        rcases List.mem_append.1 hl2 with hl3 | hl3
        · have := htrans (sn, nds) (sq, sp) hsmem hq2 hl3
          rw [he]
          exact this
        · rcases List.mem_singleton.1 hl3 with rfl
          rw [he]
          refine ⟨rfl, ?_, ?_⟩
          · intro hx
            exact hnn0 ⟨hx.1, hx.2⟩
          · rw [hgp dn dq, if_neg hdiff, hdp]
            exact ⟨dp, rfl, hpol2⟩
  · exact (hperm.nodup_iff).2 (List.nodup_cons.2 ⟨hdup, hc.nodup_links⟩)
  · rw [htl2]
    intro nn' hm qp' hq hout hiter
    have hit := isIterPlug_updPlug p sn sq nn'.1 qp'.1
      (appendLink dn dq false)
    have hcount : incomingCount (p.updPlug sn sq (appendLink dn dq false))
        nn'.1 qp'.1 =
        incomingCount p nn'.1 qp'.1 +
        (if dn = nn'.1 ∧ dq = qp'.1 then 1 else 0) := by
      rw [incomingCount, hperm.countP_eq, List.countP_cons, incomingCount]
      congr 1
      by_cases hx : dn = nn'.1 ∧ dq = qp'.1
      · simp [hx]
      · simp [hx]
    rcases mem_odUpd_plugs (namedNodes p) sn sq (appendLink dn dq false)
      nn' hm with ⟨nn, hmem, he1, _, _, _, hpl⟩
    have hq0 : ∃ qp0 ∈ nn.2.plugs, qp0.1 = qp'.1 ∧
        qp0.2.output = qp'.2.output := by
      rcases hpl with hpl | hpl
      · rw [hpl] at hq
        exact ⟨qp', hq, rfl, rfl⟩
      · rw [hpl] at hq
        rcases mem_odUpd nn.2.plugs sq _ qp' hq with ⟨hq2, _⟩ | ⟨v, hq2, hqe⟩
        · exact ⟨qp', hq2, rfl, rfl⟩
        · exact ⟨(sq, v), hq2, by rw [hqe], by rw [hqe]; rfl⟩
    rcases hq0 with ⟨qp0, hq0m, hq0n, hq0o⟩
    have hitp : isIterPlug p nn'.1 qp'.1 = false := by
      rw [← hit]
      exact hiter
    have hsc := hc.scalar nn hmem qp0 hq0m
      (by rw [hq0o]; exact hout)
      (by rw [hq0n, ← he1]; exact hitp)
    rw [hq0n, ← he1] at hsc
    rw [hcount]
    by_cases hx : dn = nn'.1 ∧ dq = qp'.1
    · rw [if_pos hx]
      have hdn : dn ≠ [] := by
        rw [hx.1, he1]
        exact (hc.named_wf nn hmem).1
      have hnle : ¬ 1 ≤ incomingCount p dn dq := by
        intro hge
        refine hms ⟨hdn, rfl, ?_, hge⟩
        rw [hx.1, hx.2]
        exact hitp
      have hz : incomingCount p nn'.1 qp'.1 = 0 := by
        rw [← hx.1, ← hx.2]
        omega
      rw [hz]
    · rw [if_neg hx]
      simpa using hsc
  · exact hc.nodup_pos

end Capsul

namespace Capsul

/-- Adding a fresh, link-less node built from a library module preserves
the builder invariant. -/
theorem GInv_add_node {ν : Type} (lib : Lib) (p : Pipeline ν) (n m : Str)
    (params : List (Str × Bool)) (ib : Bool) (it : List Str)
    (hinv : GInv lib p) (hlib : libWF lib) (hwfn : wfName n)
    (hfresh : p.nodes.lookup n = none) (hm : lib m = some params)
    (hiter : ib = true ↔ it ≠ []) :
    GInv lib { p with nodes := p.nodes ++ [(n, ⟨m, ib, it,
      params.map (fun pr => (pr.1, ⟨pr.2, []⟩))⟩)] } := by
  have hshape' : ({ p with nodes := p.nodes ++ [(n, ⟨m, ib, it,
      params.map (fun pr => (pr.1, ⟨pr.2, []⟩))⟩)] } : Pipeline ν).nodes =
      ([], ⟨[], false, [], pipePlugs p⟩) ::
        (namedNodes p ++ [(n, ⟨m, ib, it,
          params.map (fun pr => (pr.1, ⟨pr.2, []⟩))⟩)]) := by
    show p.nodes ++ _ = _
    rw [hinv.shape, List.cons_append]
  rcases shape_intro _ _ _ hshape' with ⟨hs', hpp', htl'⟩
  have hnl : nodeLinks (n, (⟨m, ib, it,
      params.map (fun pr => (pr.1, ⟨pr.2, []⟩))⟩ : PNode)) = [] := by
    rw [nodeLinks_eq]
    simp [List.flatMap_map]
  have hlinks' : allLinksD ({ p with nodes := p.nodes ++ [(n, ⟨m, ib, it,
      params.map (fun pr => (pr.1, ⟨pr.2, []⟩))⟩)] } : Pipeline ν) =
      allLinksD p := by
    rw [allLinksD_eq_flatMap, allLinksD_eq_flatMap]
    show (p.nodes ++ [_]).flatMap _ = _
    rw [List.flatMap_append, List.flatMap_cons, List.flatMap_nil, hnl]
    simp
  have hnotin : n ∉ p.nodes.map Prod.fst :=
    (lookup_eq_none_iff p.nodes n).1 hfresh
  have hkeysnew : (params.map
      (fun pr => (pr.1, (⟨pr.2, []⟩ : Plug)))).map Prod.fst =
      params.map Prod.fst := by
    rw [List.map_map]
    apply List.map_congr_left
    intro pr _
    rfl
  have hskel : skeleton (params.map
      (fun pr => (pr.1, (⟨pr.2, []⟩ : Plug)))) = params := by
    rw [skeleton, List.map_map]
    have : (fun qp => ((qp : Str × Plug).1, qp.2.output)) ∘
        (fun pr => ((pr : Str × Bool).1, (⟨pr.2, []⟩ : Plug))) =
        fun pr => (pr.1, pr.2) := rfl
    rw [this]
    simp
  have hgpold : ∀ x y dp0, p.getPlug x y = some dp0 →
      ({ p with nodes := p.nodes ++ [(n, ⟨m, ib, it,
        params.map (fun pr => (pr.1, ⟨pr.2, []⟩))⟩)] } :
          Pipeline ν).getPlug x y = some dp0 := by
    intro x y dp0 hxy
    rw [Pipeline.getPlug] at hxy ⊢
    rcases hx : p.nodes.lookup x with _ | nd
    · rw [hx] at hxy
      exact Option.noConfusion hxy
    · rw [hx] at hxy
      show ((p.nodes ++ [_]).lookup x).bind _ = _
      rw [lookup_append_left p.nodes _ x nd hx]
      exact hxy
  have hiterold : ∀ x y nd, p.nodes.lookup x = some nd →
      isIterPlug ({ p with nodes := p.nodes ++ [(n, ⟨m, ib, it,
        params.map (fun pr => (pr.1, ⟨pr.2, []⟩))⟩)] } : Pipeline ν) x y =
      isIterPlug p x y := by
    intro x y nd hx
    rw [isIterPlug, isIterPlug, hx]
    show (match (p.nodes ++ [_]).lookup x with
      | some node => node.iterative.contains y
      | none => false) = _
    rw [lookup_append_left p.nodes _ x nd hx]
  have hnodest : ∀ t ∈ allLinksD p, t.2.2.1 ≠ n := by
    intro t ht he
    rcases (mem_allLinksD p t).1 ht with ⟨nn, hnn, qp, hqp, l, hl, rfl⟩
    rcases hinv.links_dst nn hnn qp hqp l hl with ⟨_, _, dp0, hdp0, _⟩
    have : l.1 = n := he
    rw [this, Pipeline.getPlug, hfresh] at hdp0
    exact Option.noConfusion hdp0
  refine ⟨⟨hs', ?_, ?_, ?_, ?_, ?_, ?_, ?_, ?_, ?_, ?_⟩, ?_, ?_⟩
  · rw [htl']
    intro nn hm2
    rcases List.mem_append.1 hm2 with hm2 | hm2
    · exact hinv.named_wf nn hm2
    · rcases List.mem_singleton.1 hm2 with rfl
      exact hwfn
  · show ((p.nodes ++ [_]).map Prod.fst).Nodup
    rw [List.map_append]
    refine List.Nodup.append hinv.nodup_nodes (by simp) ?_
    intro a ha hb
    simp only [List.map_cons, List.map_nil, List.mem_singleton] at hb
    subst hb
    exact hnotin ha
  · intro nn hm2
    have hm3 : nn ∈ p.nodes ++ [(n, (⟨m, ib, it,
      params.map (fun pr => (pr.1, ⟨pr.2, []⟩))⟩ : PNode))] := hm2
    rcases List.mem_append.1 hm3 with hm4 | hm4
    · exact hinv.nodup_plugs nn hm4
    · rcases List.mem_singleton.1 hm4 with rfl
      show ((params.map _).map Prod.fst).Nodup
      rw [hkeysnew]
      exact (hlib m params hm).1
  · rw [htl']
    intro nn hm2
    rcases List.mem_append.1 hm2 with hm2 | hm2
    · rcases hinv.named_lib nn hm2 with ⟨h1, h2, h3⟩
      exact ⟨h1, h2, h3⟩
    · rcases List.mem_singleton.1 hm2 with rfl
      refine ⟨?_, hiter, ?_⟩
      · show lib m = some (skeleton _)
        rw [hskel]
        exact hm
      · intro qp hq
        rcases List.mem_map.1 hq with ⟨pr, hpr, he⟩
        rw [← he]
        exact (hlib m params hm).2 pr hpr
  · rw [hpp']
    exact hinv.pipe_wf
  · intro nn hm2 qp hq l hl
    have hm3 : nn ∈ p.nodes ++ [(n, (⟨m, ib, it,
      params.map (fun pr => (pr.1, ⟨pr.2, []⟩))⟩ : PNode))] := hm2
    rcases List.mem_append.1 hm3 with hm4 | hm4
    · exact hinv.links_src nn hm4 qp hq l hl
    · rcases List.mem_singleton.1 hm4 with rfl
      rcases List.mem_map.1 hq with ⟨pr, _, he⟩
      rw [← he] at hl
      exact absurd hl (List.not_mem_nil l)
  · intro nn hm2 qp hq l hl
    have hm3 : nn ∈ p.nodes ++ [(n, (⟨m, ib, it,
      params.map (fun pr => (pr.1, ⟨pr.2, []⟩))⟩ : PNode))] := hm2
    rcases List.mem_append.1 hm3 with hm4 | hm4
    · rcases hinv.links_dst nn hm4 qp hq l hl with ⟨e1, e2, dp0, e3, e4⟩
      exact ⟨e1, e2, dp0, hgpold l.1 l.2.1 dp0 e3, e4⟩
    · rcases List.mem_singleton.1 hm4 with rfl
      rcases List.mem_map.1 hq with ⟨pr, _, he⟩
      rw [← he] at hl
      exact absurd hl (List.not_mem_nil l)
  · rw [hlinks']
    exact hinv.nodup_links
  · rw [htl']
    intro nn hm2 qp hq hout hit
    have hcnt : incomingCount ({ p with nodes := p.nodes ++ [(n, ⟨m, ib, it,
        params.map (fun pr => (pr.1, ⟨pr.2, []⟩))⟩)] } : Pipeline ν)
        nn.1 qp.1 = incomingCount p nn.1 qp.1 := by
      rw [incomingCount, incomingCount, hlinks']
    rcases List.mem_append.1 hm2 with hm2 | hm2
    · have hnd : p.nodes.lookup nn.1 = some nn.2 :=
        mem_lookup_of_nodup p.nodes nn.1 nn.2 hinv.nodup_nodes
          (List.mem_of_mem_tail hm2)
      rw [hcnt]
      refine hinv.scalar nn hm2 qp hq hout ?_
      rw [← hiterold nn.1 qp.1 nn.2 hnd]
      exact hit
    · rcases List.mem_singleton.1 hm2 with rfl
      rw [hcnt, incomingCount]
      have hz : (allLinksD p).countP (fun t =>
          decide (t.2.2.1 = n ∧ t.2.2.2.1 = qp.1 ∧ t.2.2.2.2 = false)) = 0 := by
        rw [List.countP_eq_zero]
        intro t ht
        simp only [decide_eq_true_eq, not_and]
        intro hx
        exact absurd hx (hnodest t ht)
      rw [hz]
      exact Nat.zero_le 1
  · exact hinv.nodup_pos
  · rw [hpp']
    exact hinv.pipe_in_nonempty
  · rw [hpp']
    intro bp hb hbo
    rcases hinv.pipe_out_covered bp hb hbo with ⟨t, ht, h1, h2⟩
    exact ⟨t, by rw [hlinks']; exact ht, h1, h2⟩

end Capsul

namespace Capsul

/-- Lookup skips a mismatching head. -/
theorem lookup_cons_ne {β : Type} (k k' : Str) (v : β) (m : List (Str × β))
    (h : k' ≠ k) : ((k, v) :: m).lookup k' = m.lookup k' := by
  rw [List.lookup, show (k' == k) = false from beq_eq_false_iff_ne.2 h]

/-- Lookup finds a matching head. -/
theorem lookup_cons_self {β : Type} (k : Str) (v : β)
    (m : List (Str × β)) : ((k, v) :: m).lookup k = some v := by
  rw [List.lookup, beq_self_eq_true]

end Capsul

namespace Capsul

/-- Appending a fresh pipeline-level plug: node-list shape, untouched
links, preserved core invariant and plug lookups. -/
theorem addPipePlug_facts {ν : Type} (lib : Lib) (p : Pipeline ν)
    (name : Str) (ob : Bool) (hinv : GInv lib p) (hwfb : wfName name)
    (hconf : (pipePlugs p).lookup name = none) :
    (addPipePlug p name ob).nodes =
      ([], ⟨[], false, [], pipePlugs p ++ [(name, ⟨ob, []⟩)]⟩) ::
        namedNodes p ∧
    allLinksD (addPipePlug p name ob) = allLinksD p ∧
    GCore lib (addPipePlug p name ob) ∧
    (∀ x y dp0, p.getPlug x y = some dp0 →
      (addPipePlug p name ob).getPlug x y = some dp0) ∧
    (addPipePlug p name ob).getPlug [] name = some ⟨ob, []⟩ ∧
    (∀ x y, isIterPlug (addPipePlug p name ob) x y = isIterPlug p x y) := by
  have hn0 : ([] : Str) ∉ (namedNodes p).map Prod.fst := by
    intro hx
    rcases List.mem_map.1 hx with ⟨nn, hnn, he⟩
    exact (hinv.named_wf nn hnn).1 he
  have hnodes : (addPipePlug p name ob).nodes =
      ([], ⟨[], false, [], pipePlugs p ++ [(name, ⟨ob, []⟩)]⟩) ::
        namedNodes p := by
    show odUpd p.nodes [] (fun nd => { nd with plugs := nd.plugs ++ [(name, ⟨ob, []⟩)] }) = _
    rw [hinv.shape, odUpd, List.map_cons, if_pos rfl]
    congr 1
    have h2 := odUpd_of_not_mem (namedNodes p) []
      (fun nd => { nd with plugs := nd.plugs ++ [(name, ⟨ob, []⟩)] }) hn0
    rw [odUpd] at h2
    exact h2
  rcases shape_intro _ _ _ hnodes with ⟨hs1, hpp1, htl1⟩
  have hheadmem : (([], (⟨[], false, [], pipePlugs p⟩ : PNode)) :
      Str × PNode) ∈ p.nodes := by
    rw [hinv.shape]
    exact List.mem_cons_self _ _
  have hnameK : name ∉ (pipePlugs p).map Prod.fst :=
    (lookup_eq_none_iff (pipePlugs p) name).1 hconf
  have hlinks : allLinksD (addPipePlug p name ob) = allLinksD p := by
    rw [allLinksD_eq_flatMap, allLinksD_eq_flatMap, hnodes, hinv.shape,
      List.flatMap_cons, List.flatMap_cons]
    congr 1
    rw [nodeLinks_eq, nodeLinks_eq]
    dsimp only
    rw [List.flatMap_append]
    simp
  have hgpold : ∀ x y dp0, p.getPlug x y = some dp0 →
      (addPipePlug p name ob).getPlug x y = some dp0 := by
    intro x y dp0 hxy
    rw [Pipeline.getPlug, hnodes] at *
    by_cases hx : x = []
    · subst hx
      rw [lookup_cons_self]
      rw [hinv.shape, lookup_cons_self] at hxy
      dsimp only [Option.bind] at hxy ⊢
      exact lookup_append_left _ _ y dp0 hxy
    · rw [lookup_cons_ne [] x _ _ hx]
      rw [hinv.shape, lookup_cons_ne [] x _ _ hx] at hxy
      exact hxy
  have hgpnew : (addPipePlug p name ob).getPlug [] name =
      some ⟨ob, []⟩ := by
    rw [Pipeline.getPlug, hnodes, lookup_cons_self]
    dsimp only [Option.bind]
    rw [lookup_append_right _ _ name hconf, lookup_cons_self]
  have hit : ∀ x y, isIterPlug (addPipePlug p name ob) x y =
      isIterPlug p x y := by
    intro x y
    rw [isIterPlug, isIterPlug, hnodes, hinv.shape]
    by_cases hx : x = []
    · subst hx
      rw [lookup_cons_self, lookup_cons_self]
    · rw [lookup_cons_ne [] x _ _ hx, lookup_cons_ne [] x _ _ hx]
  refine ⟨hnodes, hlinks, ⟨hs1, ?_, ?_, ?_, ?_, ?_, ?_, ?_, ?_, ?_, ?_⟩,
    hgpold, hgpnew, hit⟩
  · rw [htl1]
    exact hinv.named_wf
  · show ((odUpd p.nodes [] (fun nd => { nd with plugs := nd.plugs ++ [(name, ⟨ob, []⟩)] })).map Prod.fst).Nodup
    rw [odUpd_keys]
    exact hinv.nodup_nodes
  · intro nn hm2
    rw [hnodes] at hm2
    rcases List.mem_cons.1 hm2 with rfl | hm2
    · show ((pipePlugs p ++ [(name, (⟨ob, []⟩ : Plug))]).map Prod.fst).Nodup
      rw [List.map_append]
      refine List.Nodup.append (hinv.nodup_plugs _ hheadmem) (by simp) ?_
      intro a ha hb
      simp only [List.map_cons, List.map_nil, List.mem_singleton] at hb
      subst hb
      exact hnameK ha
    · exact hinv.nodup_plugs nn
        (by rw [hinv.shape]; exact List.mem_cons_of_mem _ hm2)
  · rw [htl1]
    exact hinv.named_lib
  · rw [hpp1]
    intro bp hb
    rcases List.mem_append.1 hb with hb | hb
    · exact hinv.pipe_wf bp hb
    · rcases List.mem_singleton.1 hb with rfl
      exact hwfb
  · intro nn hm2 qp hq l hl
    rw [hnodes] at hm2
    rcases List.mem_cons.1 hm2 with rfl | hm2
    · rcases List.mem_append.1 hq with hq | hq
      · have := hinv.links_src _ hheadmem qp hq l hl
        exact this
      · rcases List.mem_singleton.1 hq with rfl
        exact absurd hl (List.not_mem_nil l)
    · exact hinv.links_src nn
        (by rw [hinv.shape]; exact List.mem_cons_of_mem _ hm2) qp hq l hl
  · intro nn hm2 qp hq l hl
    rw [hnodes] at hm2
    rcases List.mem_cons.1 hm2 with rfl | hm2
    · rcases List.mem_append.1 hq with hq | hq
      · rcases hinv.links_dst _ hheadmem qp hq l hl with ⟨e1, e2, dp0, e3, e4⟩
        exact ⟨e1, e2, dp0, hgpold l.1 l.2.1 dp0 e3, e4⟩
      · rcases List.mem_singleton.1 hq with rfl
        exact absurd hl (List.not_mem_nil l)
    · rcases hinv.links_dst nn
        (by rw [hinv.shape]; exact List.mem_cons_of_mem _ hm2) qp hq l hl
        with ⟨e1, e2, dp0, e3, e4⟩
      exact ⟨e1, e2, dp0, hgpold l.1 l.2.1 dp0 e3, e4⟩
  · rw [hlinks]
    exact hinv.nodup_links
  · rw [htl1]
    intro nn hm2 qp hq hout hit2
    have hcnt : incomingCount (addPipePlug p name ob) nn.1 qp.1 =
        incomingCount p nn.1 qp.1 := by
      rw [incomingCount, incomingCount, hlinks]
    rw [hcnt]
    refine hinv.scalar nn hm2 qp hq hout ?_
    rw [← hit nn.1 qp.1]
    exact hit2
  · exact hinv.nodup_pos

end Capsul

namespace Capsul

/-- A successful bind passes through a successful first component. -/
theorem exceptBind_ok {ε α β : Type} (x : Except ε α) (f : α → Except ε β)
    (b : β) (h : (x >>= f) = .ok b) : ∃ a, x = .ok a ∧ f a = .ok b := by
  rcases x with e | a
  · rw [exceptErrorBind] at h
    exact Except.noConfusion h
  · rw [exceptOkBind] at h
    exact ⟨a, rfl, h⟩

/-- Every well-formed builder call preserves the builder invariant. -/
theorem GInv_applyOp {ν π : Type} (lib : Lib) (p p' : Pipeline ν)
    (op : BOp ν π) (hlib : libWF lib) (hinv : GInv lib p) (hop : opWF op)
    (h : applyOp lib p op = .ok p') : GInv lib p' := by
  cases op with
  | set_documentation d =>
    rw [applyOp] at h
    have he := Except.ok.inj h
    refine GInv_of_nodes_eq lib p p' (by rw [← he]) ?_ hinv
    rw [← he]
    exact hinv.nodup_pos
  | add_process name mod sets copies cleans =>
    rcases hop with ⟨⟨n0, hname, hwfn⟩, hmod⟩
    rcases Option.isSome_iff_exists.1 hmod with ⟨m0, hm0⟩
    subst hname
    subst hm0
    rw [applyOp] at h
    rw [show reqS (some n0) = Except.ok n0 from rfl] at h
    simp only [exceptOkBind] at h
    rw [show reqS (some m0) = Except.ok m0 from rfl] at h
    simp only [exceptOkBind] at h
    rcases hlm : lib m0 with _ | params
    · rw [hlm] at h
      simp only [Option.elim_none] at h
      exact Except.noConfusion h
    · rw [hlm] at h
      simp only [Option.elim_some] at h
      by_cases hf : (p.nodes.lookup n0).isSome
      · rw [if_pos hf] at h
        exact Except.noConfusion h
      · rw [if_neg hf] at h
        rw [← Except.ok.inj h]
        exact GInv_add_node lib p n0 m0 params false [] hinv hlib hwfn
          (Option.not_isSome_iff_eq_none.1 hf) hlm (by simp)
  | add_iterative_process name mod sets copies cleans iterp =>
    rcases hop with ⟨⟨n0, hname, hwfn⟩, hmod, hne, hsomes⟩
    rcases Option.isSome_iff_exists.1 hmod with ⟨m0, hm0⟩
    subst hname
    subst hm0
    rcases exists_map_some_of_somes iterp hsomes with ⟨xs, hxs⟩
    subst hxs
    rw [applyOp] at h
    rw [show reqS (some n0) = Except.ok n0 from rfl] at h
    simp only [exceptOkBind] at h
    rw [show reqS (some m0) = Except.ok m0 from rfl] at h
    simp only [exceptOkBind] at h
    rw [reqAll_map_some] at h
    simp only [exceptOkBind] at h
    rcases hlm : lib m0 with _ | params
    · rw [hlm] at h
      simp only [Option.elim_none] at h
      exact Except.noConfusion h
    · rw [hlm] at h
      simp only [Option.elim_some] at h
      by_cases hf : (p.nodes.lookup n0).isSome
      · rw [if_pos hf] at h
        exact Except.noConfusion h
      · rw [if_neg hf] at h
        rw [← Except.ok.inj h]
        refine GInv_add_node lib p n0 m0 params true xs hinv hlib hwfn
          (Option.not_isSome_iff_eq_none.1 hf) hlm ?_
        constructor
        · intro _ hx
          rw [hx] at hne
          exact hne (List.map_nil)
        · intro _
          rfl
  | call_set_usedefault pname param =>
    rw [applyOp] at h
    rcases exceptBind_ok _ _ _ h with ⟨n0, _, h2⟩
    by_cases hf : (p.nodes.lookup n0).isSome
    · rw [if_pos hf] at h2
      rw [← Except.ok.inj h2]
      exact hinv
    · rw [if_neg hf] at h2
      exact Except.noConfusion h2
  | add_link s w =>
    rcases hop with ⟨hw, hbare⟩
    subst hw
    rw [applyOp] at h
    rcases hsd : splitArrow s with _ | sd
    · rw [hsd] at h
      simp only [Option.elim_none] at h
      exact Except.noConfusion h
    · rw [hsd] at h
      simp only [Option.elim_some] at h
      rcases sd with ⟨a, b⟩
      have hnn0 : ¬ ((parseEndpoint a).1 = [] ∧ (parseEndpoint b).1 = []) :=
        hbare a b hsd
      rcases GCore_addLink lib p p' (parseEndpoint a).1 (parseEndpoint a).2
        (parseEndpoint b).1 (parseEndpoint b).2 hinv.toGCore hnn0 h with
        ⟨hcore, hperm, hpipe⟩
      have hmm : ∀ t0 ∈ allLinksD p, t0 ∈ allLinksD p' := by
        intro t0 ht0
        exact hperm.mem_iff.2 (List.mem_cons_of_mem _ ht0)
      refine ⟨hcore, ?_, ?_⟩
      · rw [hpipe]
        by_cases hsn : (parseEndpoint a).1 = []
        · rw [if_pos hsn]
          intro bp hb hbo
          rcases mem_odUpd (pipePlugs p) (parseEndpoint a).2 _ bp hb with
            ⟨hb2, _⟩ | ⟨v, hb2, he⟩
          · exact hinv.pipe_in_nonempty bp hb2 hbo
          · rw [he]
            simp [appendLink]
        · rw [if_neg hsn]
          exact hinv.pipe_in_nonempty
      · rw [hpipe]
        by_cases hsn : (parseEndpoint a).1 = []
        · rw [if_pos hsn]
          intro bp hb hbo
          rcases mem_odUpd (pipePlugs p) (parseEndpoint a).2 _ bp hb with
            ⟨hb2, _⟩ | ⟨v, hb2, he⟩
          · rcases hinv.pipe_out_covered bp hb2 hbo with ⟨t0, ht0, u1, u2⟩
            exact ⟨t0, hmm t0 ht0, u1, u2⟩
          · rcases hinv.pipe_out_covered ((parseEndpoint a).2, v) hb2
              (by rw [he] at hbo; exact hbo) with ⟨t0, ht0, u1, u2⟩
            refine ⟨t0, hmm t0 ht0, u1, ?_⟩
            rw [he]
            exact u2
        · rw [if_neg hsn]
          intro bp hb hbo
          rcases hinv.pipe_out_covered bp hb hbo with ⟨t0, ht0, u1, u2⟩
          exact ⟨t0, hmm t0 ht0, u1, u2⟩
  | export_parameter node plug name =>
    rw [applyOp] at h
    rcases hip : (p.nodes.lookup node).bind (fun nd => nd.plugs.lookup plug)
      with _ | ip
    · rw [hip] at h
      simp only [Option.elim_none] at h
      exact Except.noConfusion h
    rw [hip] at h
    simp only [Option.elim_some] at h
    by_cases hcf : ((p.nodes.lookup []).bind
        (fun nd => nd.plugs.lookup name)).isSome
    · rw [if_pos hcf] at h
      exact Except.noConfusion h
    rw [if_neg hcf] at h
    have hconf : (pipePlugs p).lookup name = none := by
      have h0 := Option.not_isSome_iff_eq_none.1 hcf
      rw [hinv.shape, lookup_cons_self] at h0
      dsimp only [Option.bind] at h0
      exact h0
    have hwfb : wfName name := hop
    rcases addPipePlug_facts lib p name ip.output hinv hwfb hconf with
      ⟨hn1, hl1, hc1, hgold, hgnew, hit1⟩
    rcases shape_intro _ _ _ hn1 with ⟨_, hpp1, htl1⟩
    by_cases ho : ip.output = true
    · rw [if_pos ho] at h
      have h' : addLinkCore (addPipePlug p name ip.output) node plug []
          name false = .ok p' := h
      rcases addLinkCore_ok_facts _ p' node plug [] name false h' with
        ⟨sp, dp, hsp, hdp, hpol1, hpol2, _, _, _⟩
      have hnode : node ≠ [] := by
        intro he0
        have hip2 : p.getPlug [] plug = some ip := by
          rw [Pipeline.getPlug, ← he0]
          exact hip
        have hx := hgold [] plug ip hip2
        rw [he0, hx] at hsp
        have hips : ip = sp := Option.some.inj hsp
        rw [he0, if_pos rfl] at hpol1
        rw [← hips, ho] at hpol1
        exact Bool.noConfusion hpol1
      have hnn0 : ¬ (node = [] ∧ ([] : Str) = []) := fun hx => hnode hx.1
      rcases GCore_addLink lib (addPipePlug p name ip.output) p' node plug
        [] name hc1 hnn0 h' with ⟨hcore, hperm, hpipe⟩
      have hmm : ∀ t0 ∈ allLinksD p, t0 ∈ allLinksD p' := by
        intro t0 ht0
        refine hperm.mem_iff.2 (List.mem_cons_of_mem _ ?_)
        rw [hl1]
        exact ht0
      have hnewt : (node, plug, [], name, false) ∈ allLinksD p' :=
        hperm.mem_iff.2 (List.mem_cons_self _ _)
      refine ⟨hcore, ?_, ?_⟩
      · rw [hpipe, if_neg hnode, hpp1]
        intro bp hb hbo
        rcases List.mem_append.1 hb with hb | hb
        · exact hinv.pipe_in_nonempty bp hb hbo
        · rcases List.mem_singleton.1 hb with rfl
          rw [ho] at hbo
          exact Bool.noConfusion hbo
      · rw [hpipe, if_neg hnode, hpp1]
        intro bp hb hbo
        rcases List.mem_append.1 hb with hb | hb
        · rcases hinv.pipe_out_covered bp hb hbo with ⟨t0, ht0, u1, u2⟩
          exact ⟨t0, hmm t0 ht0, u1, u2⟩
        · rcases List.mem_singleton.1 hb with rfl
          exact ⟨(node, plug, [], name, false), hnewt, rfl, rfl⟩
    · rw [if_neg ho] at h
      have hofalse : ip.output = false := by
        rcases Bool.eq_false_or_eq_true ip.output with hx | hx
        · exact absurd hx ho
        · exact hx
      have h' : addLinkCore (addPipePlug p name ip.output) [] name node
          plug false = .ok p' := h
      rcases addLinkCore_ok_facts _ p' [] name node plug false h' with
        ⟨sp, dp, hsp, hdp, hpol1, hpol2, _, _, _⟩
      have hnode : node ≠ [] := by
        intro he0
        have hip2 : p.getPlug [] plug = some ip := by
          rw [Pipeline.getPlug, ← he0]
          exact hip
        have hx := hgold [] plug ip hip2
        rw [he0, hx] at hdp
        have hips : ip = dp := Option.some.inj hdp
        rw [he0, if_pos rfl] at hpol2
        rw [← hips, hofalse] at hpol2
        exact Bool.noConfusion hpol2
      have hnn0 : ¬ (([] : Str) = [] ∧ node = []) := fun hx => hnode hx.2
      rcases GCore_addLink lib (addPipePlug p name ip.output) p' [] name
        node plug hc1 hnn0 h' with ⟨hcore, hperm, hpipe⟩
      have hmm : ∀ t0 ∈ allLinksD p, t0 ∈ allLinksD p' := by
        intro t0 ht0
        refine hperm.mem_iff.2 (List.mem_cons_of_mem _ ?_)
        rw [hl1]
        exact ht0
      have hnameK : name ∉ (pipePlugs p).map Prod.fst :=
        (lookup_eq_none_iff (pipePlugs p) name).1 hconf
      have hpx : pipePlugs p' = pipePlugs p ++
          [(name, appendLink node plug false ⟨ip.output, []⟩)] := by
        rw [hpipe, if_pos rfl, hpp1]
        exact odUpd_decomp (pipePlugs p) [] name ⟨ip.output, []⟩
          (appendLink node plug false) hnameK (by simp)
      refine ⟨hcore, ?_, ?_⟩
      · rw [hpx]
        intro bp hb hbo
        rcases List.mem_append.1 hb with hb | hb
        · exact hinv.pipe_in_nonempty bp hb hbo
        · rcases List.mem_singleton.1 hb with rfl
          simp [appendLink]
      · rw [hpx]
        intro bp hb hbo
        rcases List.mem_append.1 hb with hb | hb
        · rcases hinv.pipe_out_covered bp hb hbo with ⟨t0, ht0, u1, u2⟩
          exact ⟨t0, hmm t0 ht0, u1, u2⟩
        · rcases List.mem_singleton.1 hb with rfl
          rw [show (name, appendLink node plug false
            (⟨ip.output, []⟩ : Plug)).2.output = ip.output from rfl,
            hofalse] at hbo
          exact Bool.noConfusion hbo
  | add_processes_selection param groups =>
    rw [applyOp] at h
    rcases exceptBind_ok _ _ _ h with ⟨pn, _, h2⟩
    rcases exceptBind_ok _ _ _ h2 with ⟨gs, _, h3⟩
    have he := Except.ok.inj h3
    refine GInv_of_nodes_eq lib p p' (by rw [← he]) ?_ hinv
    rw [← he]
    exact hinv.nodup_pos
  | set_node_position nm x y =>
    rw [applyOp] at h
    have he := Except.ok.inj h
    refine GInv_of_nodes_eq lib p p' (by rw [← he]) ?_ hinv
    rw [← he]
    exact odSet_nodup p.node_position nm (x, y) hinv.nodup_pos
  | set_scene_scale_factor v =>
    rw [applyOp] at h
    have he := Except.ok.inj h
    refine GInv_of_nodes_eq lib p p' (by rw [← he]) ?_ hinv
    rw [← he]
    exact hinv.nodup_pos

/-- Running well-formed builder calls preserves the builder invariant. -/
theorem GInv_runOps {ν π : Type} (lib : Lib) (hlib : libWF lib)
    (ops : List (BOp ν π)) :
    ∀ p G, GInv lib p → (∀ op ∈ ops, opWF op) →
      runOps lib p ops = .ok G → GInv lib G := by
  induction ops with
  | nil =>
    intro p G hp _ h
    rw [runOps, List.foldlM] at h
    have := Except.ok.inj (show (Except.ok p : Except String (Pipeline ν))
      = .ok G from h)
    rw [← this]
    exact hp
  | cons op ops ih =>
    intro p G hp hall h
    rw [runOps, List.foldlM_cons] at h
    rcases exceptBind_ok _ _ _ h with ⟨p1, h1, h2⟩
    exact ih p1 G
      (GInv_applyOp lib p p1 op hlib hp (hall op (List.mem_cons_self op ops))
        h1)
      (fun o ho => hall o (List.mem_cons_of_mem op ho)) h2

end Capsul

namespace Capsul

/-- Decoding the element emitted for a plain process node. -/
theorem decode_child_write_process {ν π : Type}
    (s2v : Option Str → Except String (Option π))
    (parseNum : Option Str → Except String ν) (mo n : Str)
    (ex : List Str) :
    decode_child s2v parseNum (_write_process mo n) ex =
      .ok ([BOp.add_process (some n) (some mo) [] [] []], ex) := rfl

end Capsul

namespace Capsul

/-- The process child fold over emitted `<iterate>` elements. -/
theorem procFold_iterElems {π : Type}
    (s2v : Option Str → Except String (Option π)) (iter : List Str) :
    ∀ acc : ProcAcc π,
      (iter.map (fun q => XElem.mk (chs ("iterate"))
          [(chs ("name"), q)] [] none)).foldlM (procChild s2v) acc =
        .ok ⟨acc.sets, acc.copies, acc.cleans, acc.usedefaults,
          acc.iterate ++ iter.map some⟩ := by
  induction iter with
  | nil =>
    intro acc
    simp [List.foldlM, pure, Except.pure]
  | cons q rest ih =>
    intro acc
    rw [List.map_cons, List.foldlM_cons]
    rw [show procChild s2v acc (XElem.mk (chs ("iterate"))
      [(chs ("name"), q)] [] none) = .ok { acc with iterate :=
        acc.iterate ++ [some q] } from rfl]
    simp only [exceptOkBind]
    rw [ih]
    simp [List.append_assoc]

/-- Decoding the element emitted for an iterative process node. -/
theorem decode_child_write_iteration {ν π : Type}
    (s2v : Option Str → Except String (Option π))
    (parseNum : Option Str → Except String ν) (mo n : Str)
    (iter : List Str) (hne : iter ≠ []) (ex : List Str) :
    decode_child s2v parseNum (_write_iteration mo n iter) ex =
      .ok ([BOp.add_iterative_process (some n) (some mo) [] [] []
        (iter.map some)], ex) := by
  rw [decode_child, if_neg (by rw [_write_iteration, tag_mk]; decide),
    if_pos (by rw [_write_iteration, tag_mk])]
  rw [show (_write_iteration mo n iter).children = iter.map (fun q =>
    XElem.mk (chs ("iterate")) [(chs ("name"), q)] [] none) from rfl]
  rw [procFold_iterElems]
  simp only [exceptOkBind]
  rw [List.nil_append]
  rw [if_pos (show iter.map some ≠ [] from by
    intro hx
    exact hne (List.map_eq_nil_iff.1 hx))]
  rfl

end Capsul

namespace Capsul

/-- Relinking keeps the node names. -/
theorem relink_keys (l : List LinkT) (ns : List (Str × PNode)) :
    (ns.map (relinkNode l)).map Prod.fst = ns.map Prod.fst := by
  rw [List.map_map]
  apply List.map_congr_left
  intro nn _
  rfl

/-- Applying the builder call of one named node to the partially replayed
state appends the link-less node. -/
theorem applyOp_procOp {ν π : Type} (lib : Lib)
    (done : List (Str × PNode)) (nn : Str × PNode)
    (hlm : lib nn.2.module = some (skeleton nn.2.plugs))
    (hiter : nn.2.isIter = true ↔ nn.2.iterative ≠ [])
    (hfresh : nn.1 ∉ done.map Prod.fst) (hne : nn.1 ≠ []) :
    applyOp (π := π) lib (midN ν done) (procOpOf nn) =
      .ok (midN ν (done ++ [nn])) := by
  have hlk : (midN ν done).nodes.lookup nn.1 = none := by
    show List.lookup nn.1 (([], (⟨[], false, [], []⟩ : PNode)) ::
      done.map (relinkNode [])) = none
    rw [lookup_cons_ne [] nn.1 _ _ hne]
    rw [lookup_eq_none_iff, relink_keys]
    exact hfresh
  have hnodes2 : (midN ν (done ++ [nn])).nodes =
      (midN ν done).nodes ++ [relinkNode [] nn] := by
    show ([], (⟨[], false, [], []⟩ : PNode)) ::
        (done ++ [nn]).map (relinkNode []) = _
    rw [List.map_append]
    rfl
  have hitrv : nn.2.isIter = false → nn.2.iterative = [] := by
    intro hx
    by_cases hy : nn.2.iterative = []
    · exact hy
    · rw [hiter.2 hy] at hx
      exact Bool.noConfusion hx
  have hplugs : (skeleton nn.2.plugs).map
      (fun pr => (pr.1, (⟨pr.2, []⟩ : Plug))) =
      nn.2.plugs.map (fun qp => (qp.1, ⟨qp.2.output,
        linksIn [] nn.1 qp.1⟩)) := by
    rw [skeleton, List.map_map]
    apply List.map_congr_left
    intro qp _
    rfl
  by_cases hb : nn.2.isIter
  · have hnd : (nn.1, (⟨nn.2.module, true, nn.2.iterative,
        (skeleton nn.2.plugs).map (fun pr => (pr.1, ⟨pr.2, []⟩))⟩ :
          PNode)) = relinkNode [] nn := by
      rw [relinkNode, hplugs, ← hb]
    rw [procOpOf, if_pos hb, applyOp]
    rw [show reqS (some nn.1) = Except.ok nn.1 from rfl]
    simp only [exceptOkBind]
    rw [show reqS (some nn.2.module) = Except.ok nn.2.module from rfl]
    simp only [exceptOkBind]
    rw [reqAll_map_some]
    simp only [exceptOkBind]
    rw [hlm]
    simp only [Option.elim_some]
    rw [hlk]
    rw [if_neg (by simp)]
    congr 1
    dsimp only [midN]
    rw [List.cons_append, List.map_append, List.map_cons, List.map_nil, hnd]
  · have hfalse : nn.2.isIter = false := by
      rcases Bool.eq_false_or_eq_true nn.2.isIter with hx | hx
      · exact absurd hx hb
      · exact hx
    have hit0 : nn.2.iterative = [] := hitrv hfalse
    have hnd : (nn.1, (⟨nn.2.module, false, [],
        (skeleton nn.2.plugs).map (fun pr => (pr.1, ⟨pr.2, []⟩))⟩ :
          PNode)) = relinkNode [] nn := by
      rw [relinkNode, hplugs, ← hfalse, ← hit0]
    rw [procOpOf, if_neg hb, applyOp]
    rw [show reqS (some nn.1) = Except.ok nn.1 from rfl]
    simp only [exceptOkBind]
    rw [show reqS (some nn.2.module) = Except.ok nn.2.module from rfl]
    simp only [exceptOkBind]
    rw [hlm]
    simp only [Option.elim_some]
    rw [hlk]
    rw [if_neg (by simp)]
    congr 1
    dsimp only [midN]
    rw [List.cons_append, List.map_append, List.map_cons, List.map_nil, hnd]
end Capsul

namespace Capsul

/-- Per-node form of the emitted process elements. -/
theorem write_processes_named (ns : List (Str × PNode))
    (hwf : ∀ nn ∈ ns, nn.1 ≠ []) :
    (ns.flatMap (fun nn =>
      if nn.1 = [] then []
      else if nn.2.isIter then
        [_write_iteration nn.2.module nn.1 nn.2.iterative]
      else [_write_process nn.2.module nn.1])) = ns.map procElemOf := by
  induction ns with
  | nil => rfl
  | cons nn rest ih =>
    rw [List.flatMap_cons, List.map_cons,
      ih (fun x hx => hwf x (List.mem_cons_of_mem _ hx))]
    rw [if_neg (hwf nn (List.mem_cons_self _ _)), procElemOf]
    by_cases hb : nn.2.isIter
    · rw [if_pos hb, if_pos hb, List.singleton_append]
    · rw [if_neg hb, if_neg hb, List.singleton_append]

/-- The emitted process elements, one per named node. -/
theorem write_processes_eq {ν : Type} (G : Pipeline ν)
    (hshape : G.nodes = ([], ⟨[], false, [], pipePlugs G⟩) :: namedNodes G)
    (hwf : ∀ nn ∈ namedNodes G, wfName nn.1) :
    _write_processes G = (namedNodes G).map procElemOf := by
  rw [_write_processes, hshape, List.flatMap_cons]
  rw [show (if (([], (⟨[], false, [], pipePlugs G⟩ : PNode)) :
      Str × PNode).1 = [] then ([] : List XElem)
    else if (([], (⟨[], false, [], pipePlugs G⟩ : PNode)) :
      Str × PNode).2.isIter then
      [_write_iteration (([], (⟨[], false, [], pipePlugs G⟩ : PNode)) :
        Str × PNode).2.module (([], (⟨[], false, [], pipePlugs G⟩ :
          PNode)) : Str × PNode).1 (([], (⟨[], false, [],
            pipePlugs G⟩ : PNode)) : Str × PNode).2.iterative]
    else [_write_process (([], (⟨[], false, [], pipePlugs G⟩ : PNode)) :
      Str × PNode).2.module (([], (⟨[], false, [], pipePlugs G⟩ :
        PNode)) : Str × PNode).1]) = ([] : List XElem) from if_pos rfl]
  rw [List.nil_append]
  exact write_processes_named (namedNodes G)
    (fun nn hx => (hwf nn hx).1)

/-- Replaying the process elements of the named nodes. -/
theorem replay_procs {ν π : Type} (lib : Lib)
    (s2v : Option Str → Except String (Option π))
    (parseNum : Option Str → Except String ν) (todo : List (Str × PNode)) :
    ∀ (done : List (Str × PNode)) (ex : List Str) (rest : List XElem),
      (∀ nn ∈ todo, lib nn.2.module = some (skeleton nn.2.plugs) ∧
        (nn.2.isIter = true ↔ nn.2.iterative ≠ []) ∧ wfName nn.1) →
      ((done ++ todo).map Prod.fst).Nodup →
      createAux lib s2v parseNum (midN ν done) ex
        (todo.map procElemOf ++ rest) =
      createAux lib s2v parseNum (midN ν (done ++ todo)) ex rest := by
  induction todo with
  | nil =>
    intro done ex rest _ _
    rw [List.map_nil, List.nil_append, List.append_nil]
  | cons nn todo ih =>
    intro done ex rest hall hnd
    rw [List.map_cons, List.cons_append, createAux]
    rcases hall nn (List.mem_cons_self _ _) with ⟨h1, h2, h3⟩
    have hdc : decode_child s2v parseNum (procElemOf nn) ex =
        .ok ([procOpOf nn], ex) := by
      rw [procElemOf, procOpOf]
      by_cases hb : nn.2.isIter
      · rw [if_pos hb, if_pos hb]
        exact decode_child_write_iteration s2v parseNum nn.2.module nn.1
          nn.2.iterative (h2.1 hb) ex
      · rw [if_neg hb, if_neg hb]
        exact decode_child_write_process s2v parseNum nn.2.module nn.1 ex
    rw [hdc]
    simp only [exceptOkBind]
    have hfresh : nn.1 ∉ done.map Prod.fst := by
      intro hx
      rw [List.map_append, List.map_cons] at hnd
      exact (List.nodup_append.1 hnd).2.2 hx (List.mem_cons_self _ _)
    have hao := applyOp_procOp (ν := ν) (π := π) lib done nn h1 h2 hfresh
      h3.1
    rw [runOps, List.foldlM_cons, hao]
    simp only [exceptOkBind]
    rw [List.foldlM_nil]
    rw [show (pure (midN ν (done ++ [nn])) :
      Except String (Pipeline ν)) = Except.ok (midN ν (done ++ [nn]))
      from rfl]
    simp only [exceptOkBind]
    have := ih (done ++ [nn]) ex rest
      (fun x hx => hall x (List.mem_cons_of_mem _ hx))
      (by rw [List.append_assoc, List.singleton_append]; exact hnd)
    rw [List.append_assoc, List.singleton_append] at this
    exact this

end Capsul

namespace Capsul

/-- Lookup over a relinked node list. -/
theorem lookup_relink (l : List LinkT) (ns : List (Str × PNode)) (n : Str) :
    (ns.map (relinkNode l)).lookup n =
      (ns.lookup n).map (fun nd => (⟨nd.module, nd.isIter, nd.iterative,
        nd.plugs.map (fun qp =>
          (qp.1, (⟨qp.2.output, linksIn l n qp.1⟩ : Plug)))⟩ : PNode)) := by
  exact lookup_map_pair ns (fun nn =>
    (⟨nn.2.module, nn.2.isIter, nn.2.iterative,
      nn.2.plugs.map (fun qp =>
        (qp.1, (⟨qp.2.output, linksIn l nn.1 qp.1⟩ : Plug)))⟩ : PNode)) n

/-- Lookup over a relinked plug list. -/
theorem lookup_plug_relink (l : List LinkT) (ps : List (Str × Plug))
    (n q : Str) :
    (ps.map (fun qp =>
        (qp.1, (⟨qp.2.output, linksIn l n qp.1⟩ : Plug)))).lookup q =
      (ps.lookup q).map (fun pl => (⟨pl.output, linksIn l n q⟩ : Plug)) := by
  exact lookup_map_pair ps (fun qp =>
    (⟨qp.2.output, linksIn l n qp.1⟩ : Plug)) q

/-- The node list of the mid-link state. -/
theorem midL_nodes {ν : Type} (G : Pipeline ν) (l : List LinkT) :
    (midL G l).nodes = ([], (⟨[], false, [],
      (mentions l).map (fun b =>
        (b, (⟨pout G b, linksIn l [] b⟩ : Plug)))⟩ : PNode)) ::
      (namedNodes G).map (relinkNode l) := rfl

/-- Plug lookup in the mid-link state, named node. -/
theorem getPlug_midL {ν : Type} (G : Pipeline ν) (l : List LinkT)
    (n q : Str) (hn : n ≠ [])
    (hshape : G.nodes = ([], ⟨[], false, [], pipePlugs G⟩) :: namedNodes G) :
    (midL G l).getPlug n q =
      (G.getPlug n q).map (fun pl =>
        (⟨pl.output, linksIn l n q⟩ : Plug)) := by
  rw [Pipeline.getPlug, Pipeline.getPlug, hshape, midL_nodes]
  rw [lookup_cons_ne _ _ _ _ hn, lookup_cons_ne _ _ _ _ hn, lookup_relink]
  rcases (namedNodes G).lookup n with _ | nd
  · rfl
  · exact lookup_plug_relink l nd.plugs n q

/-- Plug lookup in the mid-link state, pipeline node. -/
theorem getPlug_midL_pipe {ν : Type} (G : Pipeline ν) (l : List LinkT)
    (q : Str) :
    (midL G l).getPlug [] q =
      if q ∈ mentions l then some (⟨pout G q, linksIn l [] q⟩ : Plug)
      else none := by
  rw [Pipeline.getPlug, midL_nodes, lookup_cons_self]
  exact lookup_map_self (mentions l)
    (fun b => (⟨pout G b, linksIn l [] b⟩ : Plug)) q

/-- Iterative-plug status in the mid-link state. -/
theorem isIterPlug_midL {ν : Type} (G : Pipeline ν) (l : List LinkT)
    (n q : Str)
    (hshape : G.nodes = ([], ⟨[], false, [], pipePlugs G⟩) :: namedNodes G) :
    isIterPlug (midL G l) n q = isIterPlug G n q := by
  rw [isIterPlug, isIterPlug, hshape, midL_nodes]
  by_cases hn : n = []
  · subst hn
    rw [lookup_cons_self, lookup_cons_self]
  · rw [lookup_cons_ne _ _ _ _ hn, lookup_cons_ne _ _ _ _ hn, lookup_relink]
    rcases (namedNodes G).lookup n with _ | nd
    · rfl
    · rfl

/-- The relink of a node by the empty link list has no links. -/
theorem nodeLinks_relink_nil (nn : Str × PNode) :
    nodeLinks (relinkNode [] nn) = [] := by
  have h : ∀ ps : List (Str × Plug),
      (ps.map (fun qp =>
        (qp.1, (⟨qp.2.output, linksIn [] nn.1 qp.1⟩ : Plug)))).flatMap
        (fun qp => qp.2.links_to.map (fun l => (nn.1, qp.1, l))) = [] := by
    intro ps
    induction ps with
    | nil => rfl
    | cons qp rest ih =>
      rw [List.map_cons, List.flatMap_cons, ih]
      rfl
  exact h nn.2.plugs

/-- The mid-link state before any link has no links. -/
theorem allLinksD_midL_nil {ν : Type} (G : Pipeline ν) :
    allLinksD (midL G []) = [] := by
  rw [allLinksD_eq_flatMap, midL_nodes, List.flatMap_cons]
  have h1 : nodeLinks ([], (⟨[], false, [],
      (mentions ([] : List LinkT)).map (fun b =>
        (b, (⟨pout G b, linksIn [] [] b⟩ : Plug)))⟩ : PNode)) = [] := rfl
  have h2 : ∀ ns : List (Str × PNode),
      (ns.map (relinkNode [])).flatMap nodeLinks = [] := by
    intro ns
    induction ns with
    | nil => rfl
    | cons mm rest ih =>
      rw [List.map_cons, List.flatMap_cons, nodeLinks_relink_nil,
        List.nil_append]
      exact ih
  rw [h1, List.nil_append]
  exact h2 (namedNodes G)

end Capsul

namespace Capsul

/-- Extensionality for pipeline states. -/
theorem pipelineExt {ν : Type} (p q : Pipeline ν) (h1 : p.nodes = q.nodes)
    (h2 : p.selection_groups = q.selection_groups)
    (h3 : p.node_position = q.node_position)
    (h4 : p.scene_scale_factor = q.scene_scale_factor)
    (h5 : p.documentation = q.documentation) : p = q := by
  cases p
  cases q
  congr 1

/-- Appending a tuple from another plug leaves a link selection
unchanged. -/
theorem linksIn_append_ne (pre : List LinkT) (t : LinkT) (n q : Str)
    (h : ¬ (t.1 = n ∧ t.2.1 = q)) :
    linksIn (pre ++ [t]) n q = linksIn pre n q := by
  rw [linksIn_append, linksIn_single, if_neg h, List.append_nil]

/-- Appending a tuple from this very plug extends its link selection. -/
theorem linksIn_append_self (pre : List LinkT) (t : LinkT) (n q : Str)
    (h : t.1 = n ∧ t.2.1 = q) :
    linksIn (pre ++ [t]) n q = linksIn pre n q ++ [t.2.2] := by
  rw [linksIn_append, linksIn_single, if_pos h]

/-- An unmentioned pipeline parameter has no replayed outgoing links. -/
theorem linksIn_unmentioned (pre : List LinkT) (sq : Str)
    (hm : sq ∉ mentions pre) : linksIn pre [] sq = [] := by
  cases he : linksIn pre [] sq with
  | nil => rfl
  | cons x xs =>
    exfalso
    have hx : x ∈ linksIn pre [] sq := by
      rw [he]
      exact List.mem_cons_self x xs
    rw [linksIn, List.mem_filterMap] at hx
    rcases hx with ⟨t, ht, hf⟩
    by_cases hc : t.1 = [] ∧ t.2.1 = sq
    · exact hm ((mem_mentions pre sq).2
        ⟨t, ht, by rw [bareOf, if_pos hc.1, hc.2]⟩)
    · rw [if_neg hc] at hf
      exact Option.noConfusion hf

/-- Relinking ignores an appended tuple leaving another node. -/
theorem relinkNode_append_ne (pre : List LinkT) (t : LinkT)
    (nn : Str × PNode) (h : t.1 ≠ nn.1) :
    relinkNode (pre ++ [t]) nn = relinkNode pre nn := by
  rw [relinkNode, relinkNode]
  congr 1
  congr 1
  apply List.map_congr_left
  intro qp _
  rw [linksIn_append_ne pre t nn.1 qp.1 (fun hx => h hx.1)]

end Capsul

namespace Capsul

/-- Updating the plugs replayed so far on the source plug is the same as
replaying one more tuple, plug-list side. -/
theorem odUpd_relink_plugs (ps : List (Str × Plug)) (pre : List LinkT)
    (n sq dn dq : Str) (w : Bool) :
    odUpd (ps.map (fun qp =>
        (qp.1, (⟨qp.2.output, linksIn pre n qp.1⟩ : Plug)))) sq
      (appendLink dn dq w) =
      ps.map (fun qp => (qp.1, (⟨qp.2.output,
        linksIn (pre ++ [(n, sq, dn, dq, w)]) n qp.1⟩ : Plug))) := by
  rw [odUpd, List.map_map]
  apply List.map_congr_left
  intro qp _
  dsimp only [Function.comp]
  by_cases h : qp.1 = sq
  · rw [if_pos (show ((qp.1,
      (⟨qp.2.output, linksIn pre n qp.1⟩ : Plug)) : Str × Plug).1 = sq
        from h)]
    rw [linksIn_append_self pre (n, sq, dn, dq, w) n qp.1 ⟨rfl, h.symm⟩]
    rfl
  · rw [if_neg (fun hx => h hx)]
    rw [linksIn_append_ne pre (n, sq, dn, dq, w) n qp.1
      (fun hx => h hx.2.symm)]

/-- Updating the plugs replayed so far on the source node's plug is the
same as replaying one more tuple, node-list side. -/
theorem relink_append_named (ns : List (Str × PNode)) (pre : List LinkT)
    (sn sq dn dq : Str) (w : Bool) :
    odUpd (ns.map (relinkNode pre)) sn (fun nd => { nd with plugs := odUpd nd.plugs sq (appendLink dn dq w) }) =
      ns.map (relinkNode (pre ++ [(sn, sq, dn, dq, w)])) := by
  rw [odUpd, List.map_map]
  apply List.map_congr_left
  intro nn _
  dsimp only [Function.comp]
  by_cases h : nn.1 = sn
  · rw [if_pos (show (relinkNode pre nn).1 = sn from h)]
    rw [relinkNode, relinkNode]
    dsimp only
    rw [odUpd_relink_plugs nn.2.plugs pre nn.1 sq dn dq w, h]
  · rw [if_neg (show ¬ (relinkNode pre nn).1 = sn from fun hx => h hx)]
    exact (relinkNode_append_ne pre (sn, sq, dn, dq, w) nn
      (fun hx => h hx.symm)).symm

end Capsul

namespace Capsul

/-- Keys of the graph of a function on names. -/
theorem map_pair_keys {β : Type} (l : List Str) (f : Str → β) :
    (l.map (fun b => (b, f b))).map Prod.fst = l := by
  induction l with
  | nil => rfl
  | cons b rest ih =>
    rw [List.map_cons, List.map_cons, ih]

/-- In-place update of a cons cell. -/
theorem odUpd_cons {β : Type} (kv : Str × β) (m : List (Str × β)) (k : Str)
    (f : β → β) :
    odUpd (kv :: m) k f =
      (if kv.1 = k then (kv.1, f kv.2) else kv) :: odUpd m k f := rfl

/-- Relinking ignores an appended tuple that leaves none of the given
nodes. -/
theorem named_map_skip (ns : List (Str × PNode)) (pre : List LinkT)
    (t : LinkT) (h : ∀ nn ∈ ns, t.1 ≠ nn.1) :
    ns.map (relinkNode (pre ++ [t])) = ns.map (relinkNode pre) := by
  apply List.map_congr_left
  intro nn hm
  exact relinkNode_append_ne pre t nn (h nn hm)

/-- The replayed pipeline-level plugs ignore an appended tuple leaving a
named node. -/
theorem pipe_map_skip {ν : Type} (G : Pipeline ν) (l : List Str)
    (pre : List LinkT) (t : LinkT) (h : t.1 ≠ []) :
    l.map (fun b => (b, (⟨pout G b, linksIn (pre ++ [t]) [] b⟩ : Plug))) =
      l.map (fun b => (b, (⟨pout G b, linksIn pre [] b⟩ : Plug))) := by
  apply List.map_congr_left
  intro b _
  rw [linksIn_append_ne pre t [] b (fun hx => h hx.1)]

/-- The replayed pipeline-level plugs ignore an appended tuple leaving a
pipeline plug outside the given name list. -/
theorem pipe_map_skip_ne {ν : Type} (G : Pipeline ν) (l : List Str)
    (pre : List LinkT) (t : LinkT) (h : t.2.1 ∉ l) :
    l.map (fun b => (b, (⟨pout G b, linksIn (pre ++ [t]) [] b⟩ : Plug))) =
      l.map (fun b => (b, (⟨pout G b, linksIn pre [] b⟩ : Plug))) := by
  apply List.map_congr_left
  intro b hb
  rw [linksIn_append_ne pre t [] b (fun hx => h (by rw [hx.2]; exact hb))]

/-- Updating the replayed pipeline-level plugs on the source plug is the
same as replaying one more pipeline-sourced tuple. -/
theorem odUpd_pipe_map {ν : Type} (G : Pipeline ν) (l : List Str)
    (pre : List LinkT) (sq dn dq : Str) (w : Bool) :
    odUpd (l.map (fun b =>
        (b, (⟨pout G b, linksIn pre [] b⟩ : Plug)))) sq
      (appendLink dn dq w) =
      l.map (fun b => (b, (⟨pout G b,
        linksIn (pre ++ [([], sq, dn, dq, w)]) [] b⟩ : Plug))) := by
  rw [odUpd, List.map_map]
  apply List.map_congr_left
  intro b _
  dsimp only [Function.comp]
  by_cases h : b = sq
  · rw [if_pos (show ((b,
      (⟨pout G b, linksIn pre [] b⟩ : Plug)) : Str × Plug).1 = sq from h)]
    rw [linksIn_append_self pre ([], sq, dn, dq, w) [] b ⟨rfl, h.symm⟩]
    rfl
  · rw [if_neg (fun hx => h hx)]
    rw [linksIn_append_ne pre ([], sq, dn, dq, w) [] b
      (fun hx => h hx.2.symm)]

end Capsul

namespace Capsul

/-- Replaying one link between named or already-mentioned endpoints whose
source is a named node: the plug update realizes one more tuple. -/
theorem midL_step_named {ν : Type} (G : Pipeline ν) (pre : List LinkT)
    (sn sq dn dq : Str) (hsn : sn ≠ [])
    (hmen : mentions (pre ++ [(sn, sq, dn, dq, false)]) = mentions pre) :
    (midL G pre).updPlug sn sq (appendLink dn dq false) =
      midL G (pre ++ [(sn, sq, dn, dq, false)]) := by
  apply pipelineExt
  · rw [updPlug_nodes_shape (midL G pre) sn sq (appendLink dn dq false)
      ((mentions pre).map (fun b =>
        (b, (⟨pout G b, linksIn pre [] b⟩ : Plug))))
      ((namedNodes G).map (relinkNode pre)) (midL_nodes G pre)]
    rw [if_neg hsn]
    rw [relink_append_named (namedNodes G) pre sn sq dn dq false]
    rw [midL_nodes, hmen,
      pipe_map_skip G (mentions pre) pre (sn, sq, dn, dq, false) hsn]
  · rfl
  · rfl
  · rfl
  · rfl

/-- Replaying one link out of an already-mentioned pipeline plug: the plug
update realizes one more tuple. -/
theorem midL_step_pipe_old {ν : Type} (G : Pipeline ν) (pre : List LinkT)
    (sq dn dq : Str)
    (hwf : ∀ nn ∈ namedNodes G, nn.1 ≠ [])
    (hmen : mentions (pre ++ [([], sq, dn, dq, false)]) = mentions pre) :
    (midL G pre).updPlug [] sq (appendLink dn dq false) =
      midL G (pre ++ [([], sq, dn, dq, false)]) := by
  have hkeys : ([] : Str) ∉
      ((namedNodes G).map (relinkNode pre)).map Prod.fst := by
    rw [relink_keys]
    intro hx
    rcases List.mem_map.1 hx with ⟨nn, hnn, he⟩
    exact hwf nn hnn he
  apply pipelineExt
  · rw [updPlug_nodes_shape (midL G pre) [] sq (appendLink dn dq false)
      ((mentions pre).map (fun b =>
        (b, (⟨pout G b, linksIn pre [] b⟩ : Plug))))
      ((namedNodes G).map (relinkNode pre)) (midL_nodes G pre)]
    rw [if_pos rfl]
    rw [odUpd_pipe_map G (mentions pre) pre sq dn dq false]
    rw [odUpd_of_not_mem _ [] _ hkeys]
    rw [midL_nodes, hmen,
      named_map_skip (namedNodes G) pre ([], sq, dn, dq, false)
        (fun nn hm => fun hx => hwf nn hm hx.symm)]
  · rfl
  · rfl
  · rfl
  · rfl

end Capsul

namespace Capsul

/-- Absence of the empty key among relinked named nodes. -/
theorem relink_no_pipe_key {ν : Type} (G : Pipeline ν) (pre : List LinkT)
    (hwf : ∀ nn ∈ namedNodes G, nn.1 ≠ []) :
    ([] : Str) ∉ ((namedNodes G).map (relinkNode pre)).map Prod.fst := by
  rw [relink_keys]
  intro hx
  rcases List.mem_map.1 hx with ⟨nn, hnn, he⟩
  exact hwf nn hnn he

/-- The node list after appending a fresh plug to the pipeline node of a
mid-link state. -/
theorem midL_fresh_pipe_nodes {ν : Type} (G : Pipeline ν) (pre : List LinkT)
    (b : Str) (ob : Bool)
    (hwf : ∀ nn ∈ namedNodes G, nn.1 ≠ []) :
    ({ midL G pre with nodes := odUpd (midL G pre).nodes [] (fun nd => { nd with plugs := nd.plugs ++ [(b, (⟨ob, []⟩ : Plug))] }) } : Pipeline ν).nodes =
      ([], (⟨[], false, [],
        (mentions pre).map (fun c =>
          (c, (⟨pout G c, linksIn pre [] c⟩ : Plug))) ++
        [(b, (⟨ob, []⟩ : Plug))]⟩ : PNode)) ::
      (namedNodes G).map (relinkNode pre) := by
  show odUpd (midL G pre).nodes []
    (fun nd => { nd with plugs := nd.plugs ++ [(b, (⟨ob, []⟩ : Plug))] }) = _
  rw [midL_nodes, odUpd_cons,
    odUpd_of_not_mem _ [] _ (relink_no_pipe_key G pre hwf)]
  rfl

/-- Replaying a link that exports a fresh pipeline input: appending the
plug and then the link realizes one more tuple. -/
theorem midL_step_pipe_new {ν : Type} (G : Pipeline ν) (pre : List LinkT)
    (sq dn dq : Str)
    (hwf : ∀ nn ∈ namedNodes G, nn.1 ≠ [])
    (hm : sq ∉ mentions pre) (hpout : pout G sq = false) :
    Pipeline.updPlug { midL G pre with nodes := odUpd (midL G pre).nodes [] (fun nd => { nd with plugs := nd.plugs ++ [(sq, (⟨false, []⟩ : Plug))] }) } [] sq (appendLink dn dq false) =
      midL G (pre ++ [([], sq, dn, dq, false)]) := by
  have hpk : sq ∉ ((mentions pre).map (fun c =>
      (c, (⟨pout G c, linksIn pre [] c⟩ : Plug)))).map Prod.fst := by
    rw [map_pair_keys]
    exact hm
  apply pipelineExt
  · rw [updPlug_nodes_shape _ [] sq (appendLink dn dq false)
      ((mentions pre).map (fun c =>
        (c, (⟨pout G c, linksIn pre [] c⟩ : Plug))) ++
        [(sq, (⟨false, []⟩ : Plug))])
      ((namedNodes G).map (relinkNode pre))
      (midL_fresh_pipe_nodes G pre sq false hwf)]
    rw [if_pos rfl, odUpd_append, odUpd_of_not_mem _ sq _ hpk,
      odUpd_of_not_mem _ [] _ (relink_no_pipe_key G pre hwf)]
    rw [midL_nodes,
      mentions_append_new pre ([], sq, dn, dq, false) sq rfl hm,
      List.map_append]
    rw [pipe_map_skip_ne G (mentions pre) pre ([], sq, dn, dq, false) hm]
    rw [named_map_skip (namedNodes G) pre ([], sq, dn, dq, false)
      (fun nn hmm => fun hx => hwf nn hmm hx.symm)]
    rw [List.map_cons, List.map_nil]
    rw [linksIn_append_self pre ([], sq, dn, dq, false) [] sq ⟨rfl, rfl⟩,
      linksIn_unmentioned pre sq hm, hpout]
    rw [odUpd_cons,
      if_pos (show ((sq, (⟨false, []⟩ : Plug)) : Str × Plug).1 = sq
        from rfl)]
    rfl
  · rfl
  · rfl
  · rfl
  · rfl

end Capsul

namespace Capsul

/-- Replaying a link that exports a fresh pipeline output: appending the
plug and then the link realizes one more tuple. -/
theorem midL_step_export_out {ν : Type} (G : Pipeline ν) (pre : List LinkT)
    (sn sq dq : Str) (hsn : sn ≠ [])
    (hwf : ∀ nn ∈ namedNodes G, nn.1 ≠ [])
    (hm : dq ∉ mentions pre) (hpout : pout G dq = true) :
    Pipeline.updPlug { midL G pre with nodes := odUpd (midL G pre).nodes [] (fun nd => { nd with plugs := nd.plugs ++ [(dq, (⟨true, []⟩ : Plug))] }) } sn sq (appendLink [] dq false) =
      midL G (pre ++ [(sn, sq, [], dq, false)]) := by
  apply pipelineExt
  · rw [updPlug_nodes_shape _ sn sq (appendLink [] dq false)
      ((mentions pre).map (fun c =>
        (c, (⟨pout G c, linksIn pre [] c⟩ : Plug))) ++
        [(dq, (⟨true, []⟩ : Plug))])
      ((namedNodes G).map (relinkNode pre))
      (midL_fresh_pipe_nodes G pre dq true hwf)]
    rw [if_neg hsn]
    rw [relink_append_named (namedNodes G) pre sn sq [] dq false]
    rw [midL_nodes,
      mentions_append_new pre (sn, sq, [], dq, false) dq
        (by rw [bareOf, if_neg hsn, if_pos rfl]) hm,
      List.map_append]
    rw [pipe_map_skip G (mentions pre) pre (sn, sq, [], dq, false) hsn]
    rw [List.map_cons, List.map_nil]
    rw [linksIn_append_ne pre (sn, sq, [], dq, false) [] dq
      (fun hx => hsn hx.1),
      linksIn_unmentioned pre dq hm, hpout]
  · rfl
  · rfl
  · rfl
  · rfl

end Capsul

namespace Capsul

/-- A character other than the dot occurs in a dotted endpoint only via
its halves. -/
theorem pyIn_dotted (c : Char) (n p : Str) (hc : ¬ ('.' : Char) = c)
    (hn : pyIn c n = false) (hp : pyIn c p = false) :
    pyIn c (dotted n p) = false := by
  rw [pyIn, dotted, List.any_append, List.any_cons]
  rw [pyIn] at hn hp
  rw [hn, hp]
  simp [hc]

/-- Endpoint parsing of a dotted `node.plug` string. -/
theorem parseEndpoint_dotted (n p : Str) (hp : pyIn '.' p = false) :
    parseEndpoint (dotted n p) = (n, p) := by
  rw [parseEndpoint, dotted, if_pos (pyIn_dot_append n p),
    splitLastDot_append n p hp]

/-- Endpoint parsing of a bare pipeline-parameter name. -/
theorem parseEndpoint_bare (s : Str) (hs : pyIn '.' s = false) :
    parseEndpoint s = ([], s) := by
  rw [parseEndpoint, if_neg (by rw [hs]; exact Bool.false_ne_true)]

/-- Decoding a dotted-to-dotted link entry. -/
theorem decodeLink_dotted_dotted {ν π : Type} (sn sq dn dq : Str)
    (ex : List Str) :
    decodeLink (ν := ν) (π := π)
      (linkElem (dotted sn sq) (dotted dn dq)) ex =
      .ok ([.add_link (dotted sn sq ++ chs ("->") ++ dotted dn dq) false],
        ex) := by
  rw [decodeLink]
  rw [show (linkElem (dotted sn sq) (dotted dn dq)).get (chs ("dest")) =
      some (dotted dn dq) from rfl]
  rw [show (linkElem (dotted sn sq) (dotted dn dq)).get (chs ("source")) =
      some (dotted sn sq) from rfl]
  rw [show reqS (some (dotted sn sq)) = Except.ok (dotted sn sq) from rfl]
  simp only [exceptOkBind]
  rw [dotted, if_pos (pyIn_dot_append sn sq)]
  rw [show reqS (some (dotted dn dq)) = Except.ok (dotted dn dq) from rfl]
  simp only [exceptOkBind]
  rw [dotted, if_pos (pyIn_dot_append dn dq)]

/-- Decoding a dotted-to-bare link entry whose destination was already
exported. -/
theorem decodeLink_dotted_old {ν π : Type} (sn sq d : Str) (ex : List Str)
    (hd : pyIn '.' d = false) (hdex : d ∈ ex) :
    decodeLink (ν := ν) (π := π) (linkElem (dotted sn sq) d) ex =
      .ok ([.add_link (dotted sn sq ++ chs ("->") ++ d) false], ex) := by
  rw [decodeLink]
  rw [show (linkElem (dotted sn sq) d).get (chs ("dest")) = some d
    from rfl]
  rw [show (linkElem (dotted sn sq) d).get (chs ("source")) =
      some (dotted sn sq) from rfl]
  rw [show reqS (some (dotted sn sq)) = Except.ok (dotted sn sq) from rfl]
  simp only [exceptOkBind]
  rw [dotted, if_pos (pyIn_dot_append sn sq)]
  rw [show reqS (some d) = Except.ok d from rfl]
  simp only [exceptOkBind]
  rw [if_neg (by rw [hd]; exact Bool.false_ne_true), if_pos hdex]

/-- Decoding a dotted-to-bare link entry with a fresh destination:
the export-parameter shorthand. -/
theorem decodeLink_dotted_new {ν π : Type} (sn sq d : Str) (ex : List Str)
    (hsq : pyIn '.' sq = false) (hd : pyIn '.' d = false) (hdex : d ∉ ex) :
    decodeLink (ν := ν) (π := π) (linkElem (dotted sn sq) d) ex =
      .ok ([.export_parameter sn sq d], d :: ex) := by
  rw [decodeLink]
  rw [show (linkElem (dotted sn sq) d).get (chs ("dest")) = some d
    from rfl]
  rw [show (linkElem (dotted sn sq) d).get (chs ("source")) =
      some (dotted sn sq) from rfl]
  rw [show reqS (some (dotted sn sq)) = Except.ok (dotted sn sq) from rfl]
  simp only [exceptOkBind]
  rw [dotted, if_pos (pyIn_dot_append sn sq)]
  rw [show reqS (some d) = Except.ok d from rfl]
  simp only [exceptOkBind]
  rw [if_neg (by rw [hd]; exact Bool.false_ne_true), if_neg hdex,
    splitLastDot_append sn sq hsq]
  rfl

/-- Decoding a bare-to-anything link entry whose source was already
exported. -/
theorem decodeLink_bare_old {ν π : Type} (s d : Str) (ex : List Str)
    (hs : pyIn '.' s = false) (hsex : s ∈ ex) :
    decodeLink (ν := ν) (π := π) (linkElem s d) ex =
      .ok ([.add_link (s ++ chs ("->") ++ d) false], ex) := by
  rw [decodeLink]
  rw [show (linkElem s d).get (chs ("dest")) = some d from rfl]
  rw [show (linkElem s d).get (chs ("source")) = some s from rfl]
  rw [show reqS (some s) = Except.ok s from rfl]
  simp only [exceptOkBind]
  rw [if_neg (by rw [hs]; exact Bool.false_ne_true), if_pos hsex]
  rfl

/-- Decoding a bare-to-dotted link entry with a fresh source: the
export-parameter shorthand. -/
theorem decodeLink_bare_new {ν π : Type} (s dn dq : Str) (ex : List Str)
    (hs : pyIn '.' s = false) (hsex : s ∉ ex) (hdq : pyIn '.' dq = false) :
    decodeLink (ν := ν) (π := π) (linkElem s (dotted dn dq)) ex =
      .ok ([.export_parameter dn dq s], s :: ex) := by
  rw [decodeLink]
  rw [show (linkElem s (dotted dn dq)).get (chs ("dest")) =
      some (dotted dn dq) from rfl]
  rw [show (linkElem s (dotted dn dq)).get (chs ("source")) = some s
    from rfl]
  rw [show reqS (some s) = Except.ok s from rfl]
  simp only [exceptOkBind]
  rw [if_neg (by rw [hs]; exact Bool.false_ne_true), if_neg hsex]
  rw [show reqS (some (dotted dn dq)) = Except.ok (dotted dn dq) from rfl]
  simp only [exceptOkBind]
  rw [dotted, splitLastDot_append dn dq hdq]
  rfl

end Capsul

namespace Capsul

/-- Reassociating the formatted link string around its arrow. -/
theorem seam_assoc (a b : Str) : a ++ chs ("->") ++ b = a ++ '-' :: '>' :: b := by
  rw [List.append_assoc]
  rfl

/-- Applying an `add_link` call with a well-formed seam evaluates to the
link-addition core on the parsed endpoints. -/
theorem applyOp_add_link {ν π : Type} (lib : Lib) (p : Pipeline ν)
    (a b : Str) (w : Bool) (ha : pyIn '-' a = false)
    (hb : pyIn '-' b = false) :
    applyOp (π := π) lib p (.add_link (a ++ chs ("->") ++ b) w) =
      addLinkCore p (parseEndpoint a).1 (parseEndpoint a).2
        (parseEndpoint b).1 (parseEndpoint b).2 w := by
  rw [applyOp]
  rw [seam_assoc a b]
  rw [splitArrow_seam a b ha hb]
  simp only [Option.elim_some]

/-- Applying an `export_parameter` call whose inner plug is an input and
whose exported name is fresh: the plug is appended and the pipeline-to-node
link is delegated to the core. -/
theorem applyOp_export_in_eval {ν π : Type} (lib : Lib) (p : Pipeline ν)
    (node plug name : Str) (lk : List (Str × Str × Bool))
    (hip : p.getPlug node plug = some (⟨false, lk⟩ : Plug))
    (hconf : p.getPlug [] name = none) :
    applyOp (π := π) lib p (.export_parameter node plug name) =
      addLinkCore { p with nodes := odUpd p.nodes [] (fun nd => { nd with plugs := nd.plugs ++ [(name, (⟨false, []⟩ : Plug))] }) } [] name node plug false := by
  rw [applyOp]
  rw [show ((p.nodes.lookup node).bind (fun nd => nd.plugs.lookup plug)) =
      p.getPlug node plug from rfl, hip]
  simp only [Option.elim_some]
  rw [show ((p.nodes.lookup []).bind (fun nd => nd.plugs.lookup name)) =
      p.getPlug [] name from rfl, hconf]
  rw [if_neg (by simp)]
  rfl

/-- Applying an `export_parameter` call whose inner plug is an output and
whose exported name is fresh: the plug is appended and the node-to-pipeline
link is delegated to the core. -/
theorem applyOp_export_out_eval {ν π : Type} (lib : Lib) (p : Pipeline ν)
    (node plug name : Str) (lk : List (Str × Str × Bool))
    (hip : p.getPlug node plug = some (⟨true, lk⟩ : Plug))
    (hconf : p.getPlug [] name = none) :
    applyOp (π := π) lib p (.export_parameter node plug name) =
      addLinkCore { p with nodes := odUpd p.nodes [] (fun nd => { nd with plugs := nd.plugs ++ [(name, (⟨true, []⟩ : Plug))] }) } node plug [] name false := by
  rw [applyOp]
  rw [show ((p.nodes.lookup node).bind (fun nd => nd.plugs.lookup plug)) =
      p.getPlug node plug from rfl, hip]
  simp only [Option.elim_some]
  rw [show ((p.nodes.lookup []).bind (fun nd => nd.plugs.lookup name)) =
      p.getPlug [] name from rfl, hconf]
  rw [if_neg (by simp)]
  rfl

end Capsul

namespace Capsul

/-- A plug found by lookup in an invariant state has well-formed
names. -/
theorem getPlug_wf {ν : Type} (lib : Lib) (G : Pipeline ν)
    (hc : GCore lib G) (n q : Str) (pl : Plug)
    (h : G.getPlug n q = some pl) :
    (n = [] ∨ wfName n) ∧ wfName q := by
  rw [Pipeline.getPlug] at h
  rcases hnd : G.nodes.lookup n with _ | nd
  · rw [hnd] at h
    exact Option.noConfusion h
  rw [hnd] at h
  dsimp only [Option.bind] at h
  have hmem := lookup_mem G.nodes n nd hnd
  have hq := lookup_mem nd.plugs q pl h
  rw [hc.shape] at hmem
  rcases List.mem_cons.1 hmem with he | hmem2
  · have hn : n = [] := congrArg Prod.fst he
    have hnd2 : nd = (⟨[], false, [], pipePlugs G⟩ : PNode) :=
      congrArg Prod.snd he
    refine ⟨Or.inl hn, ?_⟩
    apply hc.pipe_wf (q, pl)
    rw [← show (⟨[], false, [], pipePlugs G⟩ : PNode).plugs = pipePlugs G
      from rfl, ← hnd2]
    exact hq
  · exact ⟨Or.inr (hc.named_wf (n, nd) hmem2),
      (hc.named_lib (n, nd) hmem2).2.2 (q, pl) hq⟩

/-- The stored direction of a present pipeline-level plug. -/
theorem pout_eq {ν : Type} (G : Pipeline ν) (q : Str) (pl : Plug)
    (h : G.getPlug [] q = some pl) : pout G q = pl.output := by
  rw [pout, h]

/-- The facts the builder invariant guarantees for every stored link. -/
theorem link_facts {ν : Type} (lib : Lib) (G : Pipeline ν)
    (hinv : GInv lib G) (sn sq dn dq : Str) (w : Bool)
    (ht : ((sn, sq, dn, dq, w) : LinkT) ∈ allLinksD G) :
    w = false ∧ ¬ (sn = [] ∧ dn = []) ∧
    (∃ sp, G.getPlug sn sq = some sp ∧
      (if sn = [] then sp.output = false else sp.output = true)) ∧
    (∃ dp, G.getPlug dn dq = some dp ∧
      (if dn = [] then dp.output = true else dp.output = false)) := by
  rcases (mem_allLinksD G _).1 ht with ⟨nn, hmem, qp, hqp, l, hl, he⟩
  have hsn : sn = nn.1 := congrArg (fun x => x.1) he
  have hsq : sq = qp.1 := congrArg (fun x => x.2.1) he
  have hl2 : (dn, dq, w) = l := congrArg (fun x => x.2.2) he
  have hdst := hinv.links_dst nn hmem qp hqp l hl
  have hsrc := hinv.links_src nn hmem qp hqp l hl
  have h1 : G.nodes.lookup nn.1 = some nn.2 :=
    mem_lookup_of_nodup G.nodes nn.1 nn.2 hinv.nodup_nodes hmem
  have h2 : nn.2.plugs.lookup qp.1 = some qp.2 :=
    mem_lookup_of_nodup nn.2.plugs qp.1 qp.2 (hinv.nodup_plugs nn hmem) hqp
  have hsp : G.getPlug sn sq = some qp.2 := by
    rw [hsn, hsq, Pipeline.getPlug, h1]
    dsimp only [Option.bind]
    exact h2
  refine ⟨?_, ?_, ⟨qp.2, hsp, ?_⟩, ?_⟩
  · rw [show w = (dn, dq, w).2.2 from rfl, hl2]
    exact hdst.1
  · intro hx
    apply hdst.2.1
    refine ⟨by rw [← hsn]; exact hx.1, ?_⟩
    rw [← hl2]
    exact hx.2
  · rcases hsrc with ⟨ha, hb⟩ | ⟨ha, hb⟩
    · rw [if_pos (by rw [hsn]; exact ha)]
      exact hb
    · rw [if_neg (by rw [hsn]; exact ha)]
      exact hb
  · rcases hdst.2.2 with ⟨dp, hdpl, hdpol⟩
    refine ⟨dp, ?_, ?_⟩
    · rw [show dn = (dn, dq, w).1 from rfl, show dq = (dn, dq, w).2.1
        from rfl, hl2]
      exact hdpl
    · by_cases hc : dn = []
      · rw [if_pos hc]
        rw [show dn = (dn, dq, w).1 from rfl, hl2] at hc
        rw [if_pos hc] at hdpol
        exact hdpol
      · rw [if_neg hc]
        rw [show dn = (dn, dq, w).1 from rfl, hl2] at hc
        rw [if_neg hc] at hdpol
        exact hdpol

end Capsul

namespace Capsul

/-- Keys of a first-component-preserving map. -/
theorem map_fst_pairs {β γ : Type} (l : List (Str × β))
    (f : Str × β → γ) :
    (l.map (fun x => (x.1, f x))).map Prod.fst = l.map Prod.fst := by
  rw [List.map_map]
  apply List.map_congr_left
  intro x _
  rfl

/-- Lookup through an append, absent on the left. -/
theorem lookup_append_right_keys {β : Type} (m1 m2 : List (Str × β)) (k : Str)
    (h : k ∉ m1.map Prod.fst) : (m1 ++ m2).lookup k = m2.lookup k := by
  induction m1 with
  | nil => rfl
  | cons kv rest ih =>
    rw [List.map_cons] at h
    rw [List.cons_append]
    obtain ⟨k1, v1⟩ := kv
    rw [lookup_cons_ne k1 k v1 _
      (fun he => h (List.mem_cons.2 (Or.inl he)))]
    exact ih (fun hx => h (List.mem_cons_of_mem _ hx))

/-- Distinct node keys in the mid-link state. -/
theorem midL_nodup_nodes {ν : Type} (lib : Lib) (G : Pipeline ν)
    (hc : GCore lib G) (l : List LinkT) :
    ((midL G l).nodes.map Prod.fst).Nodup := by
  rw [midL_nodes, List.map_cons, relink_keys]
  have hx := hc.nodup_nodes
  rw [hc.shape, List.map_cons] at hx
  exact hx

/-- Distinct plug keys of every node in the mid-link state. -/
theorem midL_nodup_plugs {ν : Type} (lib : Lib) (G : Pipeline ν)
    (hc : GCore lib G) (l : List LinkT) :
    ∀ nn ∈ (midL G l).nodes, (nn.2.plugs.map Prod.fst).Nodup := by
  intro nn hm
  rw [midL_nodes] at hm
  rcases List.mem_cons.1 hm with he | hm2
  · rw [he]
    show ((((mentions l).map (fun b =>
      (b, (⟨pout G b, linksIn l [] b⟩ : Plug)))).map Prod.fst).Nodup)
    rw [map_pair_keys]
    exact mentionsAux_nodup l []
  · rcases List.mem_map.1 hm2 with ⟨mm, hmm, he⟩
    rw [← he, relinkNode]
    show ((mm.2.plugs.map (fun qp =>
      (qp.1, (⟨qp.2.output, linksIn l mm.1 qp.1⟩ : Plug)))).map
        Prod.fst).Nodup
    rw [map_fst_pairs]
    apply hc.nodup_plugs mm
    rw [hc.shape]
    exact List.mem_cons_of_mem _ hmm

end Capsul

namespace Capsul

/-- A single link-less plug contributes no link tuples. -/
theorem flatMap_single_plug_nil (k b : Str) (ob : Bool) :
    ([(b, (⟨ob, []⟩ : Plug))].flatMap (fun qp =>
      qp.2.links_to.map (fun l => (k, qp.1, l)))) = [] := rfl

/-- Named-node plug lookup is unchanged by appending a fresh
pipeline-level plug. -/
theorem getPlug_fresh_pipe_named {ν : Type} (G : Pipeline ν)
    (pre : List LinkT) (b : Str) (ob : Bool) (n q : Str) (hn : n ≠ [])
    (hwf : ∀ nn ∈ namedNodes G, nn.1 ≠ []) :
    ({ midL G pre with nodes := odUpd (midL G pre).nodes [] (fun nd => { nd with plugs := nd.plugs ++ [(b, (⟨ob, []⟩ : Plug))] }) } : Pipeline ν).getPlug n q = (midL G pre).getPlug n q := by
  rw [Pipeline.getPlug, Pipeline.getPlug,
    midL_fresh_pipe_nodes G pre b ob hwf, midL_nodes,
    lookup_cons_ne _ _ _ _ hn, lookup_cons_ne _ _ _ _ hn]

/-- The freshly appended pipeline-level plug is found by lookup. -/
theorem getPlug_fresh_pipe_self {ν : Type} (G : Pipeline ν)
    (pre : List LinkT) (b : Str) (ob : Bool)
    (hwf : ∀ nn ∈ namedNodes G, nn.1 ≠ [])
    (hm : b ∉ mentions pre) :
    ({ midL G pre with nodes := odUpd (midL G pre).nodes [] (fun nd => { nd with plugs := nd.plugs ++ [(b, (⟨ob, []⟩ : Plug))] }) } : Pipeline ν).getPlug [] b = some (⟨ob, []⟩ : Plug) := by
  rw [Pipeline.getPlug, midL_fresh_pipe_nodes G pre b ob hwf,
    lookup_cons_self]
  dsimp only [Option.bind]
  rw [lookup_append_right_keys _ _ b (by rw [map_pair_keys]; exact hm),
    lookup_cons_self]

/-- Iteration flags are unchanged by appending a fresh pipeline-level
plug. -/
theorem isIterPlug_fresh_pipe {ν : Type} (G : Pipeline ν)
    (pre : List LinkT) (b : Str) (ob : Bool) (n q : Str)
    (hwf : ∀ nn ∈ namedNodes G, nn.1 ≠ []) :
    isIterPlug ({ midL G pre with nodes := odUpd (midL G pre).nodes [] (fun nd => { nd with plugs := nd.plugs ++ [(b, (⟨ob, []⟩ : Plug))] }) } : Pipeline ν) n q = isIterPlug (midL G pre) n q := by
  rw [isIterPlug, isIterPlug, midL_fresh_pipe_nodes G pre b ob hwf,
    midL_nodes]
  by_cases hn : n = []
  · subst hn
    rw [lookup_cons_self, lookup_cons_self]
  · rw [lookup_cons_ne _ _ _ _ hn, lookup_cons_ne _ _ _ _ hn]

/-- The link tuples are unchanged by appending a fresh pipeline-level
plug. -/
theorem allLinksD_fresh_pipe {ν : Type} (G : Pipeline ν)
    (pre : List LinkT) (b : Str) (ob : Bool)
    (hwf : ∀ nn ∈ namedNodes G, nn.1 ≠ []) :
    allLinksD ({ midL G pre with nodes := odUpd (midL G pre).nodes [] (fun nd => { nd with plugs := nd.plugs ++ [(b, (⟨ob, []⟩ : Plug))] }) } : Pipeline ν) = allLinksD (midL G pre) := by
  rw [allLinksD_eq_flatMap, allLinksD_eq_flatMap,
    midL_fresh_pipe_nodes G pre b ob hwf, midL_nodes,
    List.flatMap_cons, List.flatMap_cons]
  congr 1
  rw [nodeLinks_eq, nodeLinks_eq]
  dsimp only
  rw [List.flatMap_append, flatMap_single_plug_nil, List.append_nil]

/-- Distinct node keys after appending a fresh pipeline-level plug. -/
theorem fresh_pipe_nodup_nodes {ν : Type} (lib : Lib) (G : Pipeline ν)
    (hc : GCore lib G) (pre : List LinkT) (b : Str) (ob : Bool) :
    (({ midL G pre with nodes := odUpd (midL G pre).nodes [] (fun nd => { nd with plugs := nd.plugs ++ [(b, (⟨ob, []⟩ : Plug))] }) } : Pipeline ν).nodes.map Prod.fst).Nodup := by
  show ((odUpd (midL G pre).nodes [] (fun nd => { nd with plugs := nd.plugs ++ [(b, (⟨ob, []⟩ : Plug))] })).map Prod.fst).Nodup
  rw [odUpd_keys]
  exact midL_nodup_nodes lib G hc pre

/-- Distinct plug keys after appending a fresh pipeline-level plug. -/
theorem fresh_pipe_nodup_plugs {ν : Type} (lib : Lib) (G : Pipeline ν)
    (hc : GCore lib G) (pre : List LinkT) (b : Str) (ob : Bool)
    (hm : b ∉ mentions pre) :
    ∀ nn ∈ ({ midL G pre with nodes := odUpd (midL G pre).nodes [] (fun nd => { nd with plugs := nd.plugs ++ [(b, (⟨ob, []⟩ : Plug))] }) } : Pipeline ν).nodes, (nn.2.plugs.map Prod.fst).Nodup := by
  intro nn hmem
  rw [midL_fresh_pipe_nodes G pre b ob
    (fun mm hx => (hc.named_wf mm hx).1)] at hmem
  rcases List.mem_cons.1 hmem with he | hm2
  · rw [he]
    show ((((mentions pre).map (fun c =>
      (c, (⟨pout G c, linksIn pre [] c⟩ : Plug))) ++
      [(b, (⟨ob, []⟩ : Plug))]).map Prod.fst).Nodup)
    rw [List.map_append, map_pair_keys]
    refine List.nodup_append.2 ⟨mentionsAux_nodup pre [], ?_, ?_⟩
    · exact List.nodup_singleton _
    · intro x hx1 hx2
      rw [show ([(b, (⟨ob, []⟩ : Plug))].map Prod.fst) = [b] from rfl]
        at hx2
      rw [List.mem_singleton] at hx2
      exact hm (hx2 ▸ hx1)
  · rcases List.mem_map.1 hm2 with ⟨mm, hmm, he⟩
    rw [← he, relinkNode]
    show ((mm.2.plugs.map (fun qp =>
      (qp.1, (⟨qp.2.output, linksIn pre mm.1 qp.1⟩ : Plug)))).map
        Prod.fst).Nodup
    rw [map_fst_pairs]
    apply hc.nodup_plugs mm
    rw [hc.shape]
    exact List.mem_cons_of_mem _ hmm

/-- No non-weak link of the replayed prefix enters a scalar input plug
whose stored link is the current tuple: the fan-in check passes. -/
theorem incoming_mid_zero {ν : Type} (lib : Lib) (G : Pipeline ν)
    (hinv : GInv lib G) (pre post : List LinkT) (sn sq dn dq : Str)
    (hsplit : allLinksD G = pre ++ ((sn, sq, dn, dq, false) : LinkT) :: post)
    (hdn : dn ≠ []) (dp : Plug) (hdp : G.getPlug dn dq = some dp)
    (hout : dp.output = false) (hiter : isIterPlug G dn dq = false)
    (P : Pipeline ν) (hP : (allLinksD P).Perm pre) :
    incomingCount P dn dq = 0 := by
  have hsc : incomingCount G dn dq ≤ 1 := by
    rw [Pipeline.getPlug] at hdp
    rcases hnd : G.nodes.lookup dn with _ | nd
    · rw [hnd] at hdp
      exact Option.noConfusion hdp
    rw [hnd] at hdp
    dsimp only [Option.bind] at hdp
    have hmem := lookup_mem G.nodes dn nd hnd
    have hqm := lookup_mem nd.plugs dq dp hdp
    rw [hinv.shape] at hmem
    rcases List.mem_cons.1 hmem with he | hmem2
    · exact absurd (congrArg Prod.fst he) hdn
    · exact hinv.scalar (dn, nd) hmem2 (dq, dp) hqm hout hiter
  rw [incomingCount, hsplit, List.countP_append, List.countP_cons] at hsc
  have hone : (if decide (((sn, sq, dn, dq, false) : LinkT).2.2.1 = dn ∧ ((sn, sq, dn, dq, false) : LinkT).2.2.2.1 = dq ∧ ((sn, sq, dn, dq, false) : LinkT).2.2.2.2 = false) = true then 1 else 0) = 1 := by
    simp
  rw [hone] at hsc
  rw [incomingCount, hP.countP_eq]
  omega

end Capsul

namespace Capsul

/-- Consing an element is a permutation of appending it. -/
theorem cons_perm_append {α : Type} (a : α) (l : List α) :
    (a :: l).Perm (l ++ [a]) := by
  have h := @List.perm_middle _ a l ([] : List α)
  rw [List.append_nil] at h
  exact h.symm

/-- Running a single builder call. -/
theorem runOps_single {ν π : Type} (lib : Lib) (p p' : Pipeline ν)
    (op : BOp ν π) (h : applyOp lib p op = .ok p') :
    runOps lib p [op] = .ok p' := by
  rw [runOps, List.foldlM_cons, h]
  simp only [exceptOkBind]
  rw [List.foldlM_nil]
  rfl

/-- The emitted element of a non-weak link, by endpoint shape. -/
theorem linkXElemOf_comp (sn sq dn dq : Str) :
    linkXElemOf ((sn, sq, dn, dq, false) : LinkT) =
      linkElem (if sn = [] then sq else dotted sn sq)
        (if dn = [] then dq else dotted dn dq) := by
  rw [linkXElemOf, linkElem, dotted, dotted]
  rfl

end Capsul

namespace Capsul

/-- Replaying one stored link tuple: the decoded builder calls turn the
mid-link state of the replayed prefix into the mid-link state including
the tuple, and the exported-parameter set keeps tracking the mentioned
names. -/
theorem replay_step {ν π : Type} (lib : Lib)
    (s2v : Option Str → Except String (Option π))
    (parseNum : Option Str → Except String ν)
    (G : Pipeline ν) (hinv : GInv lib G) (pre post : List LinkT)
    (t : LinkT) (hsplit : allLinksD G = pre ++ t :: post)
    (ex : List Str) (hex : ∀ b, b ∈ ex ↔ b ∈ mentions pre)
    (hperm : (allLinksD (midL G pre)).Perm pre) :
    ∃ ops ex₂,
      decode_child (ν := ν) (π := π) s2v parseNum (linkXElemOf t) ex =
        .ok (ops, ex₂) ∧
      runOps lib (midL G pre) ops = .ok (midL G (pre ++ [t])) ∧
      (∀ b, b ∈ ex₂ ↔ b ∈ mentions (pre ++ [t])) ∧
      (allLinksD (midL G (pre ++ [t]))).Perm (pre ++ [t]) := by
  obtain ⟨sn, sq, dn, dq, w⟩ := t
  have ht : ((sn, sq, dn, dq, w) : LinkT) ∈ allLinksD G := by
    rw [hsplit]
    exact List.mem_append_right pre (List.mem_cons_self _ _)
  rcases link_facts lib G hinv sn sq dn dq w ht with
    ⟨hw, hnn0, ⟨sp, hsp, hspol⟩, ⟨dp, hdp, hdpol⟩⟩
  subst hw
  have hshape := hinv.shape
  have hwfn : ∀ nn ∈ namedNodes G, nn.1 ≠ [] := fun nn hm =>
    (hinv.named_wf nn hm).1
  have hsw := getPlug_wf lib G hinv.toGCore sn sq sp hsp
  have hdw := getPlug_wf lib G hinv.toGCore dn dq dp hdp
  have htpre : ((sn, sq, dn, dq, false) : LinkT) ∉ pre := by
    have hnd := hinv.nodup_links
    rw [hsplit] at hnd
    intro hx
    exact (List.nodup_append.1 hnd).2.2 hx (List.mem_cons_self _ _)
  have htmid : ((sn, sq, dn, dq, false) : LinkT) ∉
      allLinksD (midL G pre) :=
    fun hx => htpre (hperm.mem_iff.1 hx)
  have hmnn := midL_nodup_nodes lib G hinv.toGCore pre
  have hmnp := midL_nodup_plugs lib G hinv.toGCore pre
  by_cases hsn : sn = []
  · subst hsn
    have hdn : dn ≠ [] := fun h => hnn0 ⟨rfl, h⟩
    rw [if_pos rfl] at hspol
    rw [if_neg hdn] at hdpol
    have hsqwf : wfName sq := hsw.2
    have hdnwf : wfName dn := by
      rcases hdw.1 with h | h
      · exact absurd h hdn
      · exact h
    have hdqwf : wfName dq := hdw.2
    have hpout : pout G sq = false := by
      rw [pout_eq G sq sp hsp]
      exact hspol
    have hmdp : (midL G pre).getPlug dn dq =
        some (⟨false, linksIn pre dn dq⟩ : Plug) := by
      rw [getPlug_midL G pre dn dq hdn hshape, hdp]
      rw [show ((some dp).map (fun pl =>
        (⟨pl.output, linksIn pre dn dq⟩ : Plug))) =
        some (⟨dp.output, linksIn pre dn dq⟩ : Plug) from rfl, hdpol]
    have hel : linkXElemOf (([], sq, dn, dq, false) : LinkT) =
        linkElem sq (dotted dn dq) := by
      rw [linkXElemOf_comp]
      simp only [if_neg hdn]
      rfl
    rw [hel, decode_child_link]
    by_cases hmq : sq ∈ mentions pre
    · -- source plug already exported: plain add_link
      have hmen : mentions (pre ++ [(([] : Str), sq, dn, dq, false)]) =
          mentions pre :=
        mentions_append_old pre _ sq rfl hmq
      have hmsp : (midL G pre).getPlug [] sq =
          some (⟨pout G sq, linksIn pre [] sq⟩ : Plug) := by
        rw [getPlug_midL_pipe, if_pos hmq]
      rw [decodeLink_bare_old sq (dotted dn dq) ex hsqwf.2.1
        ((hex sq).2 hmq)]
      refine ⟨_, _, rfl, ?_, ?_, ?_⟩
      · apply runOps_single
        rw [applyOp_add_link lib (midL G pre) sq (dotted dn dq) false
          hsqwf.2.2
          (pyIn_dotted '-' dn dq (by decide) hdnwf.2.2 hdqwf.2.2)]
        rw [parseEndpoint_bare sq hsqwf.2.1,
          parseEndpoint_dotted dn dq hdqwf.2.1]
        show addLinkCore (midL G pre) [] sq dn dq false = _
        rw [addLinkCore_eq_ok (midL G pre) [] sq dn dq false
          (⟨pout G sq, linksIn pre [] sq⟩ : Plug)
          (⟨false, linksIn pre dn dq⟩ : Plug) hmsp hmdp
          (by simp [hpout]) (by rw [if_neg hdn]) htmid
          (by
            rintro ⟨-, -, hif, hge⟩
            rw [isIterPlug_midL G pre dn dq hshape] at hif
            rw [incoming_mid_zero lib G hinv pre post [] sq dn dq hsplit
              hdn dp hdp hdpol hif (midL G pre) hperm] at hge
            exact Nat.not_succ_le_zero 0 hge)]
        rw [midL_step_pipe_old G pre sq dn dq hwfn hmen]
      · intro b
        rw [hmen]
        exact hex b
      · rw [← midL_step_pipe_old G pre sq dn dq hwfn hmen]
        have hp2 := allLinksD_updPlug_perm (midL G pre) [] sq dn dq false
          (⟨pout G sq, linksIn pre [] sq⟩ : Plug) hmnn hmnp hmsp
        exact hp2.trans ((hperm.cons _).trans (cons_perm_append _ pre))
    · -- fresh bare source: export_parameter shorthand
      have hmen : mentions (pre ++ [(([] : Str), sq, dn, dq, false)]) =
          mentions pre ++ [sq] :=
        mentions_append_new pre _ sq rfl hmq
      have hconf : (midL G pre).getPlug [] sq = none := by
        rw [getPlug_midL_pipe, if_neg hmq]
      have hfsp := getPlug_fresh_pipe_self G pre sq false hwfn hmq
      have hfdp := by
        have hx := getPlug_fresh_pipe_named G pre sq false dn dq hdn hwfn
        rw [hmdp] at hx
        exact hx
      have hPp : (allLinksD ({ midL G pre with nodes := odUpd (midL G pre).nodes [] (fun nd => { nd with plugs := nd.plugs ++ [(sq, (⟨false, []⟩ : Plug))] }) } : Pipeline ν)).Perm pre := by
        rw [allLinksD_fresh_pipe G pre sq false hwfn]
        exact hperm
      rw [decodeLink_bare_new sq dn dq ex hsqwf.2.1
        (fun hx => hmq ((hex sq).1 hx)) hdqwf.2.1]
      refine ⟨_, _, rfl, ?_, ?_, ?_⟩
      · apply runOps_single
        rw [applyOp_export_in_eval lib (midL G pre) dn dq sq
          (linksIn pre dn dq) hmdp hconf]
        rw [addLinkCore_eq_ok _ [] sq dn dq false
          (⟨false, []⟩ : Plug) (⟨false, linksIn pre dn dq⟩ : Plug)
          hfsp hfdp (by simp) (by rw [if_neg hdn]) (by
            rw [allLinksD_fresh_pipe G pre sq false hwfn]
            exact htmid)
          (by
            rintro ⟨-, -, hif, hge⟩
            rw [isIterPlug_fresh_pipe G pre sq false dn dq hwfn,
              isIterPlug_midL G pre dn dq hshape] at hif
            rw [incoming_mid_zero lib G hinv pre post [] sq dn dq hsplit
              hdn dp hdp hdpol hif _ hPp] at hge
            exact Nat.not_succ_le_zero 0 hge)]
        rw [midL_step_pipe_new G pre sq dn dq hwfn hmq hpout]
      · intro b
        rw [hmen]
        simp only [List.mem_cons, List.mem_append, List.mem_singleton,
          hex b]
        tauto
      · rw [← midL_step_pipe_new G pre sq dn dq hwfn hmq hpout]
        have hp2 := allLinksD_updPlug_perm _ [] sq dn dq false
          (⟨false, []⟩ : Plug)
          (fresh_pipe_nodup_nodes lib G hinv.toGCore pre sq false)
          (fresh_pipe_nodup_plugs lib G hinv.toGCore pre sq false hmq)
          hfsp
        exact hp2.trans ((hPp.cons _).trans (cons_perm_append _ pre))
  · rw [if_neg hsn] at hspol
    have hsnwf : wfName sn := by
      rcases hsw.1 with h | h
      · exact absurd h hsn
      · exact h
    have hsqwf : wfName sq := hsw.2
    have hmsp : (midL G pre).getPlug sn sq =
        some (⟨true, linksIn pre sn sq⟩ : Plug) := by
      rw [getPlug_midL G pre sn sq hsn hshape, hsp]
      rw [show ((some sp).map (fun pl =>
        (⟨pl.output, linksIn pre sn sq⟩ : Plug))) =
        some (⟨sp.output, linksIn pre sn sq⟩ : Plug) from rfl, hspol]
    by_cases hdn : dn = []
    · subst hdn
      rw [if_pos rfl] at hdpol
      have hdqwf : wfName dq := hdw.2
      have hpoutq : pout G dq = true := by
        rw [pout_eq G dq dp hdp]
        exact hdpol
      have hel : linkXElemOf ((sn, sq, ([] : Str), dq, false) : LinkT) =
          linkElem (dotted sn sq) dq := by
        rw [linkXElemOf_comp]
        simp only [if_neg hsn]
        rfl
      rw [hel, decode_child_link]
      by_cases hmq2 : dq ∈ mentions pre
      · -- dest parameter already exported: plain add_link
        have hmen : mentions (pre ++ [((sn, sq, ([] : Str), dq, false) :
            LinkT)]) = mentions pre :=
          mentions_append_old pre _ dq
            (by rw [bareOf, if_neg hsn, if_pos rfl]) hmq2
        have hmdp2 : (midL G pre).getPlug [] dq =
            some (⟨pout G dq, linksIn pre [] dq⟩ : Plug) := by
          rw [getPlug_midL_pipe, if_pos hmq2]
        rw [decodeLink_dotted_old sn sq dq ex hdqwf.2.1
          ((hex dq).2 hmq2)]
        refine ⟨_, _, rfl, ?_, ?_, ?_⟩
        · apply runOps_single
          rw [applyOp_add_link lib (midL G pre) (dotted sn sq) dq false
            (pyIn_dotted '-' sn sq (by decide) hsnwf.2.2 hsqwf.2.2)
            hdqwf.2.2]
          rw [parseEndpoint_dotted sn sq hsqwf.2.1,
            parseEndpoint_bare dq hdqwf.2.1]
          show addLinkCore (midL G pre) sn sq [] dq false = _
          rw [addLinkCore_eq_ok (midL G pre) sn sq [] dq false
            (⟨true, linksIn pre sn sq⟩ : Plug)
            (⟨pout G dq, linksIn pre [] dq⟩ : Plug) hmsp hmdp2
            (by rw [if_neg hsn]) (by simp [hpoutq]) htmid
            (by rintro ⟨hne, -, -, -⟩; exact hne rfl)]
          rw [midL_step_named G pre sn sq [] dq hsn hmen]
        · intro b
          rw [hmen]
          exact hex b
        · rw [← midL_step_named G pre sn sq [] dq hsn hmen]
          have hp2 := allLinksD_updPlug_perm (midL G pre) sn sq [] dq
            false (⟨true, linksIn pre sn sq⟩ : Plug) hmnn hmnp hmsp
          exact hp2.trans ((hperm.cons _).trans (cons_perm_append _ pre))
      · -- fresh bare dest: export_parameter shorthand
        have hmen : mentions (pre ++ [((sn, sq, ([] : Str), dq, false) :
            LinkT)]) = mentions pre ++ [dq] :=
          mentions_append_new pre _ dq
            (by rw [bareOf, if_neg hsn, if_pos rfl]) hmq2
        have hconf : (midL G pre).getPlug [] dq = none := by
          rw [getPlug_midL_pipe, if_neg hmq2]
        have hfdp := getPlug_fresh_pipe_self G pre dq true hwfn hmq2
        have hfsp := by
          have hx := getPlug_fresh_pipe_named G pre dq true sn sq hsn
            hwfn
          rw [hmsp] at hx
          exact hx
        have hPp : (allLinksD ({ midL G pre with nodes := odUpd (midL G pre).nodes [] (fun nd => { nd with plugs := nd.plugs ++ [(dq, (⟨true, []⟩ : Plug))] }) } : Pipeline ν)).Perm pre := by
          rw [allLinksD_fresh_pipe G pre dq true hwfn]
          exact hperm
        rw [decodeLink_dotted_new sn sq dq ex hsqwf.2.1 hdqwf.2.1
          (fun hx => hmq2 ((hex dq).1 hx))]
        refine ⟨_, _, rfl, ?_, ?_, ?_⟩
        · apply runOps_single
          rw [applyOp_export_out_eval lib (midL G pre) sn sq dq
            (linksIn pre sn sq) hmsp hconf]
          rw [addLinkCore_eq_ok _ sn sq [] dq false
            (⟨true, linksIn pre sn sq⟩ : Plug) (⟨true, []⟩ : Plug)
            hfsp hfdp (by rw [if_neg hsn]) (by simp)
            (by
              rw [allLinksD_fresh_pipe G pre dq true hwfn]
              exact htmid)
            (by rintro ⟨hne, -, -, -⟩; exact hne rfl)]
          rw [midL_step_export_out G pre sn sq dq hsn hwfn hmq2 hpoutq]
        · intro b
          rw [hmen]
          simp only [List.mem_cons, List.mem_append, List.mem_singleton,
            hex b]
          tauto
        · rw [← midL_step_export_out G pre sn sq dq hsn hwfn hmq2
            hpoutq]
          have hp2 := allLinksD_updPlug_perm _ sn sq [] dq false
            (⟨true, linksIn pre sn sq⟩ : Plug)
            (fresh_pipe_nodup_nodes lib G hinv.toGCore pre dq true)
            (fresh_pipe_nodup_plugs lib G hinv.toGCore pre dq true hmq2)
            hfsp
          exact hp2.trans ((hPp.cons _).trans (cons_perm_append _ pre))
    · -- both endpoints named: plain dotted add_link
      rw [if_neg hdn] at hdpol
      have hdnwf : wfName dn := by
        rcases hdw.1 with h | h
        · exact absurd h hdn
        · exact h
      have hdqwf : wfName dq := hdw.2
      have hmen : mentions (pre ++ [((sn, sq, dn, dq, false) :
          LinkT)]) = mentions pre :=
        mentions_append_none pre _ (by rw [bareOf, if_neg hsn, if_neg hdn])
      have hmdp : (midL G pre).getPlug dn dq =
          some (⟨false, linksIn pre dn dq⟩ : Plug) := by
        rw [getPlug_midL G pre dn dq hdn hshape, hdp]
        rw [show ((some dp).map (fun pl =>
          (⟨pl.output, linksIn pre dn dq⟩ : Plug))) =
          some (⟨dp.output, linksIn pre dn dq⟩ : Plug) from rfl, hdpol]
      have hel : linkXElemOf ((sn, sq, dn, dq, false) : LinkT) =
          linkElem (dotted sn sq) (dotted dn dq) := by
        rw [linkXElemOf_comp]
        simp only [if_neg hsn, if_neg hdn]
      rw [hel, decode_child_link]
      rw [decodeLink_dotted_dotted sn sq dn dq ex]
      refine ⟨_, _, rfl, ?_, ?_, ?_⟩
      · apply runOps_single
        rw [applyOp_add_link lib (midL G pre) (dotted sn sq)
          (dotted dn dq) false
          (pyIn_dotted '-' sn sq (by decide) hsnwf.2.2 hsqwf.2.2)
          (pyIn_dotted '-' dn dq (by decide) hdnwf.2.2 hdqwf.2.2)]
        rw [parseEndpoint_dotted sn sq hsqwf.2.1,
          parseEndpoint_dotted dn dq hdqwf.2.1]
        show addLinkCore (midL G pre) sn sq dn dq false = _
        rw [addLinkCore_eq_ok (midL G pre) sn sq dn dq false
          (⟨true, linksIn pre sn sq⟩ : Plug)
          (⟨false, linksIn pre dn dq⟩ : Plug) hmsp hmdp
          (by rw [if_neg hsn]) (by rw [if_neg hdn]) htmid
          (by
            rintro ⟨-, -, hif, hge⟩
            rw [isIterPlug_midL G pre dn dq hshape] at hif
            rw [incoming_mid_zero lib G hinv pre post sn sq dn dq hsplit
              hdn dp hdp hdpol hif (midL G pre) hperm] at hge
            exact Nat.not_succ_le_zero 0 hge)]
        rw [midL_step_named G pre sn sq dn dq hsn hmen]
      · intro b
        rw [hmen]
        exact hex b
      · rw [← midL_step_named G pre sn sq dn dq hsn hmen]
        have hp2 := allLinksD_updPlug_perm (midL G pre) sn sq dn dq false
          (⟨true, linksIn pre sn sq⟩ : Plug) hmnn hmnp hmsp
        exact hp2.trans ((hperm.cons _).trans (cons_perm_append _ pre))

end Capsul

namespace Capsul

/-- Replaying a suffix of the stored link tuples through the decoder
loop. -/
theorem replay_links {ν π : Type} (lib : Lib)
    (s2v : Option Str → Except String (Option π))
    (parseNum : Option Str → Except String ν)
    (G : Pipeline ν) (hinv : GInv lib G) :
    ∀ (todo pre : List LinkT) (ex : List Str),
      allLinksD G = pre ++ todo →
      (∀ b, b ∈ ex ↔ b ∈ mentions pre) →
      (allLinksD (midL G pre)).Perm pre →
      ∀ rest : List XElem, ∃ ex₂,
        (∀ b, b ∈ ex₂ ↔ b ∈ mentions (pre ++ todo)) ∧
        createAux lib s2v parseNum (midL G pre) ex
          (todo.map linkXElemOf ++ rest) =
        createAux lib s2v parseNum (midL G (pre ++ todo)) ex₂ rest ∧
        (allLinksD (midL G (pre ++ todo))).Perm (pre ++ todo) := by
  intro todo
  induction todo with
  | nil =>
    intro pre ex hsplit hex hperm rest
    refine ⟨ex, ?_, ?_, ?_⟩
    · rw [List.append_nil]
      exact hex
    · rw [List.map_nil, List.nil_append, List.append_nil]
    · rw [List.append_nil]
      exact hperm
  | cons t todo' ih =>
    intro pre ex hsplit hex hperm rest
    rcases replay_step lib s2v parseNum G hinv pre todo' t hsplit ex hex
      hperm with ⟨ops, ex₂, hdec, hrun, hex2, hperm2⟩
    rw [List.map_cons, List.cons_append, createAux, hdec]
    simp only [exceptOkBind]
    rw [hrun]
    simp only [exceptOkBind]
    have hsplit2 : allLinksD G = (pre ++ [t]) ++ todo' := by
      rw [hsplit, List.append_assoc, List.singleton_append]
    rcases ih (pre ++ [t]) ex₂ hsplit2 hex2 hperm2 rest with
      ⟨ex₃, hex3, heq, hperm3⟩
    refine ⟨ex₃, ?_, ?_, ?_⟩
    · intro b
      rw [hex3 b, List.append_assoc, List.singleton_append]
    · rw [heq, List.append_assoc, List.singleton_append]
    · rw [← List.singleton_append, ← List.append_assoc]
      exact hperm3

end Capsul

namespace Capsul

/-- A selection over tuples none of which leaves the plug is empty. -/
theorem linksIn_nil_of_ne (l : List LinkT) (n q : Str)
    (h : ∀ u ∈ l, ¬ (u.1 = n ∧ u.2.1 = q)) : linksIn l n q = [] := by
  cases he : linksIn l n q with
  | nil => rfl
  | cons x xs =>
    exfalso
    have hx : x ∈ linksIn l n q := by
      rw [he]
      exact List.mem_cons_self x xs
    rw [linksIn, List.mem_filterMap] at hx
    rcases hx with ⟨u, hu, hf⟩
    by_cases hc : u.1 = n ∧ u.2.1 = q
    · exact h u hu hc
    · rw [if_neg hc] at hf
      exact Option.noConfusion hf

/-- Selecting the tuples of one plug from its own tuple block. -/
theorem linksIn_map_self (n q : Str) (ls : List (Str × Str × Bool)) :
    linksIn (ls.map (fun l => ((n, q, l) : LinkT))) n q = ls := by
  induction ls with
  | nil => rfl
  | cons a as ih =>
    rw [List.map_cons, linksIn, List.filterMap_cons]
    rw [if_pos (show (((n, q, a) : LinkT)).1 = n ∧
      (((n, q, a) : LinkT)).2.1 = q from ⟨rfl, rfl⟩)]
    rw [show List.filterMap (fun t => if t.1 = n ∧ t.2.1 = q
      then some t.2.2 else none) (as.map (fun l => ((n, q, l) : LinkT))) =
      linksIn (as.map (fun l => ((n, q, l) : LinkT))) n q from rfl, ih]

/-- No selection from the tuple blocks of other plugs of the same node. -/
theorem linksIn_plug_block (n : Str) (ps : List (Str × Plug)) (q : Str)
    (h : q ∉ ps.map Prod.fst) :
    linksIn (ps.flatMap (fun qp =>
      qp.2.links_to.map (fun l => ((n, qp.1, l) : LinkT)))) n q = [] := by
  induction ps with
  | nil => rfl
  | cons qp rest ih =>
    rw [List.map_cons] at h
    rw [List.flatMap_cons, linksIn_append,
      ih (fun hx => h (List.mem_cons_of_mem _ hx)), List.append_nil]
    apply linksIn_nil_of_ne
    intro u hu hc
    rcases List.mem_map.1 hu with ⟨l, hl, he⟩
    rw [← he] at hc
    exact h (List.mem_cons.2 (Or.inl hc.2.symm))

/-- No selection from the tuple blocks of other nodes. -/
theorem linksIn_node_block (n q : Str) (ns : List (Str × PNode))
    (h : n ∉ ns.map Prod.fst) :
    linksIn (ns.flatMap nodeLinks) n q = [] := by
  induction ns with
  | nil => rfl
  | cons mm rest ih =>
    rw [List.map_cons] at h
    rw [List.flatMap_cons, linksIn_append,
      ih (fun hx => h (List.mem_cons_of_mem _ hx)), List.append_nil]
    apply linksIn_nil_of_ne
    intro u hu hc
    rw [nodeLinks_eq] at hu
    rcases List.mem_flatMap.1 hu with ⟨qp, hqp, hu2⟩
    rcases List.mem_map.1 hu2 with ⟨l, hl, he⟩
    rw [← he] at hc
    exact h (List.mem_cons.2 (Or.inl hc.1.symm))

/-- Selecting a plug's tuples from the whole link list recovers its
stored links. -/
theorem linksIn_allLinksD {ν : Type} (G : Pipeline ν)
    (hnn : (G.nodes.map Prod.fst).Nodup)
    (hnp : ∀ nn ∈ G.nodes, (nn.2.plugs.map Prod.fst).Nodup)
    (n : Str) (nd : PNode) (hmem : (n, nd) ∈ G.nodes) (q : Str)
    (pl : Plug) (hq : (q, pl) ∈ nd.plugs) :
    linksIn (allLinksD G) n q = pl.links_to := by
  have hlk : G.nodes.lookup n = some nd :=
    mem_lookup_of_nodup G.nodes n nd hnn hmem
  rcases lookup_decomp G.nodes n nd hlk with ⟨m1, m2, he, hk1⟩
  have hk2 : n ∉ m2.map Prod.fst := by
    have hx := hnn
    rw [he, List.map_append, List.map_cons] at hx
    exact (List.nodup_cons.1 (List.Nodup.of_append_right hx)).1
  have hplk : nd.plugs.lookup q = some pl :=
    mem_lookup_of_nodup nd.plugs q pl (hnp (n, nd) hmem) hq
  rcases lookup_decomp nd.plugs q pl hplk with ⟨q1, q2, hqe, hq1⟩
  have hq2 : q ∉ q2.map Prod.fst := by
    have hx := hnp (n, nd) hmem
    rw [hqe, List.map_append, List.map_cons] at hx
    exact (List.nodup_cons.1 (List.Nodup.of_append_right hx)).1
  rw [allLinksD_eq_flatMap, he, List.flatMap_append, List.flatMap_cons]
  rw [linksIn_append, linksIn_append, linksIn_node_block n q m1 hk1,
    linksIn_node_block n q m2 hk2, List.append_nil, List.nil_append]
  rw [nodeLinks_eq]
  dsimp only
  rw [hqe, List.flatMap_append, List.flatMap_cons, linksIn_append,
    linksIn_append, linksIn_plug_block n q1 q hq1,
    linksIn_plug_block n q2 q hq2, List.append_nil, List.nil_append]
  exact linksIn_map_self n q pl.links_to

end Capsul

namespace Capsul

/-- Relinking a node by the whole link list restores it. -/
theorem relinkNode_full {ν : Type} (G : Pipeline ν)
    (hnn : (G.nodes.map Prod.fst).Nodup)
    (hnp : ∀ nn ∈ G.nodes, (nn.2.plugs.map Prod.fst).Nodup)
    (nn : Str × PNode) (hmem : nn ∈ G.nodes) :
    relinkNode (allLinksD G) nn = nn := by
  obtain ⟨n, nd⟩ := nn
  obtain ⟨m, i, it, ps⟩ := nd
  rw [relinkNode]
  have hmap : ∀ qp ∈ ps, (qp.1, (⟨qp.2.output,
      linksIn (allLinksD G) n qp.1⟩ : Plug)) = qp := by
    intro qp hqp
    have hl := linksIn_allLinksD G hnn hnp n ⟨m, i, it, ps⟩ hmem qp.1
      qp.2 hqp
    rw [hl]
  rw [List.map_congr_left hmap]
  rw [List.map_id']

/-- The named nodes of the fully replayed mid-link state are the named
nodes of the original pipeline. -/
theorem midL_full_named {ν : Type} (lib : Lib) (G : Pipeline ν)
    (hinv : GInv lib G) :
    (namedNodes G).map (relinkNode (allLinksD G)) = namedNodes G := by
  have hmap : ∀ nn ∈ namedNodes G, relinkNode (allLinksD G) nn = nn := by
    intro nn hm
    apply relinkNode_full G hinv.nodup_nodes hinv.nodup_plugs nn
    rw [hinv.shape]
    exact List.mem_cons_of_mem _ hm
  rw [List.map_congr_left hmap, List.map_id']

/-- Pipeline plug lookup reads the head node. -/
theorem getPlug_pipe_eq {ν : Type} (lib : Lib) (G : Pipeline ν)
    (hc : GCore lib G) (b : Str) :
    G.getPlug [] b = (pipePlugs G).lookup b := by
  rw [Pipeline.getPlug, hc.shape, lookup_cons_self]
  rfl

/-- Every pipeline plug of an invariant state is mentioned by some stored
link. -/
theorem pipe_mentioned {ν : Type} (lib : Lib) (G : Pipeline ν)
    (hinv : GInv lib G) (b : Str) (pl : Plug)
    (hb : (b, pl) ∈ pipePlugs G) : b ∈ mentions (allLinksD G) := by
  have hpmem : (([] : Str), (⟨[], false, [], pipePlugs G⟩ : PNode)) ∈
      G.nodes := by
    rw [hinv.shape]
    exact List.mem_cons_self _ _
  rcases Bool.eq_false_or_eq_true pl.output with ho | ho
  case inr =>
    have hne := hinv.pipe_in_nonempty (b, pl) hb ho
    cases hl : pl.links_to with
    | nil => exact absurd hl hne
    | cons l ls =>
      have hmem : ((([] : Str), b, l) : LinkT) ∈ allLinksD G := by
        rw [mem_allLinksD]
        refine ⟨([], ⟨[], false, [], pipePlugs G⟩), hpmem, (b, pl), hb,
          l, ?_, rfl⟩
        rw [hl]
        exact List.mem_cons_self l ls
      exact (mem_mentions _ b).2 ⟨([], b, l), hmem, rfl⟩
  case inl =>
    rcases hinv.pipe_out_covered (b, pl) hb ho with ⟨t, htm, hdst, hdq⟩
    rcases (mem_allLinksD G t).1 htm with ⟨mm, hmmm, qp, hqp, l, hl, hte⟩
    have hsrc : t.1 ≠ [] := by
      intro hx
      apply (hinv.links_dst mm hmmm qp hqp l hl).2.1
      constructor
      · rw [← show t.1 = mm.1 from congrArg (fun x => x.1) hte]
        exact hx
      · rw [show l.1 = t.2.2.1 from
          (congrArg (fun x => x.2.2.1) hte).symm]
        exact hdst
    refine (mem_mentions _ b).2 ⟨t, htm, ?_⟩
    rw [bareOf, if_neg hsrc, if_pos hdst, hdq]

end Capsul

namespace Capsul

/-- The pipeline-level plugs of the fully replayed mid-link state hold
the same mapping as the original pipeline's. -/
theorem pipe_lookup_full {ν : Type} (lib : Lib) (G : Pipeline ν)
    (hinv : GInv lib G) (b : Str) :
    (pipePlugs (midL G (allLinksD G))).lookup b =
      (pipePlugs G).lookup b := by
  rw [show pipePlugs (midL G (allLinksD G)) =
    (mentions (allLinksD G)).map (fun c =>
      (c, (⟨pout G c, linksIn (allLinksD G) [] c⟩ : Plug))) from rfl]
  rw [lookup_map_self]
  by_cases hm : b ∈ mentions (allLinksD G)
  · rw [if_pos hm]
    rcases (mem_mentions _ b).1 hm with ⟨t, htm, hbare⟩
    have hpl : ∃ pl, G.getPlug [] b = some pl := by
      obtain ⟨sn, sq, dn, dq, w⟩ := t
      rcases link_facts lib G hinv sn sq dn dq w htm with
        ⟨-, -, ⟨sp, hsp, -⟩, ⟨dp, hdp, -⟩⟩
      rw [bareOf] at hbare
      by_cases hsn : sn = []
      · rw [if_pos hsn] at hbare
        have hbq : sq = b := Option.some.inj hbare
        exact ⟨sp, by rw [← hbq, ← hsn]; exact hsp⟩
      · rw [if_neg hsn] at hbare
        by_cases hdn : dn = []
        · rw [if_pos hdn] at hbare
          have hbq : dq = b := Option.some.inj hbare
          exact ⟨dp, by rw [← hbq, ← hdn]; exact hdp⟩
        · rw [if_neg hdn] at hbare
          exact Option.noConfusion hbare
    rcases hpl with ⟨pl, hpl⟩
    have hpm : (b, pl) ∈ pipePlugs G := by
      have hx := hpl
      rw [getPlug_pipe_eq lib G hinv.toGCore] at hx
      exact lookup_mem _ _ _ hx
    have hout := pout_eq G b pl hpl
    have hlnk : linksIn (allLinksD G) [] b = pl.links_to := by
      apply linksIn_allLinksD G hinv.nodup_nodes hinv.nodup_plugs []
        (⟨[], false, [], pipePlugs G⟩ : PNode) ?_ b pl ?_
      · rw [hinv.shape]
        exact List.mem_cons_self _ _
      · exact hpm
    rw [hout, hlnk, ← getPlug_pipe_eq lib G hinv.toGCore, hpl]
  · rw [if_neg hm]
    cases hlb : (pipePlugs G).lookup b with
    | none => rfl
    | some pl =>
      exact absurd (pipe_mentioned lib G hinv b pl (lookup_mem _ _ _ hlb))
        hm

end Capsul

namespace Capsul

/-- C1 (amended): for every graph reached through builder calls in the
`opWF` fragment — names present and well-formed (non-empty, dot-free and
hyphen-free), no weak links, no pipeline-to-pipeline (bare-to-bare)
`add_link` calls, and every iterative process declaring a non-empty
iterative-parameter list; switch nodes are outside the modelled builder —
decoding the document the encoder produces succeeds and yields a graph
with the same named nodes, the same exported pipeline-plug mapping, and
the same link tuples (up to storage order, every one carrying the same
weak flag); but the selection groups are not preserved — the encoder never
writes them, so the decoded graph's selection groups are empty.  Each
restriction beyond name well-formedness is load-bearing: the weak
attribute is written but never read back by the decoder, and the
bare-to-bare and empty-iterate exclusions are refuted concretely in the
counterexample below. -/
theorem C1_round_trip {ν π : Type} (lib : Lib)
    (s2v : Option Str → Except String (Option π))
    (parseNum : Option Str → Except String ν) (numToStr : ν → Str)
    (hlib : libWF lib) (hpf : ∀ v, parseNum (some (numToStr v)) = .ok v)
    (ops : List (BOp ν π)) (hops : ∀ op ∈ ops, opWF op)
    (G : Pipeline ν) (hrun : runOps lib (emptyPipeline ν) ops = .ok G) :
    ∃ G', create_xml_pipeline lib s2v parseNum
        (save_xml_pipeline numToStr G) = .ok G' ∧
      namedNodes G' = namedNodes G ∧
      (∀ b, (pipePlugs G').lookup b = (pipePlugs G).lookup b) ∧
      (allLinksD G').Perm (allLinksD G) ∧
      G'.node_position = G.node_position ∧
      G'.scene_scale_factor = G.scene_scale_factor ∧
      G'.selection_groups = [] := by
  have hinv : GInv lib G := GInv_runOps lib hlib ops (emptyPipeline ν) G
    (GInv_empty lib) hops hrun
  have hnodupnamed : ((([] : List (Str × PNode)) ++
      namedNodes G).map Prod.fst).Nodup := by
    rw [List.nil_append]
    have hx := hinv.nodup_nodes
    rw [hinv.shape, List.map_cons] at hx
    exact (List.nodup_cons.1 hx).2
  have hprocs := replay_procs (ν := ν) (π := π) lib s2v parseNum
    (namedNodes G) [] []
    ((allLinksD G).map linkXElemOf ++ guiElems numToStr G)
    (fun nn hm => ⟨(hinv.named_lib nn hm).1,
      (hinv.named_lib nn hm).2.1, hinv.named_wf nn hm⟩)
    hnodupnamed
  rcases replay_links lib s2v parseNum G hinv (allLinksD G) [] []
    (by rw [List.nil_append]) (fun b => Iff.rfl)
    (by rw [allLinksD_midL_nil])
    (guiElems numToStr G) with ⟨ex₂, hex2, heq2, hperm2⟩
  simp only [List.nil_append] at heq2 hperm2
  have hroot : create_xml_pipeline lib s2v parseNum
      (save_xml_pipeline numToStr G) =
    createAux lib s2v parseNum (emptyPipeline ν) []
      ((_write_processes G ++ _write_links G) ++
        guiElems numToStr G) := rfl
  have hchain : createAux lib s2v parseNum (emptyPipeline ν) []
      ((_write_processes G ++ _write_links G) ++ guiElems numToStr G) =
      createAux lib s2v parseNum (midL G (allLinksD G)) ex₂
        (guiElems numToStr G) := by
    rw [List.append_assoc]
    rw [write_processes_eq G hinv.shape hinv.named_wf,
      write_links_eq G hinv.links_src]
    rw [show emptyPipeline ν = midN ν [] from rfl]
    rw [hprocs]
    rw [show midN ν (([] : List (Str × PNode)) ++ namedNodes G) =
      midL G [] from by rw [List.nil_append]; rfl]
    exact heq2
  have hfull := hroot.trans hchain
  rcases hg : guiElems numToStr G with _ | ⟨g, gtail⟩
  · have hcond : ¬ (G.node_position.isEmpty = false ∨
        G.scene_scale_factor.isSome) := by
      intro hc
      rw [guiElems, if_pos hc] at hg
      exact List.noConfusion hg
    rcases not_or.1 hcond with ⟨h1, h2⟩
    have hp0 : G.node_position = [] := by
      have hx := eq_true_of_ne_false h1
      simpa using hx
    have hs0 : G.scene_scale_factor = none :=
      Option.not_isSome_iff_eq_none.1 h2
    refine ⟨midL G (allLinksD G), ?_, ?_, ?_, hperm2, ?_, ?_, rfl⟩
    · rw [hfull, hg]
      rfl
    · have h2x : namedNodes (midL G (allLinksD G)) =
        (namedNodes G).map (relinkNode (allLinksD G)) := rfl
      rw [h2x, midL_full_named lib G hinv]
    · intro b
      exact pipe_lookup_full lib G hinv b
    · rw [hp0]
      rfl
    · rw [hs0]
      rfl
  · have hgt : gtail = [] := by
      rw [guiElems] at hg
      by_cases hc : G.node_position.isEmpty = false ∨
          G.scene_scale_factor.isSome
      · rw [if_pos hc] at hg
        exact (List.cons.inj hg).2.symm
      · rw [if_neg hc] at hg
        exact List.noConfusion hg
    subst hgt
    rcases gui_entry_replay s2v parseNum numToStr lib G
      (midL G (allLinksD G)) ex₂ hpf rfl rfl hinv.nodup_pos g
      (by rw [hg]; exact List.mem_cons_self _ _) with
      ⟨gops, q', hdec, hrunq, hq1, hq2, hq3, hq4⟩
    refine ⟨q', ?_, ?_, ?_, ?_, hq1, hq2, ?_⟩
    · rw [hfull, hg, createAux, hdec]
      simp only [exceptOkBind]
      rw [hrunq]
      simp only [exceptOkBind]
      rfl
    · have h1 : namedNodes q' = namedNodes (midL G (allLinksD G)) := by
        rw [namedNodes, namedNodes, hq3]
      rw [h1]
      have h2x : namedNodes (midL G (allLinksD G)) =
        (namedNodes G).map (relinkNode (allLinksD G)) := rfl
      rw [h2x, midL_full_named lib G hinv]
    · intro b
      have h1 : pipePlugs q' = pipePlugs (midL G (allLinksD G)) := by
        rw [pipePlugs, pipePlugs, hq3]
      rw [h1]
      exact pipe_lookup_full lib G hinv b
    · have h1 : allLinksD q' = allLinksD (midL G (allLinksD G)) := by
        rw [allLinksD_eq_flatMap, allLinksD_eq_flatMap, hq3]
      rw [h1]
      exact hperm2
    · rw [hq4]
      rfl

end Capsul

namespace Capsul

/-- The test library declares distinct well-formed parameter names. -/
theorem tlib_wf : libWF tlib := by
  intro mo params h
  rw [tlib] at h
  by_cases h1 : mo = chs ("mods.P")
  · rw [if_pos h1] at h
    rw [← Option.some.inj h]
    exact ⟨by decide, by decide⟩
  · rw [if_neg h1] at h
    by_cases h2 : mo = chs ("mods.Q")
    · rw [if_pos h2] at h
      rw [← Option.some.inj h]
      exact ⟨by decide, by decide⟩
    · rw [if_neg h2] at h
      by_cases h3 : mo = chs ("mods.O")
      · rw [if_pos h3] at h
        rw [← Option.some.inj h]
        exact ⟨by decide, by decide⟩
      · rw [if_neg h3] at h
        by_cases h4 : mo = chs ("mods.I")
        · rw [if_pos h4] at h
          rw [← Option.some.inj h]
          exact ⟨by decide, by decide⟩
        · rw [if_neg h4] at h
          exact Option.noConfusion h

/-- Witness for C1 at a concrete builder run: one process with an
exported output round-trips through the codec. -/
theorem C1_witness :
    runOps tlib (emptyPipeline Str)
      [BOp.add_process (π := Unit) (some (chs ("P1")))
        (some (chs ("mods.P"))) [] [] [],
       BOp.export_parameter (chs ("P1")) (chs ("o")) (chs ("out"))] =
      .ok expG ∧
    ∃ G', create_xml_pipeline tlib ts2v tnum
        (save_xml_pipeline (fun v => v) expG) = .ok G' ∧
      namedNodes G' = namedNodes expG ∧
      (∀ b, (pipePlugs G').lookup b = (pipePlugs expG).lookup b) ∧
      (allLinksD G').Perm (allLinksD expG) ∧
      G'.node_position = expG.node_position ∧
      G'.scene_scale_factor = expG.scene_scale_factor ∧
      G'.selection_groups = [] := by
  refine ⟨rfl, ?_⟩
  exact C1_round_trip tlib ts2v tnum (fun v => v) tlib_wf (fun v => rfl)
    [BOp.add_process (some (chs ("P1"))) (some (chs ("mods.P"))) [] [] [],
     BOp.export_parameter (chs ("P1")) (chs ("o")) (chs ("out"))]
    (by
      intro op hop
      rcases List.mem_cons.1 hop with rfl | hop
      · exact ⟨⟨chs ("P1"), rfl, by decide⟩, rfl⟩
      rcases List.mem_cons.1 hop with rfl | hop
      · show wfName (chs ("out"))
        decide
      · exact absurd hop (List.not_mem_nil op))
    expG rfl

/-- Counterexamples to C1, one per failing clause of the original claim
and one per load-bearing builder restriction of the amended one: (1) a
builder run recording one selection group encodes to a document with no
trace of it, and decoding yields the empty pipeline with no selection
groups; (2) a run using only well-formed names and non-weak links but one
pipeline-to-pipeline (bare-to-bare) link builds successfully, yet decoding
its encoding fails — when the bare-to-bare link element is replayed its
destination plug has not been exported yet; (3) an iterative process
declaring an empty iterative-parameter list is re-encoded without iterate
children, so the decoded node has lost its iteration flag. -/
theorem C1_counterexample :
    (runOps tlib (emptyPipeline Str)
      [BOp.add_processes_selection (π := Unit) (some (chs ("sel"))) []] =
      .ok selG ∧
    selG.selection_groups ≠ [] ∧
    create_xml_pipeline tlib ts2v tnum
      (save_xml_pipeline (fun v => v) selG) = .ok (emptyPipeline Str) ∧
    (emptyPipeline Str).selection_groups = []) ∧
    (∃ G : Pipeline Str, runOps tlib (emptyPipeline Str)
      [BOp.add_process (π := Unit) (some (chs ("P1")))
         (some (chs ("mods.P"))) [] [] [],
       BOp.export_parameter (chs ("P1")) (chs ("i")) (chs ("a")),
       BOp.export_parameter (chs ("P1")) (chs ("o")) (chs ("b")),
       BOp.add_link (chs ("a->b")) false] = .ok G ∧
      create_xml_pipeline tlib ts2v tnum
        (save_xml_pipeline (fun v => v) G) =
        .error ("InvalidLinkError: unknown dest plug")) ∧
    (∃ G G' : Pipeline Str, runOps tlib (emptyPipeline Str)
      [BOp.add_iterative_process (π := Unit) (some (chs ("P1")))
         (some (chs ("mods.P"))) [] [] [] []] = .ok G ∧
      create_xml_pipeline tlib ts2v tnum
        (save_xml_pipeline (fun v => v) G) = .ok G' ∧
      (G.nodes.lookup (chs ("P1"))).map PNode.isIter = some true ∧
      (G'.nodes.lookup (chs ("P1"))).map PNode.isIter = some false) := by
  refine ⟨⟨rfl, ?_, rfl, rfl⟩, ⟨_, rfl, rfl⟩, ⟨_, _, rfl, rfl, rfl, rfl⟩⟩
  decide

end Capsul
